import Mathlib

/-!
# serial_log: tag-level resolution and caching

A shallow embedding of `serial_log.c` (the override list, the tag cache kept as
a binary min-heap on a generation counter, the resolver used by
`serial_log_write`, and the hex dump `serial_log_buffer_hex_internal`),
followed by theorems about it.

Conventions of the embedding.

* A `const char*` tag is an address (a natural number).  The strings that
  tags point to are not modified while the program runs, so the memory holding
  them is a function `text : Nat → String` that every operation reading the
  characters of a tag takes as a parameter.  The C comparison `p == q` on tags
  compares addresses; `strcmp` compares the texts stored there.
* `serial_log_level_set` only reads the characters of its `tag` argument, so
  it takes the text itself.
* The file-scope variables of `serial_log.c` are the fields of `State`.
* `set_log_cache` is a list whose length is the size of the C array.  Every
  array read and write is bounds-checked: an access outside the array makes the
  operation return `none`.
* `TAG_CACHE_SIZE` is a parameter `C` of every operation; the value compiled
  into the source is `TAG_CACHE_SIZE = 31`.
* Machine integers are natural numbers reduced explicitly: the `uint32_t`
  counter modulo `2^32`, the 29-bit `generation` field modulo `2^29`, the 3-bit
  `level` field modulo `8`, the `uint8_t` level of a list node modulo `256`.
* The result of `malloc` is an input (`malloc_ok`) of `serial_log_level_set`.
-/

set_option autoImplicit false

namespace SerialLog

/-! ## Data model -/

/-- Values of `serial_log_level_t`. -/
def SERIAL_LOG_NONE : Nat := 0
def SERIAL_LOG_ERROR : Nat := 1
def SERIAL_LOG_WARN : Nat := 2
def SERIAL_LOG_INFO : Nat := 3
def SERIAL_LOG_DEBUG : Nat := 4
def SERIAL_LOG_VERBOSE : Nat := 5

/-- The value of the macro `TAG_CACHE_SIZE` in `serial_log.c`. -/
def TAG_CACHE_SIZE : Nat := 31

/-- The null pointer held by the never-written entries of the static cache. -/
def NULL : Nat := 0

/-- The C struct `cached_tag_entry_t`: `tag`, `level : 3`, `generation : 29`. -/
structure cached_tag_entry_t where
  tag : Nat
  level : Nat
  generation : Nat
  deriving DecidableEq

/-- The C struct `uncached_tag_entry_t`: a list node with a private copy of the
tag text and a `uint8_t` level. -/
structure uncached_tag_entry_t where
  level : Nat
  tag : String
  deriving DecidableEq

/-- The file-scope variables of `serial_log.c`. -/
structure State where
  set_log_default_level : Nat
  set_log_tags : List uncached_tag_entry_t
  set_log_cache_max_generation : Nat
  set_log_cache_entry_count : Nat
  set_log_cache : List cached_tag_entry_t
  deriving DecidableEq

/-- The state after static initialisation: default level `SERIAL_LOG_VERBOSE`,
empty list, zeroed counters, zeroed cache array of `C` entries. -/
def init (C : Nat) : State :=
  { set_log_default_level := SERIAL_LOG_VERBOSE
    set_log_tags := []
    set_log_cache_max_generation := 0
    set_log_cache_entry_count := 0
    set_log_cache := List.replicate C ⟨NULL, 0, 0⟩ }

/-! ## Operations -/

/-- Checked array write `cache[i] = e`. -/
def cache_write (cache : List cached_tag_entry_t) (i : Nat) (e : cached_tag_entry_t) :
    Option (List cached_tag_entry_t) :=
  if i < cache.length then some (cache.set i e) else none

/-- `should_output`: `level_for_message <= level_for_tag`. -/
def should_output (level_for_message level_for_tag : Nat) : Bool :=
  decide (level_for_message ≤ level_for_tag)

/-- `heap_swap(i, j)`: exchange two cache entries. -/
def heap_swap (i j : Nat) (cache : List cached_tag_entry_t) :
    Option (List cached_tag_entry_t) := do
  let tmp ← cache[i]?
  let other ← cache[j]?
  let cache ← cache_write cache i other
  cache_write cache j tmp

/-- The loop of `heap_bubble_down`, with `fuel` bounding the number of
iterations; running out of fuel before the loop condition fails gives `none`. -/
def heap_bubble_down_loop (C : Nat) :
    Nat → Nat → List cached_tag_entry_t → Option (List cached_tag_entry_t)
  | 0, index, cache => if index < C / 2 then none else some cache
  | fuel + 1, index, cache =>
    if index < C / 2 then do
      let left_index := index * 2 + 1
      let right_index := left_index + 1
      let l ← cache[left_index]?
      let r ← cache[right_index]?
      let next := if l.generation < r.generation then left_index else right_index
      let cache ← heap_swap index next cache
      heap_bubble_down_loop C fuel next cache
    else some cache

/-- `heap_bubble_down(index)`.  The index at least doubles in every iteration,
so `C` iterations are more than the loop can use. -/
def heap_bubble_down (C : Nat) (index : Nat) (cache : List cached_tag_entry_t) :
    Option (List cached_tag_entry_t) :=
  heap_bubble_down_loop C C index cache

/-- The search loop of `get_cached_log_level`: starting at `i` with `n`
iterations left, the first index whose entry holds the same pointer as `tag`,
or the index reached when the iterations are used up. -/
def get_cached_scan (tag : Nat) (cache : List cached_tag_entry_t) : Nat → Nat → Option Nat
  | 0, i => some i
  | n + 1, i => do
    let e ← cache[i]?
    if e.tag = tag then some i else get_cached_scan tag cache n (i + 1)

/-- `get_cached_log_level(tag, &level)`: the new state and `some level` on a
hit, `none` on a miss. -/
def get_cached_log_level (C : Nat) (s : State) (tag : Nat) : Option (State × Option Nat) := do
  let i ← get_cached_scan tag s.set_log_cache s.set_log_cache_entry_count 0
  if i = s.set_log_cache_entry_count then
    some (s, none)
  else do
    let e ← s.set_log_cache[i]?
    let level := e.level
    if s.set_log_cache_entry_count = C then do
      let generation := s.set_log_cache_max_generation
      let cache ← cache_write s.set_log_cache i { e with generation := generation % 2 ^ 29 }
      let cache ← heap_bubble_down C i cache
      some ({ s with set_log_cache_max_generation := (generation + 1) % 2 ^ 32
                     set_log_cache := cache }, some level)
    else
      some (s, some level)

/-- `add_to_cache(tag, level)`. -/
def add_to_cache (C : Nat) (s : State) (tag : Nat) (level : Nat) : Option State := do
  let generation := s.set_log_cache_max_generation
  let s := { s with set_log_cache_max_generation := (generation + 1) % 2 ^ 32 }
  let entry : cached_tag_entry_t :=
    { tag := tag, level := level % 8, generation := generation % 2 ^ 29 }
  if s.set_log_cache_entry_count < C then do
    let cache ← cache_write s.set_log_cache s.set_log_cache_entry_count entry
    some { s with set_log_cache := cache
                  set_log_cache_entry_count := s.set_log_cache_entry_count + 1 }
  else do
    let cache ← cache_write s.set_log_cache 0 entry
    let cache ← heap_bubble_down C 0 cache
    some { s with set_log_cache := cache }

/-- `get_uncached_log_level(tag, &level)`: the level of the first list node
whose text equals the tag's text. -/
def get_uncached_log_level : List uncached_tag_entry_t → String → Option Nat
  | [], _ => none
  | it :: rest, tag => if tag = it.tag then some it.level else get_uncached_log_level rest tag

/-- The lookup block of `serial_log_write` (cache, else list or default, then
`add_to_cache`): the new state and `level_for_tag`. -/
def level_for_tag (C : Nat) (text : Nat → String) (s : State) (tag : Nat) :
    Option (State × Nat) := do
  let (s, cached) ← get_cached_log_level C s tag
  match cached with
  | some level => some (s, level)
  | none =>
    let level := match get_uncached_log_level s.set_log_tags (text tag) with
      | some level => level
      | none => s.set_log_default_level
    let s ← add_to_cache C s tag level
    some (s, level)

/-- `serial_log_write(level, tag, format, ...)`: the new state and whether the
message is formatted and handed to `FuncLog`. -/
def serial_log_write (C : Nat) (text : Nat → String) (s : State) (level : Nat) (tag : Nat) :
    Option (State × Bool) := do
  let (s, level_for_tag) ← level_for_tag C text s tag
  if !should_output level level_for_tag then some (s, false) else some (s, true)

/-- `clear_log_level_list`: free every list node and reset the cache counters. -/
def clear_log_level_list (s : State) : State :=
  { s with set_log_tags := []
           set_log_cache_entry_count := 0
           set_log_cache_max_generation := 0 }

/-- The first loop of `serial_log_level_set`: overwrite the level of the first
node whose text equals `tag`; `none` when the loop ends with `it == NULL`. -/
def update_existing_tag :
    List uncached_tag_entry_t → String → Nat → Option (List uncached_tag_entry_t)
  | [], _, _ => none
  | it :: rest, tag, level =>
    if it.tag = tag then some ({ it with level := level % 256 } :: rest)
    else (update_existing_tag rest tag level).map (it :: ·)

/-- The last loop of `serial_log_level_set`: starting at `i` with `n`
iterations left, set the level of the first cache entry whose text equals
`tag`, then stop. -/
def update_cached_level (text : Nat → String) (tag : String) (level : Nat) :
    Nat → Nat → List cached_tag_entry_t → Option (List cached_tag_entry_t)
  | 0, _, cache => some cache
  | n + 1, i, cache => do
    let e ← cache[i]?
    if text e.tag = tag then cache_write cache i { e with level := level % 8 }
    else update_cached_level text tag level n (i + 1) cache

/-- `serial_log_level_set(tag, level)`; `malloc_ok` says whether `malloc`
returns a node when it is called. -/
def serial_log_level_set (text : Nat → String) (s : State) (tag : String) (level : Nat)
    (malloc_ok : Bool) : Option State :=
  if tag = "*" then
    some (clear_log_level_list { s with set_log_default_level := level })
  else
    let tags : Option (List uncached_tag_entry_t) :=
      match update_existing_tag s.set_log_tags tag level with
      | some tags => some tags
      | none =>
        if malloc_ok then some ({ level := level % 256, tag := tag } :: s.set_log_tags)
        else none
    match tags with
    | none => some s
    | some tags => do
      let cache ←
        update_cached_level text tag level s.set_log_cache_entry_count 0 s.set_log_cache
      some { s with set_log_tags := tags, set_log_cache := cache }

/-! ## Runs -/

/-- Calls that touch the level state: the two entry points
(`serial_log_level_set`, and the lookup block of `serial_log_write`) and the
two static cache functions called on their own. -/
inductive Op where
  | level_set (tag : String) (level : Nat) (malloc_ok : Bool)
  | write (tag : Nat)
  | add (tag : Nat) (level : Nat)
  | get (tag : Nat)
  deriving DecidableEq

/-- One call. -/
def step (C : Nat) (text : Nat → String) (s : State) : Op → Option State
  | .level_set tag level malloc_ok => serial_log_level_set text s tag level malloc_ok
  | .write tag => (level_for_tag C text s tag).map Prod.fst
  | .add tag level => add_to_cache C s tag level
  | .get tag => (get_cached_log_level C s tag).map Prod.fst

/-- Run a list of calls in order. -/
def run (C : Nat) (text : Nat → String) : State → List Op → Option State
  | s, [] => some s
  | s, op :: ops => (step C text s op).bind (fun s => run C text s ops)

/-- States reached from the initial state by calls, each call `op` made in a
state `s` with `G s op`. -/
inductive Reach (C : Nat) (text : Nat → String) (G : State → Op → Prop) : State → Prop
  | init : Reach C text G (init C)
  | step {s s' : State} {o : Op} :
      Reach C text G s → G s o → step C text s o = some s' → Reach C text G s'

/-- A call of an entry point with a level of `serial_log_level_t`. -/
def api_call : Op → Prop
  | .level_set _ level _ => level ≤ SERIAL_LOG_VERBOSE
  | .write _ => True
  | .add _ _ => False
  | .get _ => False

/-- A call of `add_to_cache` or `get_cached_log_level` on its own. -/
def cache_call : Op → Prop
  | .level_set _ _ _ => False
  | .write _ => False
  | .add _ _ => True
  | .get _ => True

/-- The counter has not yet reached the first value that does not fit the
29-bit `generation` field. -/
def no_wrap (s : State) : Prop := s.set_log_cache_max_generation < 2 ^ 29

/-- States reachable by `serial_log_level_set` and `serial_log_write`. -/
def Reachable (C : Nat) (text : Nat → String) : State → Prop :=
  Reach C text (fun _ op => api_call op)

/-- The cache entries in use: the first `set_log_cache_entry_count` ones. -/
def occupied (s : State) : List cached_tag_entry_t :=
  s.set_log_cache.take s.set_log_cache_entry_count

/-- The resolver without a cache: list lookup, else the default level. -/
def uncached_level (text : Nat → String) (s : State) (tag : Nat) : Nat :=
  match get_uncached_log_level s.set_log_tags (text tag) with
  | some level => level
  | none => s.set_log_default_level

/-- The cache array has `C` entries and the entry count does not exceed `C`. -/
def WF (C : Nat) (s : State) : Prop :=
  s.set_log_cache.length = C ∧ s.set_log_cache_entry_count ≤ C

/-- The entry `add_to_cache(tag, level)` stores in state `s`. -/
def new_entry (s : State) (tag level : Nat) : cached_tag_entry_t :=
  { tag := tag, level := level % 8, generation := s.set_log_cache_max_generation % 2 ^ 29 }

/-- The entry a hit on `e` stores back when the cache is full. -/
def promoted (s : State) (e : cached_tag_entry_t) : cached_tag_entry_t :=
  { e with generation := s.set_log_cache_max_generation % 2 ^ 29 }

/-- The state with the counter incremented and the cache array replaced. -/
def bump (s : State) (cache : List cached_tag_entry_t) : State :=
  { s with set_log_cache_max_generation := (s.set_log_cache_max_generation + 1) % 2 ^ 32
           set_log_cache := cache }

/-- The override list after `serial_log_level_set(tag, level)` took effect:
either the first node with that text had its level overwritten in place, or
no node had that text and a new node was put at the head. -/
def tags_set (tags tags' : List uncached_tag_entry_t) (tag : String) (level : Nat) : Prop :=
  (∃ pre it post, tags = pre ++ it :: post ∧ it.tag = tag ∧ (∀ x ∈ pre, x.tag ≠ tag) ∧
      tags' = pre ++ { it with level := level % 256 } :: post) ∨
  ((∀ x ∈ tags, x.tag ≠ tag) ∧ tags' = { level := level % 256, tag := tag } :: tags)

/-- Invariant of the level state: well-formed cache, levels in
`NONE..VERBOSE`, one list node per text and none for `"*"`, and every occupied
cache entry whose text has no override holds the default level. -/
structure LevelInv (C : Nat) (text : Nat → String) (s : State) : Prop where
  wf : WF C s
  default_le : s.set_log_default_level ≤ SERIAL_LOG_VERBOSE
  tags_le : ∀ x ∈ s.set_log_tags, x.level ≤ SERIAL_LOG_VERBOSE
  tags_nodup : (s.set_log_tags.map (·.tag)).Nodup
  no_wildcard : ∀ x ∈ s.set_log_tags, x.tag ≠ "*"
  cached_default : ∀ e ∈ occupied s,
    get_uncached_log_level s.set_log_tags (text e.tag) = none →
      e.level = s.set_log_default_level

/-- A string memory in which every tag address holds the same text. -/
def const_text (t : String) : Nat → String := fun _ => t

/-- Tags of the set `U` are interned: two of them are the same pointer iff
their texts are equal. -/
def Interned (text : Nat → String) (U : Nat → Prop) : Prop :=
  ∀ p q, U p → U q → (p = q ↔ text p = text q)

/-- The tag pointer a call passes, if any, belongs to `U`. -/
def op_tags_in (U : Nat → Prop) : Op → Prop
  | .level_set _ _ _ => True
  | .write tag => U tag
  | .add tag _ => U tag
  | .get tag => U tag

/-- Invariant of the cache when tags are interned: the occupied entries hold
tags of `U`, pairwise different, each with the level the cache-free resolver
gives. -/
structure InternInv (text : Nat → String) (U : Nat → Prop) (s : State) : Prop where
  tags_in : ∀ e ∈ occupied s, U e.tag
  tags_nodup : ((occupied s).map (·.tag)).Nodup
  coherent : ∀ e ∈ occupied s, e.level = uncached_level text s e.tag

/-- A string memory with the text `"a"` at address 1 and `"b"` elsewhere. -/
def text_ab : Nat → String := fun a => if a = 1 then "a" else "b"

/-- The generation stored at index `i` of the array (0 outside the array). -/
def generation_at (cache : List cached_tag_entry_t) (i : Nat) : Nat :=
  match cache[i]? with
  | some e => e.generation
  | none => 0

/-- Min-heap order of the first `n` entries: each of them but the root has a
generation at least that of its parent. -/
def heap_ordered (cache : List cached_tag_entry_t) (n : Nat) : Prop :=
  ∀ i, 1 ≤ i → i < n → generation_at cache ((i - 1) / 2) ≤ generation_at cache i

/-- The heap property in the form `generation[i] ≤ min(generation[2i+1],
generation[2i+2])` for every `i` with `2i+2 < n`. -/
def heap_children (cache : List cached_tag_entry_t) (n : Nat) : Prop :=
  ∀ i, 2 * i + 2 < n →
    generation_at cache i ≤
      min (generation_at cache (2 * i + 1)) (generation_at cache (2 * i + 2))

/-- Invariant of the heap while the counter has not wrapped: the generations
of the occupied entries are below the counter, pairwise different and in
min-heap order. -/
structure HeapInv (C : Nat) (s : State) : Prop where
  wf : WF C s
  counter_le : s.set_log_cache_max_generation ≤ 2 ^ 29
  gen_lt : ∀ e ∈ occupied s, e.generation < s.set_log_cache_max_generation
  gen_nodup : ((occupied s).map (·.generation)).Nodup
  ordered : heap_ordered s.set_log_cache s.set_log_cache_entry_count

/-- The array is heap-ordered except around `index`: the entry at `index` has
the greatest generation, the order holds between every other entry and its
parent, and the parent of `index` is below the children of `index`. -/
def sinking (C : Nat) (index : Nat) (cache : List cached_tag_entry_t) : Prop :=
  index < C ∧
  (∀ k, k < C → generation_at cache k ≤ generation_at cache index) ∧
  (∀ j, 1 ≤ j → j < C → j ≠ index → (j - 1) / 2 ≠ index →
    generation_at cache ((j - 1) / 2) ≤ generation_at cache j) ∧
  (∀ j, 1 ≤ index → j < C → (j - 1) / 2 = index → 1 ≤ j →
    generation_at cache ((index - 1) / 2) ≤ generation_at cache j)

/-- Boolean form of `api_call`. -/
def is_api_call : Op → Bool
  | .level_set _ level _ => decide (level ≤ SERIAL_LOG_VERBOSE)
  | .write _ => true
  | .add _ _ => false
  | .get _ => false

/-- Boolean form of `cache_call`. -/
def is_cache_call : Op → Bool
  | .level_set _ _ _ => false
  | .write _ => false
  | .add _ _ => true
  | .get _ => true

/-- Boolean form of `no_wrap`. -/
def below_wrap (s : State) : Bool := decide (s.set_log_cache_max_generation < 2 ^ 29)

/-- Run a list of calls in order, checking the guard `g` before each call. -/
def run_guarded (C : Nat) (text : Nat → String) (g : State → Op → Bool) :
    State → List Op → Option State
  | s, [] => some s
  | s, op :: ops =>
    if g s op then (step C text s op).bind (fun s => run_guarded C text g s ops) else none

/-- A string memory with `"a"`, `"b"`, `"c"` at addresses 1, 2, 3 and `"d"`
elsewhere. -/
def text_abcd : Nat → String := fun a =>
  if a = 1 then "a" else if a = 2 then "b" else if a = 3 then "c" else "d"

/-- Scenario A with capacity 3: overrides for `"a"`, `"b"`, `"c"` at levels 1,
2, 3, then one log call for each of the three tags. -/
def scenario_A_ops : List Op :=
  [.level_set "a" 1 true, .level_set "b" 2 true, .level_set "c" 3 true,
   .write 1, .write 2, .write 3]

/-- The state the calls of scenario A lead to: the cache holds a, b, c with
generations 0, 1, 2. -/
def scenario_A_state : State :=
  { set_log_default_level := 5
    set_log_tags := [⟨3, "c"⟩, ⟨2, "b"⟩, ⟨1, "a"⟩]
    set_log_cache_max_generation := 3
    set_log_cache_entry_count := 3
    set_log_cache := [⟨1, 1, 0⟩, ⟨2, 2, 1⟩, ⟨3, 3, 2⟩] }

/-- The cache of scenario A after `d` was inserted at level 4. -/
def scenario_A_after : List cached_tag_entry_t := [⟨2, 2, 1⟩, ⟨4, 4, 3⟩, ⟨3, 3, 2⟩]

/-- Tags 1 to 30 cached in this order at the default level, with generations
0 to 29. -/
def filled_entries : List cached_tag_entry_t :=
  (List.range 30).map (fun j => ⟨j + 1, 5, j⟩)

/-- The state after one log call for each of the tags 1 to 31 and then `k`
more for tag 31: the cache is full, tag 31 sits at the leaf index 30 and has
been given the generations `30, 31, ..., 30 + k` in turn. -/
def pumped (k : Nat) : State :=
  { set_log_default_level := 5
    set_log_tags := []
    set_log_cache_max_generation := 31 + k
    set_log_cache_entry_count := 31
    set_log_cache := filled_entries ++ [⟨31, 5, (30 + k) % 2 ^ 29⟩] }

/-- One log call for each of the tags 1 to 31. -/
def fill_ops : List Op := (List.range 31).map (fun j => Op.write (j + 1))

/-- One `add_to_cache` call for each of the tags 1 to 31, at level 5. -/
def fill_adds : List Op := (List.range 31).map (fun j => Op.add (j + 1) 5)

/-- The state after `add_to_cache` was called for the tags 1, 2, 3 from the
initial state with capacity 31: three occupied entries, 28 never written. -/
def three_adds : State :=
  { set_log_default_level := 5
    set_log_tags := []
    set_log_cache_max_generation := 3
    set_log_cache_entry_count := 3
    set_log_cache := [⟨1, 5, 0⟩, ⟨2, 5, 1⟩, ⟨3, 5, 2⟩] ++ List.replicate 28 ⟨NULL, 0, 0⟩ }

/-- The state one log call for the new tag 100 after `pumped (2^29 - 30)`: the
counter has passed `2^29`, tag 31 holds the wrapped generation 0 at index 30
and tag 100 the wrapped generation 1 at index 15. -/
def wrapped : State :=
  { set_log_default_level := 5
    set_log_tags := []
    set_log_cache_max_generation := 2 ^ 29 + 2
    set_log_cache_entry_count := 31
    set_log_cache :=
      [⟨2, 5, 1⟩, ⟨4, 5, 3⟩, ⟨3, 5, 2⟩, ⟨8, 5, 7⟩, ⟨5, 5, 4⟩, ⟨6, 5, 5⟩, ⟨7, 5, 6⟩,
       ⟨16, 5, 15⟩, ⟨9, 5, 8⟩, ⟨10, 5, 9⟩, ⟨11, 5, 10⟩, ⟨12, 5, 11⟩, ⟨13, 5, 12⟩,
       ⟨14, 5, 13⟩, ⟨15, 5, 14⟩, ⟨100, 5, 1⟩, ⟨17, 5, 16⟩, ⟨18, 5, 17⟩, ⟨19, 5, 18⟩,
       ⟨20, 5, 19⟩, ⟨21, 5, 20⟩, ⟨22, 5, 21⟩, ⟨23, 5, 22⟩, ⟨24, 5, 23⟩, ⟨25, 5, 24⟩,
       ⟨26, 5, 25⟩, ⟨27, 5, 26⟩, ⟨28, 5, 27⟩, ⟨29, 5, 28⟩, ⟨30, 5, 29⟩, ⟨31, 5, 0⟩] }

/-- Two log calls for the tag pointers 1 and 2, both holding the text `"net"`,
then an override of `"net"` to `ERROR`. -/
def stale_ops : List Op :=
  [.write 1, .write 2, .level_set "net" SERIAL_LOG_ERROR true]

/-- Log calls that follow `stale_ops`: one for pointer 2, then one for each of
the 29 new pointers 3 to 31, which fill the cache, then two for the new
pointers 40 and 41, which evict the entries of pointers 1 and 2.  None of them
is a `serial_log_level_set`. -/
def evict_ops : List Op :=
  [Op.write 2] ++ (List.range 29).map (fun j => Op.write (j + 3)) ++ [.write 40, .write 41]

/-- No two occupied cache entries hold the same tag pointer. -/
def tags_unique (s : State) : Prop :=
  ((occupied s).map (fun e : cached_tag_entry_t => e.tag)).Nodup

/-- The child the loop of `heap_bubble_down` descends to from `index`: the
left child when its generation is strictly smaller than the right child's,
otherwise the right child. -/
def smaller_child (cache : List cached_tag_entry_t) (index : Nat) : Nat :=
  if generation_at cache (index * 2 + 1) < generation_at cache (index * 2 + 1 + 1) then
    index * 2 + 1
  else index * 2 + 1 + 1

/-- The path of the specification: from `index`, while the index is below
`C / 2`, go to the child of smaller generation in the array as it is before
the call; `fuel` bounds the number of steps. -/
def sink_path (C : Nat) (cache : List cached_tag_entry_t) : Nat → Nat → List Nat
  | 0, index => [index]
  | fuel + 1, index =>
    if index < C / 2 then index :: sink_path C cache fuel (smaller_child cache index)
    else [index]

/-- While the cache is below capacity the counter equals the entry count and
the entry at index `k` holds generation `k`. -/
def filling (C : Nat) (s : State) : Prop :=
  s.set_log_cache_entry_count < C →
    s.set_log_cache_max_generation = s.set_log_cache_entry_count ∧
    ∀ k, k < s.set_log_cache_entry_count → generation_at s.set_log_cache k = k

/-- The generation held by the occupied cache entry with the pointer `tag`,
if there is one. -/
def cached_generation (s : State) (tag : Nat) : Option Nat :=
  ((occupied s).find? (fun e => decide (e.tag = tag))).map (fun e => e.generation)

/-- The value a call stores into the `generation` field of a cache entry, if
it stores one, read from the cache after the call.  `add_to_cache(tag, ..)`
writes the entry of `tag`; `get_cached_log_level(tag, ..)` writes the entry of
`tag` on a hit when the cache is full; the lookup block of `serial_log_write`
goes through one of the two, so it writes the entry of `tag` except on a hit
below capacity; `serial_log_level_set` writes no generation. -/
def stored_generation (C : Nat) (text : Nat → String) (s : State) : Op → Option Nat
  | .level_set _ _ _ => none
  | .write tag =>
    if (cached_generation s tag).isSome ∧ s.set_log_cache_entry_count ≠ C then none
    else (step C text s (.write tag)).bind (fun s' => cached_generation s' tag)
  | .add tag level =>
    (step C text s (.add tag level)).bind (fun s' => cached_generation s' tag)
  | .get tag =>
    if (cached_generation s tag).isSome ∧ s.set_log_cache_entry_count = C then
      (step C text s (.get tag)).bind (fun s' => cached_generation s' tag)
    else none

/-- The generations stored by a list of calls, in the order they are stored. -/
def stored_generations (C : Nat) (text : Nat → String) : State → List Op → List Nat
  | _, [] => []
  | s, op :: ops =>
    match step C text s op with
    | none => []
    | some s' => (stored_generation C text s op).toList ++ stored_generations C text s' ops

/-- A call other than `serial_log_level_set("*", level)`. -/
def not_wildcard : Op → Prop
  | .level_set tag _ _ => tag ≠ "*"
  | _ => True

/-- One log call for each of the tags 1 to 31, then `2^29 - 30` more for tag
31. -/
def wrap_ops : List Op :=
  fill_ops ++ List.replicate (2 ^ 29 - 32) (Op.write 31) ++ [Op.write 31, Op.write 31]

/-! ## The hex dump -/

/-- `BYTES_PER_LINE`. -/
def BYTES_PER_LINE : Nat := 16

/-- The terminating character of a C string. -/
def NUL : Char := Char.ofNat 0

/-- One hexadecimal digit in lower case, as `%x` prints it. -/
def hex_digit (d : Nat) : Char :=
  if d < 10 then Char.ofNat (48 + d) else Char.ofNat (87 + d)

/-- `sprintf(&hex_buffer[pos], "%02x ", byte)`: two digits, a space and the
terminating NUL are written at `pos .. pos + 3`; a write outside `hex_buffer`
gives `none`.  Bytes are taken as values 0 to 255. -/
def sprintf_hex (hex_buffer : List Char) (pos : Nat) (byte : Nat) : Option (List Char) :=
  if pos + 3 < hex_buffer.length then
    some ((((hex_buffer.set pos (hex_digit (byte / 16 % 16))).set (pos + 1)
      (hex_digit (byte % 16))).set (pos + 2) (Char.ofNat 32)).set (pos + 3) NUL)
  else none

/-- The loop `for (int i = 0; i < buff_len; i++) sprintf(&hex_buffer[i * 3],
"%02x ", buffer[i])`, at index `i` with `n` iterations left. -/
def sprintf_loop (buffer : List Nat) : Nat → Nat → List Char → Option (List Char)
  | 0, _, hex_buffer => some hex_buffer
  | n + 1, i, hex_buffer => do
    let byte ← buffer[i]?
    let hex_buffer ← sprintf_hex hex_buffer (i * 3) byte
    sprintf_loop buffer n (i + 1) hex_buffer

/-- `memcpy(dst, src, n)` on arrays: `none` when `n` bytes do not fit `dst` or
are not there in `src`. -/
def memcpy (dst src : List Nat) (n : Nat) : Option (List Nat) :=
  if n ≤ dst.length ∧ n ≤ src.length then some (src.take n ++ dst.drop n) else none

/-- The string a `char` array holds: the characters before the first NUL. -/
def c_string (buf : List Char) : List Char := buf.takeWhile (fun c => c != NUL)

/-- The `do ... while (buff_len)` loop of `serial_log_buffer_hex_internal`;
the result is the list of strings passed to `SERIAL_LOG_LEVEL`, one per
iteration.  `buffer` is the array the pointer points into, from the pointer
on. -/
def serial_log_buffer_hex_loop :
    Nat → List Nat → List Char → List Nat → Nat → Option (List (List Char))
  | 0, _, _, _, _ => none
  | fuel + 1, temp_buffer, hex_buffer, buffer, buff_len => do
    let bytes_current_line := if buff_len > BYTES_PER_LINE then BYTES_PER_LINE else buff_len
    let temp_buffer ← memcpy temp_buffer buffer ((bytes_current_line + 3) / 4 * 4)
    let hex_buffer ← sprintf_loop buffer buff_len 0 hex_buffer
    let line := c_string hex_buffer
    let buff_len := buff_len - bytes_current_line
    let buffer := buffer.drop bytes_current_line
    if buff_len ≠ 0 then
      (serial_log_buffer_hex_loop fuel temp_buffer hex_buffer buffer buff_len).map (line :: ·)
    else some [line]

/-- `serial_log_buffer_hex_internal(tag, buffer, buff_len, log_level)`: the
strings logged, in order.  `hex_buffer` is the initial content of the local
array of `3 * BYTES_PER_LINE + 1` characters, `buffer` the array `buffer`
points to.  The tag and the level are passed on to `serial_log_write`
unchanged and are left out. -/
def serial_log_buffer_hex_internal (hex_buffer : List Char) (buffer : List Nat)
    (buff_len : Nat) : Option (List (List Char)) :=
  if buff_len = 0 then some []
  else
    serial_log_buffer_hex_loop buff_len (List.replicate (BYTES_PER_LINE + 3) 0) hex_buffer
      buffer buff_len

/-- The bytes 0 to 16 followed by three more bytes of the same array. -/
def seventeen_bytes : List Nat := List.range 20

/-- States in which the counter has not passed `2^29` since the start or
since the last wildcard set: the initial state, the state a wildcard set
leaves from any reachable state, and the states reached from these by calls
each made while the counter is below `2^29`. -/
inductive Unwrapped (C : Nat) (text : Nat → String) : State → Prop
  | init : Unwrapped C text (init C)
  | clear {s s' : State} {l : Nat} {m : Bool} :
      Reachable C text s → l ≤ SERIAL_LOG_VERBOSE →
      serial_log_level_set text s "*" l m = some s' → Unwrapped C text s'
  | step {s s' : State} {o : Op} :
      Unwrapped C text s → api_call o → no_wrap s → step C text s o = some s' →
      Unwrapped C text s'

/-- Calls made after scenario A: a log call for the new tag 4, which evicts,
an override of `"a"`, and a log call for the cached tag 2, which promotes. -/
def scenario_A_more : List Op := [.write 4, .level_set "a" 2 true, .write 2]

/-- Log calls for the tags 1 and 2, overrides of their texts `"a"` and `"b"`
to levels 1 and 2, which patch the two cache entries, and a log call for the
tag 3, which has no override. -/
def patched_ops : List Op :=
  [.write 1, .write 2, .level_set "a" 1 true, .level_set "b" 2 true, .write 3]

/-- The state `patched_ops` lead to with capacity 3: the entries of the tags
1 and 2 hold the levels 1 and 2 of their overrides, the entry of tag 3 the
default level. -/
def patched_state : State :=
  { set_log_default_level := 5
    set_log_tags := [⟨2, "b"⟩, ⟨1, "a"⟩]
    set_log_cache_max_generation := 3
    set_log_cache_entry_count := 3
    set_log_cache := [⟨1, 1, 0⟩, ⟨2, 2, 1⟩, ⟨3, 5, 2⟩] }

/-- A call of an entry point with a level of `serial_log_level_t` and, if it
passes a tag pointer, one of the pointers 1, 2, 3. -/
def is_abc_call : Op → Bool
  | .level_set _ level _ => decide (level ≤ SERIAL_LOG_VERBOSE)
  | .write tag => decide (tag = 1 ∨ tag = 2 ∨ tag = 3)
  | .add _ _ => false
  | .get _ => false

/-! # Theorems -/

/-! ## Arrays -/

theorem cache_write_eq {cache : List cached_tag_entry_t} {i : Nat} (e : cached_tag_entry_t)
    (h : i < cache.length) : cache_write cache i e = some (cache.set i e) := by
  simp [cache_write, h]

theorem heap_swap_eq {cache : List cached_tag_entry_t} {i j : Nat} {x y : cached_tag_entry_t}
    (hx : cache[i]? = some x) (hy : cache[j]? = some y) :
    heap_swap i j cache = some ((cache.set i y).set j x) := by
  have hi : i < cache.length := (List.getElem?_eq_some.mp hx).1
  have hj : j < cache.length := (List.getElem?_eq_some.mp hy).1
  simp [heap_swap, hx, hy, cache_write, hi, hj]

/-- Writing at `j` the element found at `j` and putting the old one in front
only reorders the list. -/
theorem perm_cons_set {α : Type} (x : α) :
    ∀ (l : List α) (j : Nat) (y : α), l[j]? = some y → (y :: l.set j x).Perm (x :: l)
  | [], j, y, h => by simp at h
  | a :: l, 0, y, h => by
    simp at h
    subst h
    simpa using List.Perm.swap x a l
  | a :: l, j + 1, y, h => by
    simp at h
    have ih := perm_cons_set x l j y h
    simp only [List.set_cons_succ]
    exact (List.Perm.swap a y _).trans ((ih.cons a).trans (List.Perm.swap x a l))

/-- Exchanging two elements of a list gives a permutation of it. -/
theorem perm_swap {α : Type} :
    ∀ (l : List α) (i j : Nat) (x y : α), l[i]? = some x → l[j]? = some y →
      ((l.set i y).set j x).Perm l
  | [], i, j, x, y, hx, _ => by simp at hx
  | a :: l, 0, 0, x, y, hx, hy => by
    simp at hx hy
    subst hx; subst hy
    simp
  | a :: l, 0, j + 1, x, y, hx, hy => by
    simp at hx hy
    subst hx
    simpa using perm_cons_set a l j y hy
  | a :: l, i + 1, 0, x, y, hx, hy => by
    simp at hx hy
    subst hy
    simpa using perm_cons_set a l i x hx
  | a :: l, i + 1, j + 1, x, y, hx, hy => by
    simp at hx hy
    simpa using (perm_swap l i j x y hx hy).cons a

/-! ## The bubble-down loop -/

/-- With an odd capacity, an index below `C / 2` has both children in the array. -/
theorem children_lt {C index : Nat} (hC : C % 2 = 1) (h : index < C / 2) :
    index * 2 + 1 < C ∧ index * 2 + 1 + 1 < C := by
  omega

/-- One iteration of the loop of `heap_bubble_down`. -/
theorem heap_bubble_down_loop_succ {C fuel index : Nat} {cache : List cached_tag_entry_t}
    {x l r : cached_tag_entry_t} (h : index < C / 2) (hx : cache[index]? = some x)
    (hl : cache[index * 2 + 1]? = some l) (hr : cache[index * 2 + 1 + 1]? = some r) :
    heap_bubble_down_loop C (fuel + 1) index cache =
      if l.generation < r.generation then
        heap_bubble_down_loop C fuel (index * 2 + 1) ((cache.set index l).set (index * 2 + 1) x)
      else
        heap_bubble_down_loop C fuel (index * 2 + 1 + 1)
          ((cache.set index r).set (index * 2 + 1 + 1) x) := by
  by_cases hlt : l.generation < r.generation
  · simp [heap_bubble_down_loop, h, hl, hr, hlt, heap_swap_eq hx hl]
  · simp [heap_bubble_down_loop, h, hl, hr, hlt, heap_swap_eq hx hr]

/-- Loop rule for `heap_bubble_down`: with an odd capacity and enough fuel the
loop returns, and a property of (index, array) kept by every exchange with the
child of smaller generation holds of the index and array at the end. -/
theorem heap_bubble_down_loop_rule {C : Nat} (hC : C % 2 = 1)
    (Inv : Nat → List cached_tag_entry_t → Prop)
    (hstep : ∀ (index : Nat) (cache : List cached_tag_entry_t) (x l r : cached_tag_entry_t),
      cache.length = C → index < C / 2 → cache[index]? = some x →
      cache[index * 2 + 1]? = some l → cache[index * 2 + 1 + 1]? = some r →
      Inv index cache →
      (l.generation < r.generation →
        Inv (index * 2 + 1) ((cache.set index l).set (index * 2 + 1) x)) ∧
      (¬ l.generation < r.generation →
        Inv (index * 2 + 1 + 1) ((cache.set index r).set (index * 2 + 1 + 1) x))) :
    ∀ (fuel index : Nat) (cache : List cached_tag_entry_t),
      cache.length = C → C / 2 ≤ index + fuel → Inv index cache →
      ∃ (k : Nat) (cache' : List cached_tag_entry_t),
        heap_bubble_down_loop C fuel index cache = some cache' ∧
        cache'.length = C ∧ C / 2 ≤ k ∧ Inv k cache'
  | 0, index, cache, hlen, hfuel, hinv => by
    refine ⟨index, cache, ?_, hlen, by omega, hinv⟩
    have : ¬ index < C / 2 := by omega
    simp [heap_bubble_down_loop, this]
  | fuel + 1, index, cache, hlen, hfuel, hinv => by
    by_cases h : index < C / 2
    · have hb := children_lt hC h
      have hx : cache[index]? = some cache[index] := List.getElem?_eq_getElem (by omega)
      have hl : cache[index * 2 + 1]? = some cache[index * 2 + 1] :=
        List.getElem?_eq_getElem (by omega)
      have hr : cache[index * 2 + 1 + 1]? = some cache[index * 2 + 1 + 1] :=
        List.getElem?_eq_getElem (by omega)
      have hs := hstep index cache _ _ _ hlen h hx hl hr hinv
      rw [heap_bubble_down_loop_succ h hx hl hr]
      by_cases hlt : cache[index * 2 + 1].generation < cache[index * 2 + 1 + 1].generation
      · rw [if_pos hlt]
        exact heap_bubble_down_loop_rule hC Inv hstep fuel _ _ (by simp [hlen]) (by omega)
          (hs.1 hlt)
      · rw [if_neg hlt]
        exact heap_bubble_down_loop_rule hC Inv hstep fuel _ _ (by simp [hlen]) (by omega)
          (hs.2 hlt)
    · exact ⟨index, cache, by simp [heap_bubble_down_loop, h], hlen, by omega, hinv⟩

/-- Rule for `heap_bubble_down`, from the loop rule with the fuel the function
supplies. -/
theorem heap_bubble_down_rule {C : Nat} (hC : C % 2 = 1)
    (Inv : Nat → List cached_tag_entry_t → Prop)
    (hstep : ∀ (index : Nat) (cache : List cached_tag_entry_t) (x l r : cached_tag_entry_t),
      cache.length = C → index < C / 2 → cache[index]? = some x →
      cache[index * 2 + 1]? = some l → cache[index * 2 + 1 + 1]? = some r →
      Inv index cache →
      (l.generation < r.generation →
        Inv (index * 2 + 1) ((cache.set index l).set (index * 2 + 1) x)) ∧
      (¬ l.generation < r.generation →
        Inv (index * 2 + 1 + 1) ((cache.set index r).set (index * 2 + 1 + 1) x)))
    (index : Nat) (cache : List cached_tag_entry_t) (hlen : cache.length = C)
    (hinv : Inv index cache) :
    ∃ (k : Nat) (cache' : List cached_tag_entry_t),
      heap_bubble_down C index cache = some cache' ∧
      cache'.length = C ∧ C / 2 ≤ k ∧ Inv k cache' :=
  heap_bubble_down_loop_rule hC Inv hstep C index cache hlen (by omega) hinv

/-- With an odd capacity `heap_bubble_down` returns, whatever the index. -/
theorem heap_bubble_down_some {C : Nat} (hC : C % 2 = 1) (index : Nat)
    (cache : List cached_tag_entry_t) (hlen : cache.length = C) :
    ∃ cache', heap_bubble_down C index cache = some cache' := by
  obtain ⟨_, cache', h, _⟩ :=
    heap_bubble_down_rule hC (fun _ _ => True) (fun _ _ _ _ _ _ _ _ _ _ _ => ⟨fun _ => trivial,
      fun _ => trivial⟩) index cache hlen trivial
  exact ⟨cache', h⟩

/-- The array `heap_bubble_down` returns is a permutation of its argument, of
the same length. -/
theorem heap_bubble_down_perm {C : Nat} (hC : C % 2 = 1) {index : Nat}
    {cache cache' : List cached_tag_entry_t} (hlen : cache.length = C)
    (h : heap_bubble_down C index cache = some cache') :
    cache'.length = C ∧ cache'.Perm cache := by
  obtain ⟨_, c, hc, hclen, _, hperm⟩ :=
    heap_bubble_down_rule hC (fun _ c => c.Perm cache)
      (fun index c x l r _ _ hx hl hr hinv =>
        ⟨fun _ => (perm_swap c _ _ x l hx hl).trans hinv,
         fun _ => (perm_swap c _ _ x r hx hr).trans hinv⟩)
      index cache hlen (List.Perm.refl _)
  rw [h] at hc
  cases hc
  exact ⟨hclen, hperm⟩

/-! ## The scans -/

theorem get_cached_scan_spec (tag : Nat) (cache : List cached_tag_entry_t) :
    ∀ (n i : Nat), i + n ≤ cache.length →
      ∃ k, get_cached_scan tag cache n i = some k ∧ i ≤ k ∧ k ≤ i + n ∧
        (∀ j e, i ≤ j → j < k → cache[j]? = some e → e.tag ≠ tag) ∧
        (k < i + n → ∃ e, cache[k]? = some e ∧ e.tag = tag)
  | 0, i, _ => ⟨i, rfl, le_refl _, le_refl _, fun j e h1 h2 => by omega, fun h => by omega⟩
  | n + 1, i, hlen => by
    have hi : cache[i]? = some cache[i] := List.getElem?_eq_getElem (by omega)
    by_cases ht : cache[i].tag = tag
    · refine ⟨i, by simp [get_cached_scan, hi, ht], le_refl _, by omega,
        fun j e h1 h2 => by omega, fun _ => ⟨_, hi, ht⟩⟩
    · obtain ⟨k, hk, h1, h2, h3, h4⟩ := get_cached_scan_spec tag cache n (i + 1) (by omega)
      refine ⟨k, by simp [get_cached_scan, hi, ht, hk], by omega, by omega, ?_,
        fun h => h4 (by omega)⟩
      intro j e hj1 hj2 hje
      by_cases hji : j = i
      · subst hji
        rw [hi] at hje
        cases hje
        exact ht
      · exact h3 j e (by omega) hj2 hje

theorem update_cached_level_spec (text : Nat → String) (tag : String) (level : Nat)
    (cache : List cached_tag_entry_t) :
    ∀ (n i : Nat), i + n ≤ cache.length →
      (update_cached_level text tag level n i cache = some cache ∧
        ∀ j e, i ≤ j → j < i + n → cache[j]? = some e → text e.tag ≠ tag) ∨
      (∃ k e, i ≤ k ∧ k < i + n ∧ cache[k]? = some e ∧ text e.tag = tag ∧
        (∀ j e', i ≤ j → j < k → cache[j]? = some e' → text e'.tag ≠ tag) ∧
        update_cached_level text tag level n i cache =
          some (cache.set k { e with level := level % 8 }))
  | 0, i, _ => Or.inl ⟨rfl, fun j e h1 h2 => by omega⟩
  | n + 1, i, hlen => by
    have hlt : i < cache.length := by omega
    have hi : cache[i]? = some cache[i] := List.getElem?_eq_getElem hlt
    by_cases ht : text cache[i].tag = tag
    · refine Or.inr ⟨i, cache[i], le_refl _, by omega, hi, ht, fun j e h1 h2 => by omega, ?_⟩
      simp [update_cached_level, hi, ht, cache_write, hlt]
    · rcases update_cached_level_spec text tag level cache n (i + 1) (by omega) with
        ⟨h1, h2⟩ | ⟨k, e, h1, h2, h3, h4, h5, h6⟩
      · refine Or.inl ⟨by simp [update_cached_level, hi, ht, h1], ?_⟩
        intro j e hj1 hj2 hje
        by_cases hji : j = i
        · subst hji
          rw [hi] at hje
          cases hje
          exact ht
        · exact h2 j e (by omega) (by omega) hje
      · refine Or.inr ⟨k, e, by omega, by omega, h3, h4, ?_, by
          simp [update_cached_level, hi, ht, h6]⟩
        intro j e' hj1 hj2 hje
        by_cases hji : j = i
        · subst hji
          rw [hi] at hje
          cases hje
          exact ht
        · exact h5 j e' (by omega) hj2 hje

/-! ## The cache operations, case by case -/

theorem add_to_cache_below {C : Nat} {s : State} (hwf : WF C s)
    (h : s.set_log_cache_entry_count < C) (tag level : Nat) :
    add_to_cache C s tag level =
      some { bump s (s.set_log_cache.set s.set_log_cache_entry_count (new_entry s tag level))
             with set_log_cache_entry_count := s.set_log_cache_entry_count + 1 } := by
  have hlt : s.set_log_cache_entry_count < s.set_log_cache.length := by rw [hwf.1]; exact h
  simp [add_to_cache, h, cache_write, hlt, bump, new_entry]

theorem add_to_cache_full {C : Nat} (hC : C % 2 = 1) {s : State} (hwf : WF C s)
    (h : ¬ s.set_log_cache_entry_count < C) (tag level : Nat) :
    ∃ cache', heap_bubble_down C 0 (s.set_log_cache.set 0 (new_entry s tag level)) = some cache' ∧
      add_to_cache C s tag level = some (bump s cache') := by
  have hlt : 0 < s.set_log_cache.length := by rw [hwf.1]; omega
  obtain ⟨cache', hc⟩ := heap_bubble_down_some hC 0
    (s.set_log_cache.set 0 (new_entry s tag level)) (by simp [hwf.1])
  refine ⟨cache', hc, ?_⟩
  simp [new_entry] at hc
  simp [add_to_cache, h, cache_write, hlt, bump, hc]

/-- The three outcomes of `get_cached_log_level`: a miss, a hit below
capacity, a hit at full capacity. -/
theorem get_cached_log_level_spec {C : Nat} (hC : C % 2 = 1) {s : State} (hwf : WF C s)
    (tag : Nat) :
    (get_cached_log_level C s tag = some (s, none) ∧
      ∀ j e, j < s.set_log_cache_entry_count → s.set_log_cache[j]? = some e → e.tag ≠ tag) ∨
    (∃ i e, i < s.set_log_cache_entry_count ∧ s.set_log_cache[i]? = some e ∧ e.tag = tag ∧
      (∀ j e', j < i → s.set_log_cache[j]? = some e' → e'.tag ≠ tag) ∧
      ((s.set_log_cache_entry_count ≠ C ∧
          get_cached_log_level C s tag = some (s, some e.level)) ∨
       (s.set_log_cache_entry_count = C ∧
          ∃ cache', heap_bubble_down C i (s.set_log_cache.set i (promoted s e)) = some cache' ∧
            get_cached_log_level C s tag = some (bump s cache', some e.level)))) := by
  obtain ⟨k, hk, _, h2, h3, h4⟩ :=
    get_cached_scan_spec tag s.set_log_cache s.set_log_cache_entry_count 0
      (by rw [hwf.1]; simpa using hwf.2)
  by_cases hkc : k = s.set_log_cache_entry_count
  · left
    refine ⟨by simp [get_cached_log_level, hk, hkc], ?_⟩
    intro j e hj hje
    exact h3 j e (Nat.zero_le _) (by omega) hje
  · right
    obtain ⟨e, he, het⟩ := h4 (by omega)
    refine ⟨k, e, by omega, he, het, fun j e' hj => h3 j e' (Nat.zero_le _) hj, ?_⟩
    have hlt : k < s.set_log_cache.length := (List.getElem?_eq_some.mp he).1
    by_cases hfull : s.set_log_cache_entry_count = C
    · right
      obtain ⟨cache', hc⟩ := heap_bubble_down_some hC k
        (s.set_log_cache.set k (promoted s e)) (by simp [hwf.1])
      refine ⟨hfull, cache', hc, ?_⟩
      subst hfull
      simp [promoted] at hc
      simp [get_cached_log_level, hk, hkc, he, cache_write, hlt, bump, hc]
    · left
      exact ⟨hfull, by simp [get_cached_log_level, hk, hkc, he, hfull]⟩

/-! ## The occupied part of the cache -/

theorem mem_occupied {s : State} {e : cached_tag_entry_t} :
    e ∈ occupied s ↔ ∃ j, j < s.set_log_cache_entry_count ∧ s.set_log_cache[j]? = some e := by
  unfold occupied
  rw [List.mem_iff_getElem?]
  constructor
  · rintro ⟨j, hj⟩
    rw [List.getElem?_take] at hj
    by_cases h : j < s.set_log_cache_entry_count
    · exact ⟨j, h, by simpa [h] using hj⟩
    · simp [h] at hj
  · rintro ⟨j, h, hj⟩
    exact ⟨j, by rw [List.getElem?_take]; simpa [h] using hj⟩

theorem occupied_getElem? {s : State} {j : Nat} (h : j < s.set_log_cache_entry_count) :
    (occupied s)[j]? = s.set_log_cache[j]? := by
  unfold occupied
  rw [List.getElem?_take]
  simp [h]

theorem occupied_length {C : Nat} {s : State} (hwf : WF C s) :
    (occupied s).length = s.set_log_cache_entry_count := by
  unfold occupied
  rw [List.length_take, hwf.1]
  exact Nat.min_eq_left hwf.2

theorem occupied_full {C : Nat} {s : State} (hwf : WF C s)
    (h : s.set_log_cache_entry_count = C) : occupied s = s.set_log_cache := by
  unfold occupied
  exact List.take_of_length_le (by rw [hwf.1, h])

theorem take_set_succ {α : Type} (l : List α) (n : Nat) (a : α) (h : n < l.length) :
    (l.set n a).take (n + 1) = l.take n ++ [a] := by
  rw [List.take_succ, List.set_take, List.set_eq_of_length_le (by simp)]
  simp [h]

theorem WF_init (C : Nat) : WF C (init C) := by
  simp [WF, init]

theorem occupied_init (C : Nat) : occupied (init C) = [] := by
  simp [occupied, init]

/-! ## Effect of the cache operations on the occupied part -/

/-- What `add_to_cache` does: below capacity the entry is appended; at
capacity it replaces the entry at index 0 and the array is reordered. -/
theorem add_to_cache_effect {C : Nat} (hC : C % 2 = 1) {s : State} (hwf : WF C s)
    (tag level : Nat) :
    ∃ s', add_to_cache C s tag level = some s' ∧ WF C s' ∧
      s'.set_log_tags = s.set_log_tags ∧
      s'.set_log_default_level = s.set_log_default_level ∧
      s'.set_log_cache_max_generation = (s.set_log_cache_max_generation + 1) % 2 ^ 32 ∧
      ((s.set_log_cache_entry_count < C ∧
          s'.set_log_cache_entry_count = s.set_log_cache_entry_count + 1 ∧
          occupied s' = occupied s ++ [new_entry s tag level]) ∨
       (s.set_log_cache_entry_count = C ∧ s'.set_log_cache_entry_count = C ∧
          (occupied s').Perm ((occupied s).set 0 (new_entry s tag level)))) := by
  by_cases h : s.set_log_cache_entry_count < C
  · refine ⟨_, add_to_cache_below hwf h tag level, ?_, rfl, rfl, rfl, Or.inl ⟨h, rfl, ?_⟩⟩
    · exact ⟨by simp [bump, hwf.1], by simp [bump]; omega⟩
    · simp only [occupied, bump]
      exact take_set_succ _ _ _ (by rw [hwf.1]; exact h)
  · obtain ⟨cache', hb, hadd⟩ := add_to_cache_full hC hwf h tag level
    have hfull : s.set_log_cache_entry_count = C := Nat.le_antisymm hwf.2 (Nat.le_of_not_lt h)
    obtain ⟨hlen, hperm⟩ := heap_bubble_down_perm hC (by simp [hwf.1]) hb
    have hwf' : WF C (bump s cache') := ⟨hlen, by simp [bump, hwf.2]⟩
    refine ⟨_, hadd, hwf', rfl, rfl, rfl, Or.inr ⟨hfull, hfull, ?_⟩⟩
    rw [occupied_full hwf' hfull, occupied_full hwf hfull]
    exact hperm

/-- What `get_cached_log_level` does: a miss changes nothing; a hit returns
the level of an occupied entry with the same pointer and, at capacity, stores
that entry back with a new generation and reorders the array. -/
theorem get_cached_log_level_effect {C : Nat} (hC : C % 2 = 1) {s : State} (hwf : WF C s)
    (tag : Nat) :
    (get_cached_log_level C s tag = some (s, none) ∧ ∀ e ∈ occupied s, e.tag ≠ tag) ∨
    (∃ i e s', (occupied s)[i]? = some e ∧ e.tag = tag ∧
      (∀ j e', j < i → (occupied s)[j]? = some e' → e'.tag ≠ tag) ∧
      get_cached_log_level C s tag = some (s', some e.level) ∧ WF C s' ∧
      s'.set_log_tags = s.set_log_tags ∧
      s'.set_log_default_level = s.set_log_default_level ∧
      s'.set_log_cache_entry_count = s.set_log_cache_entry_count ∧
      ((s.set_log_cache_entry_count ≠ C ∧ s' = s) ∨
       (s.set_log_cache_entry_count = C ∧
          s'.set_log_cache_max_generation = (s.set_log_cache_max_generation + 1) % 2 ^ 32 ∧
          (occupied s').Perm ((occupied s).set i (promoted s e))))) := by
  rcases get_cached_log_level_spec hC hwf tag with ⟨h1, h2⟩ | ⟨i, e, hi, he, het, hfirst, h⟩
  · left
    refine ⟨h1, ?_⟩
    intro e he
    obtain ⟨j, hj, hje⟩ := mem_occupied.mp he
    exact h2 j e hj hje
  · right
    have hoi : (occupied s)[i]? = some e := by rw [occupied_getElem? hi]; exact he
    have hof : ∀ j e', j < i → (occupied s)[j]? = some e' → e'.tag ≠ tag := by
      intro j e' hj hje
      rw [occupied_getElem? (by omega)] at hje
      exact hfirst j e' hj hje
    rcases h with ⟨hne, hget⟩ | ⟨hfull, cache', hb, hget⟩
    · exact ⟨i, e, s, hoi, het, hof, hget, hwf, rfl, rfl, rfl, Or.inl ⟨hne, rfl⟩⟩
    · obtain ⟨hlen, hperm⟩ := heap_bubble_down_perm hC (by simp [hwf.1]) hb
      have hwf' : WF C (bump s cache') := ⟨hlen, by simp [bump, hwf.2]⟩
      refine ⟨i, e, bump s cache', hoi, het, hof, hget, hwf', rfl, rfl, rfl,
        Or.inr ⟨hfull, rfl, ?_⟩⟩
      rw [occupied_full hwf' hfull, occupied_full hwf hfull]
      exact hperm

/-- The two outcomes of the lookup block of `serial_log_write`. -/
theorem level_for_tag_effect {C : Nat} (hC : C % 2 = 1) (text : Nat → String) {s : State}
    (hwf : WF C s) (tag : Nat) :
    ((∀ e ∈ occupied s, e.tag ≠ tag) ∧
      ∃ s', add_to_cache C s tag (uncached_level text s tag) = some s' ∧
        level_for_tag C text s tag = some (s', uncached_level text s tag)) ∨
    (∃ e s', e ∈ occupied s ∧ e.tag = tag ∧
      get_cached_log_level C s tag = some (s', some e.level) ∧
      level_for_tag C text s tag = some (s', e.level)) := by
  rcases get_cached_log_level_effect hC hwf tag with ⟨h1, h2⟩ | ⟨i, e, s', hi, het, _, hget, _⟩
  · left
    refine ⟨h2, ?_⟩
    obtain ⟨s', hadd, _⟩ := add_to_cache_effect hC hwf tag (uncached_level text s tag)
    refine ⟨s', hadd, ?_⟩
    unfold uncached_level at hadd ⊢
    simp only [level_for_tag, h1, Option.bind_eq_bind, Option.some_bind]
    cases hl : get_uncached_log_level s.set_log_tags (text tag) <;> simp [hl] at hadd ⊢ <;>
      simp [hadd]
  · right
    refine ⟨e, s', List.mem_iff_getElem?.mpr ⟨i, hi⟩, het, hget, ?_⟩
    simp [level_for_tag, hget]

/-! ## The override list -/

theorem get_uncached_log_level_eq_none {tags : List uncached_tag_entry_t} {tag : String} :
    get_uncached_log_level tags tag = none ↔ ∀ x ∈ tags, x.tag ≠ tag := by
  induction tags with
  | nil => simp [get_uncached_log_level]
  | cons it rest ih =>
    by_cases h : tag = it.tag
    · simp [get_uncached_log_level, h]
    · have h' : ¬ it.tag = tag := fun e => h e.symm
      simp [get_uncached_log_level, h, h', ih]

theorem get_uncached_log_level_mem {tags : List uncached_tag_entry_t} {tag : String} {v : Nat}
    (h : get_uncached_log_level tags tag = some v) : ∃ it ∈ tags, it.tag = tag ∧ it.level = v := by
  induction tags with
  | nil => simp [get_uncached_log_level] at h
  | cons it rest ih =>
    by_cases ht : tag = it.tag
    · simp [get_uncached_log_level, ht] at h
      exact ⟨it, by simp, ht.symm, h⟩
    · simp [get_uncached_log_level, ht] at h
      obtain ⟨x, hx, hxt, hxv⟩ := ih h
      exact ⟨x, by simp [hx], hxt, hxv⟩

theorem get_uncached_log_level_append {pre : List uncached_tag_entry_t} {tag : String}
    (post : List uncached_tag_entry_t) (h : ∀ x ∈ pre, x.tag ≠ tag) :
    get_uncached_log_level (pre ++ post) tag = get_uncached_log_level post tag := by
  induction pre with
  | nil => rfl
  | cons it rest ih =>
    have h1 : ¬ tag = it.tag := fun e => h it (by simp) e.symm
    simp only [List.cons_append, get_uncached_log_level, h1, if_false]
    exact ih (fun x hx => h x (by simp [hx]))

theorem get_uncached_log_level_append_ne {pre post : List uncached_tag_entry_t}
    {it it' : uncached_tag_entry_t} {t : String} (hit : it'.tag = it.tag) (ht : t ≠ it.tag) :
    get_uncached_log_level (pre ++ it' :: post) t =
      get_uncached_log_level (pre ++ it :: post) t := by
  induction pre with
  | nil => simp [get_uncached_log_level, ht, hit]
  | cons x rest ih =>
    by_cases h : t = x.tag
    · simp [get_uncached_log_level, h]
    · simp [get_uncached_log_level, h, ih]

/-- The first loop of `serial_log_level_set`, by cases on whether a node with
the text exists. -/
theorem update_existing_tag_spec (tags : List uncached_tag_entry_t) (tag : String) (level : Nat) :
    (update_existing_tag tags tag level = none ∧ ∀ x ∈ tags, x.tag ≠ tag) ∨
    (∃ pre it post, tags = pre ++ it :: post ∧ it.tag = tag ∧ (∀ x ∈ pre, x.tag ≠ tag) ∧
      update_existing_tag tags tag level =
        some (pre ++ { it with level := level % 256 } :: post)) := by
  induction tags with
  | nil => left; simp [update_existing_tag]
  | cons x rest ih =>
    by_cases h : x.tag = tag
    · right
      exact ⟨[], x, rest, rfl, h, by simp, by simp [update_existing_tag, h]⟩
    · rcases ih with ⟨h1, h2⟩ | ⟨pre, it, post, h1, h2, h3, h4⟩
      · left
        refine ⟨by simp [update_existing_tag, h, h1], ?_⟩
        intro y hy
        rcases List.mem_cons.mp hy with rfl | hy
        · exact h
        · exact h2 y hy
      · right
        refine ⟨x :: pre, it, post, by simp [h1], h2, ?_, by simp [update_existing_tag, h, h4]⟩
        intro y hy
        rcases List.mem_cons.mp hy with rfl | hy
        · exact h
        · exact h3 y hy

/-- After the set took effect the list lookup of the text gives the level. -/
theorem tags_set_lookup {tags tags' : List uncached_tag_entry_t} {tag : String} {level : Nat}
    (h : tags_set tags tags' tag level) :
    get_uncached_log_level tags' tag = some (level % 256) := by
  rcases h with ⟨pre, it, post, _, h2, h3, rfl⟩ | ⟨_, rfl⟩
  · rw [get_uncached_log_level_append _ h3]
    simp [get_uncached_log_level, h2]
  · simp [get_uncached_log_level]

/-- After the set took effect the list lookup of every other text is unchanged. -/
theorem tags_set_lookup_ne {tags tags' : List uncached_tag_entry_t} {tag : String} {level : Nat}
    (h : tags_set tags tags' tag level) {t : String} (ht : t ≠ tag) :
    get_uncached_log_level tags' t = get_uncached_log_level tags t := by
  rcases h with ⟨pre, it, post, rfl, h2, _, rfl⟩ | ⟨_, rfl⟩
  · exact get_uncached_log_level_append_ne rfl (by rw [h2]; exact ht)
  · simp [get_uncached_log_level, ht]

theorem tags_set_mem {tags tags' : List uncached_tag_entry_t} {tag : String} {level : Nat}
    (h : tags_set tags tags' tag level) {x : uncached_tag_entry_t} (hx : x ∈ tags') :
    x ∈ tags ∨ (x.tag = tag ∧ x.level = level % 256) := by
  rcases h with ⟨pre, it, post, rfl, h2, _, rfl⟩ | ⟨_, rfl⟩
  · simp only [List.mem_append, List.mem_cons] at hx ⊢
    rcases hx with hx | rfl | hx
    · exact Or.inl (Or.inl hx)
    · exact Or.inr ⟨h2, rfl⟩
    · exact Or.inl (Or.inr (Or.inr hx))
  · rcases List.mem_cons.mp hx with rfl | hx
    · exact Or.inr ⟨rfl, rfl⟩
    · exact Or.inl hx

theorem tags_set_nodup {tags tags' : List uncached_tag_entry_t} {tag : String} {level : Nat}
    (h : tags_set tags tags' tag level) (hn : (tags.map (·.tag)).Nodup) :
    (tags'.map (·.tag)).Nodup := by
  rcases h with ⟨pre, it, post, rfl, _, _, rfl⟩ | ⟨h1, rfl⟩
  · simpa using hn
  · simp only [List.map_cons, List.nodup_cons]
    refine ⟨?_, hn⟩
    intro hmem
    obtain ⟨x, hx, hxt⟩ := List.mem_map.mp hmem
    exact h1 x hx hxt

/-! ## Effect of `serial_log_level_set` -/

theorem serial_log_level_set_wildcard (text : Nat → String) (s : State) (level : Nat)
    (malloc_ok : Bool) :
    serial_log_level_set text s "*" level malloc_ok =
      some (clear_log_level_list { s with set_log_default_level := level }) := by
  simp [serial_log_level_set]

/-- A set for a tag other than `"*"`: either it is dropped (no node has the
text and `malloc` fails) and the state is unchanged, or the list is updated and
the level of the first occupied cache entry with that text, if there is one,
is overwritten. -/
theorem serial_log_level_set_effect (text : Nat → String) {C : Nat} {s : State} (hwf : WF C s)
    {tag : String} (htag : tag ≠ "*") (level : Nat) (malloc_ok : Bool) :
    ((∀ x ∈ s.set_log_tags, x.tag ≠ tag) ∧ malloc_ok = false ∧
      serial_log_level_set text s tag level malloc_ok = some s) ∨
    (∃ tags' cache', tags_set s.set_log_tags tags' tag level ∧
      ((∃ x ∈ s.set_log_tags, x.tag = tag) ∨ malloc_ok = true) ∧
      serial_log_level_set text s tag level malloc_ok =
        some { s with set_log_tags := tags', set_log_cache := cache' } ∧
      ((cache' = s.set_log_cache ∧ ∀ e ∈ occupied s, text e.tag ≠ tag) ∨
       (∃ k e, k < s.set_log_cache_entry_count ∧ s.set_log_cache[k]? = some e ∧
          text e.tag = tag ∧
          (∀ j e', j < k → s.set_log_cache[j]? = some e' → text e'.tag ≠ tag) ∧
          cache' = s.set_log_cache.set k { e with level := level % 8 }))) := by
  have hscan := update_cached_level_spec text tag level s.set_log_cache
    s.set_log_cache_entry_count 0 (by rw [hwf.1]; simpa using hwf.2)
  have hcache : ∃ cache', update_cached_level text tag level s.set_log_cache_entry_count 0
        s.set_log_cache = some cache' ∧
      ((cache' = s.set_log_cache ∧ ∀ e ∈ occupied s, text e.tag ≠ tag) ∨
       (∃ k e, k < s.set_log_cache_entry_count ∧ s.set_log_cache[k]? = some e ∧
          text e.tag = tag ∧
          (∀ j e', j < k → s.set_log_cache[j]? = some e' → text e'.tag ≠ tag) ∧
          cache' = s.set_log_cache.set k { e with level := level % 8 })) := by
    rcases hscan with ⟨h1, h2⟩ | ⟨k, e, _, hk, he, het, hfirst, hupd⟩
    · refine ⟨_, h1, Or.inl ⟨rfl, ?_⟩⟩
      intro e he
      obtain ⟨j, hj, hje⟩ := mem_occupied.mp he
      exact h2 j e (Nat.zero_le _) (by omega) hje
    · exact ⟨_, hupd, Or.inr ⟨k, e, by omega, he, het,
        fun j e' hj => hfirst j e' (Nat.zero_le _) hj, rfl⟩⟩
  obtain ⟨cache', hupd, hc⟩ := hcache
  rcases update_existing_tag_spec s.set_log_tags tag level with
    ⟨h1, h2⟩ | ⟨pre, it, post, h1, h2, h3, h4⟩
  · cases malloc_ok with
    | false =>
      left
      exact ⟨h2, rfl, by simp [serial_log_level_set, htag, h1]⟩
    | true =>
      right
      refine ⟨_, cache', Or.inr ⟨h2, rfl⟩, Or.inr rfl, ?_, hc⟩
      simp [serial_log_level_set, htag, h1, hupd]
  · right
    refine ⟨_, cache', Or.inl ⟨pre, it, post, h1, h2, h3, rfl⟩,
      Or.inl ⟨it, by rw [h1]; simp, h2⟩, ?_, hc⟩
    simp [serial_log_level_set, htag, h4, hupd]

/-! ## Frame of the lookup block -/

theorem uncached_level_le (text : Nat → String) {s : State}
    (hd : s.set_log_default_level ≤ SERIAL_LOG_VERBOSE)
    (ht : ∀ x ∈ s.set_log_tags, x.level ≤ SERIAL_LOG_VERBOSE) (tag : Nat) :
    uncached_level text s tag ≤ SERIAL_LOG_VERBOSE := by
  unfold uncached_level
  cases h : get_uncached_log_level s.set_log_tags (text tag) with
  | none => simpa using hd
  | some v =>
    obtain ⟨x, hx, _, hv⟩ := get_uncached_log_level_mem h
    simpa [← hv] using ht x hx

/-- The lookup block of `serial_log_write` returns, keeps the cache
well-formed, leaves the list and the default level alone, only stores entries
that agree in tag and level with an entry that was there or with the new one,
and returns the level of an entry with the same pointer, or on a miss the level
found without the cache. -/
theorem level_for_tag_frame {C : Nat} (hC : C % 2 = 1) (text : Nat → String) {s : State}
    (hwf : WF C s) (tag : Nat) :
    ∃ s' lvl, level_for_tag C text s tag = some (s', lvl) ∧ WF C s' ∧
      s'.set_log_tags = s.set_log_tags ∧
      s'.set_log_default_level = s.set_log_default_level ∧
      (∀ e' ∈ occupied s', ∃ e'', e'.tag = e''.tag ∧ e'.level = e''.level ∧
        (e'' ∈ occupied s ∨
          (e'' = new_entry s tag (uncached_level text s tag) ∧
            ∀ e ∈ occupied s, e.tag ≠ tag))) ∧
      ((∃ e ∈ occupied s, e.tag = tag ∧ lvl = e.level) ∨
        ((∀ e ∈ occupied s, e.tag ≠ tag) ∧ lvl = uncached_level text s tag)) := by
  rcases get_cached_log_level_effect hC hwf tag with
    ⟨hget, hmiss⟩ | ⟨i, e, s', hi, het, _, hget, hwf', htags, hdef, _, hcase⟩
  · obtain ⟨s', hadd, hwf', htags, hdef, _, hcase⟩ :=
      add_to_cache_effect hC hwf tag (uncached_level text s tag)
    refine ⟨s', uncached_level text s tag, ?_, hwf', htags, hdef, ?_, Or.inr ⟨hmiss, rfl⟩⟩
    · unfold uncached_level at hadd ⊢
      simp only [level_for_tag, hget, Option.bind_eq_bind, Option.some_bind]
      cases hl : get_uncached_log_level s.set_log_tags (text tag) <;> simp [hl] at hadd ⊢ <;>
        simp [hadd]
    · intro e' he'
      rcases hcase with ⟨_, _, hocc⟩ | ⟨_, _, hperm⟩
      · rw [hocc] at he'
        rcases List.mem_append.mp he' with h | h
        · exact ⟨e', rfl, rfl, Or.inl h⟩
        · exact ⟨e', rfl, rfl, Or.inr ⟨by simpa using h, hmiss⟩⟩
      · rcases List.mem_or_eq_of_mem_set (hperm.mem_iff.mp he') with h | h
        · exact ⟨e', rfl, rfl, Or.inl h⟩
        · exact ⟨e', rfl, rfl, Or.inr ⟨h, hmiss⟩⟩
  · have hmem : e ∈ occupied s := List.mem_iff_getElem?.mpr ⟨i, hi⟩
    refine ⟨s', e.level, by simp [level_for_tag, hget], hwf', htags, hdef, ?_,
      Or.inl ⟨e, hmem, het, rfl⟩⟩
    intro e' he'
    rcases hcase with ⟨_, rfl⟩ | ⟨_, _, hperm⟩
    · exact ⟨e', rfl, rfl, Or.inl he'⟩
    · rcases List.mem_or_eq_of_mem_set (hperm.mem_iff.mp he') with h | h
      · exact ⟨e', rfl, rfl, Or.inl h⟩
      · exact ⟨e, by rw [h]; rfl, by rw [h]; rfl, Or.inl hmem⟩

/-! ## Every call returns from a well-formed state -/

theorem level_set_WF (text : Nat → String) {C : Nat} {s : State} (hwf : WF C s)
    (tag : String) (level : Nat) (malloc_ok : Bool) :
    ∃ s', serial_log_level_set text s tag level malloc_ok = some s' ∧ WF C s' ∧
      s'.set_log_cache_entry_count ≤ s.set_log_cache_entry_count := by
  by_cases htag : tag = "*"
  · subst htag
    refine ⟨_, serial_log_level_set_wildcard text s level malloc_ok, ?_, ?_⟩
    · exact ⟨by simpa [clear_log_level_list] using hwf.1, by simp [clear_log_level_list]⟩
    · simp [clear_log_level_list]
  · rcases serial_log_level_set_effect text hwf htag level malloc_ok with
      ⟨_, _, h⟩ | ⟨tags', cache', _, _, h, hc⟩
    · exact ⟨s, h, hwf, le_refl _⟩
    · refine ⟨_, h, ⟨?_, hwf.2⟩, le_refl _⟩
      rcases hc with ⟨rfl, _⟩ | ⟨k, e, _, _, _, _, rfl⟩
      · exact hwf.1
      · simpa using hwf.1

/-- From a well-formed state, with an odd capacity, every call returns a
well-formed state: no array access is out of bounds and no loop runs out of
fuel. -/
theorem step_WF {C : Nat} (hC : C % 2 = 1) (text : Nat → String) {s : State} (hwf : WF C s)
    (op : Op) : ∃ s', step C text s op = some s' ∧ WF C s' := by
  cases op with
  | level_set tag level malloc_ok =>
    obtain ⟨s', h, hwf', _⟩ := level_set_WF text hwf tag level malloc_ok
    exact ⟨s', h, hwf'⟩
  | write tag =>
    obtain ⟨s', lvl, h, hwf', _⟩ := level_for_tag_frame hC text hwf tag
    exact ⟨s', by simp [step, h], hwf'⟩
  | add tag level =>
    obtain ⟨s', h, hwf', _⟩ := add_to_cache_effect hC hwf tag level
    exact ⟨s', h, hwf'⟩
  | get tag =>
    rcases get_cached_log_level_effect hC hwf tag with
      ⟨hget, _⟩ | ⟨_, _, s', _, _, _, hget, hwf', _⟩
    · exact ⟨s, by simp [step, hget], hwf⟩
    · exact ⟨s', by simp [step, hget], hwf'⟩

theorem Reach_WF {C : Nat} (hC : C % 2 = 1) {text : Nat → String} {G : State → Op → Prop}
    {s : State} (h : Reach C text G s) : WF C s := by
  induction h with
  | init => exact WF_init C
  | step _ _ hstep ih =>
    obtain ⟨s'', h1, h2⟩ := step_WF hC text ih _
    rw [hstep] at h1
    cases h1
    exact h2

theorem Reach_mono {C : Nat} {text : Nat → String} {G G' : State → Op → Prop}
    (hG : ∀ s op, G s op → G' s op) {s : State} (h : Reach C text G s) : Reach C text G' s := by
  induction h with
  | init => exact Reach.init
  | step _ hg hstep ih => exact Reach.step ih (hG _ _ hg) hstep

/-! ## The level invariant -/

theorem LevelInv_init (C : Nat) (text : Nat → String) : LevelInv C text (init C) where
  wf := WF_init C
  default_le := by simp [init]
  tags_le := by simp [init]
  tags_nodup := by simp [init]
  no_wildcard := by simp [init]
  cached_default := by simp [occupied_init]

theorem mod_eq_of_le_verbose {level : Nat} (h : level ≤ SERIAL_LOG_VERBOSE) :
    level % 8 = level ∧ level % 256 = level := by
  unfold SERIAL_LOG_VERBOSE at h
  omega

theorem LevelInv_level_set {C : Nat} {text : Nat → String} {s s' : State}
    (hinv : LevelInv C text s) {tag : String} {level : Nat} {malloc_ok : Bool}
    (hlevel : level ≤ SERIAL_LOG_VERBOSE)
    (h : serial_log_level_set text s tag level malloc_ok = some s') : LevelInv C text s' := by
  by_cases htag : tag = "*"
  · subst htag
    rw [serial_log_level_set_wildcard] at h
    cases h
    exact
      { wf := ⟨by simpa [clear_log_level_list] using hinv.wf.1, by simp [clear_log_level_list]⟩
        default_le := by simpa [clear_log_level_list] using hlevel
        tags_le := by simp [clear_log_level_list]
        tags_nodup := by simp [clear_log_level_list]
        no_wildcard := by simp [clear_log_level_list]
        cached_default := by simp [clear_log_level_list, occupied] }
  · rcases serial_log_level_set_effect text hinv.wf htag level malloc_ok with
      ⟨_, _, h'⟩ | ⟨tags', cache', hset, _, h', hc⟩
    · rw [h'] at h
      cases h
      exact hinv
    · rw [h'] at h
      cases h
      have hlen : cache'.length = C := by
        rcases hc with ⟨rfl, _⟩ | ⟨k, e, _, _, _, _, rfl⟩
        · exact hinv.wf.1
        · simpa using hinv.wf.1
      refine
        { wf := ⟨hlen, hinv.wf.2⟩
          default_le := hinv.default_le
          tags_le := ?_
          tags_nodup := tags_set_nodup hset hinv.tags_nodup
          no_wildcard := ?_
          cached_default := ?_ }
      · intro x hx
        rcases tags_set_mem hset hx with h1 | ⟨_, h2⟩
        · exact hinv.tags_le x h1
        · rw [h2, (mod_eq_of_le_verbose hlevel).2]
          exact hlevel
      · intro x hx
        rcases tags_set_mem hset hx with h1 | ⟨h2, _⟩
        · exact hinv.no_wildcard x h1
        · rw [h2]
          exact htag
      · intro e' he' hnone
        have hne : text e'.tag ≠ tag := by
          intro heq
          rw [heq, tags_set_lookup hset] at hnone
          cases hnone
        simp only at hnone
        rw [tags_set_lookup_ne hset hne] at hnone
        have hold : e' ∈ occupied s := by
          rcases hc with ⟨rfl, _⟩ | ⟨k, e, _, _, het, _, rfl⟩
          · exact he'
          · simp only [occupied, List.set_take] at he'
            rcases List.mem_or_eq_of_mem_set he' with h1 | h1
            · exact h1
            · exact absurd (by rw [h1]; exact het) hne
        exact hinv.cached_default e' hold hnone

theorem LevelInv_write {C : Nat} (hC : C % 2 = 1) {text : Nat → String} {s s' : State}
    (hinv : LevelInv C text s) {tag lvl : Nat}
    (h : level_for_tag C text s tag = some (s', lvl)) : LevelInv C text s' := by
  obtain ⟨s'', lvl', h', hwf', htags, hdef, hmem, _⟩ := level_for_tag_frame hC text hinv.wf tag
  rw [h] at h'
  cases h'
  refine
    { wf := hwf'
      default_le := by rw [hdef]; exact hinv.default_le
      tags_le := by rw [htags]; exact hinv.tags_le
      tags_nodup := by rw [htags]; exact hinv.tags_nodup
      no_wildcard := by rw [htags]; exact hinv.no_wildcard
      cached_default := ?_ }
  intro e' he' hnone
  rw [htags] at hnone
  rw [hdef]
  obtain ⟨e'', ht, hl, hcase⟩ := hmem e' he'
  rw [ht] at hnone
  rw [hl]
  rcases hcase with hold | ⟨rfl, _⟩
  · exact hinv.cached_default e'' hold hnone
  · have hle := uncached_level_le text hinv.default_le hinv.tags_le tag
    simp only [new_entry] at hnone ⊢
    rw [(mod_eq_of_le_verbose hle).1]
    simp [uncached_level, hnone]

theorem LevelInv_step {C : Nat} (hC : C % 2 = 1) {text : Nat → String} {s s' : State}
    (hinv : LevelInv C text s) {op : Op} (hop : api_call op)
    (h : step C text s op = some s') : LevelInv C text s' := by
  cases op with
  | level_set tag level malloc_ok => exact LevelInv_level_set hinv hop h
  | write tag =>
    simp only [step, Option.map_eq_some'] at h
    obtain ⟨⟨s'', lvl⟩, h1, h2⟩ := h
    cases h2
    exact LevelInv_write hC hinv h1
  | add tag level => exact absurd hop (by simp [api_call])
  | get tag => exact absurd hop (by simp [api_call])

/-- The level invariant holds in every state reached by API calls, whatever
else the guard of the run demands. -/
theorem Reach_LevelInv {C : Nat} (hC : C % 2 = 1) {text : Nat → String}
    {G : State → Op → Prop} (hG : ∀ s op, G s op → api_call op) {s : State}
    (h : Reach C text G s) : LevelInv C text s := by
  induction h with
  | init => exact LevelInv_init C text
  | step _ hg hstep ih => exact LevelInv_step hC ih (hG _ _ hg) hstep

/-! ## After a wildcard reset -/

theorem reset_write {C : Nat} (hC : C % 2 = 1) (text : Nat → String) {level : Nat}
    (hlevel : level ≤ SERIAL_LOG_VERBOSE) {s : State} (hwf : WF C s)
    (hdef : s.set_log_default_level = level) (htags : s.set_log_tags = [])
    (hocc : ∀ e ∈ occupied s, e.level = level) (tag : Nat) :
    ∃ s', level_for_tag C text s tag = some (s', level) ∧ WF C s' ∧
      s'.set_log_default_level = level ∧ s'.set_log_tags = [] ∧
      ∀ e ∈ occupied s', e.level = level := by
  have hunc : uncached_level text s tag = level := by
    simp [uncached_level, htags, get_uncached_log_level, hdef]
  obtain ⟨s', lvl, h, hwf', htags', hdef', hmem, hlvl⟩ := level_for_tag_frame hC text hwf tag
  have hl : lvl = level := by
    rcases hlvl with ⟨e, he, _, rfl⟩ | ⟨_, rfl⟩
    · exact hocc e he
    · exact hunc
  subst hl
  refine ⟨s', h, hwf', by rw [hdef', hdef], by rw [htags', htags], ?_⟩
  intro e' he'
  obtain ⟨e'', _, hlev, hcase⟩ := hmem e' he'
  rw [hlev]
  rcases hcase with hold | ⟨rfl, _⟩
  · exact hocc e'' hold
  · simp only [new_entry]
    rw [hunc]
    exact (mod_eq_of_le_verbose hlevel).1

theorem reset_run {C : Nat} (hC : C % 2 = 1) (text : Nat → String) {level : Nat}
    (hlevel : level ≤ SERIAL_LOG_VERBOSE) (tags : List Nat) :
    ∀ {s : State}, WF C s → s.set_log_default_level = level → s.set_log_tags = [] →
      (∀ e ∈ occupied s, e.level = level) →
      ∃ s', run C text s (tags.map Op.write) = some s' ∧ WF C s' ∧
        s'.set_log_default_level = level ∧ s'.set_log_tags = [] ∧
        ∀ e ∈ occupied s', e.level = level := by
  induction tags with
  | nil => intro s hwf hdef htags hocc; exact ⟨s, rfl, hwf, hdef, htags, hocc⟩
  | cons tag rest ih =>
    intro s hwf hdef htags hocc
    obtain ⟨s1, h1, hwf1, hdef1, htags1, hocc1⟩ :=
      reset_write hC text hlevel hwf hdef htags hocc tag
    obtain ⟨s2, h2, rest2⟩ := ih hwf1 hdef1 htags1 hocc1
    exact ⟨s2, by simp [run, step, h1, h2], rest2⟩

/-! ## Claims about the level state -/

/-- C2 (wildcard reset): in every reachable state, `serial_log_level_set("*", L)`
with `L` in `NONE..VERBOSE` returns a state whose default level is `L`, whose
override list is empty and whose entry count and generation counter are 0; and
after any sequence of lookups made from that state, the lookup of every tag
returns `L`. -/
theorem C2_wildcard_reset {C : Nat} (hC : C % 2 = 1) (text : Nat → String) {s : State}
    (hs : Reachable C text s) (level : Nat) (hlevel : level ≤ SERIAL_LOG_VERBOSE)
    (malloc_ok : Bool) :
    ∃ s1, serial_log_level_set text s "*" level malloc_ok = some s1 ∧
      s1.set_log_default_level = level ∧ s1.set_log_tags = [] ∧
      s1.set_log_cache_entry_count = 0 ∧ s1.set_log_cache_max_generation = 0 ∧
      ∀ tags : List Nat, ∃ s2, run C text s1 (tags.map Op.write) = some s2 ∧
        ∀ tag, ∃ s3, level_for_tag C text s2 tag = some (s3, level) := by
  have hwf := Reach_WF hC hs
  refine ⟨_, serial_log_level_set_wildcard text s level malloc_ok, rfl, rfl, rfl, rfl, ?_⟩
  intro tags
  have hwf1 : WF C (clear_log_level_list { s with set_log_default_level := level }) :=
    ⟨by simpa [clear_log_level_list] using hwf.1, by simp [clear_log_level_list]⟩
  obtain ⟨s2, h2, hwf2, hdef2, htags2, hocc2⟩ :=
    reset_run hC text hlevel tags hwf1 rfl rfl (by simp [occupied, clear_log_level_list])
  refine ⟨s2, h2, ?_⟩
  intro tag
  obtain ⟨s3, h3, _⟩ := reset_write hC text hlevel hwf2 hdef2 htags2 hocc2 tag
  exact ⟨s3, h3⟩

/-- C3 (ordering law): `should_output m t` is true iff `m ≤ t`; and in every
reachable state `serial_log_write` returns, and hands the message to the output
function iff `should_output` holds of the message level and the level the
lookup block finds for the tag. -/
theorem C3_ordering_law {C : Nat} (hC : C % 2 = 1) (text : Nat → String) {s : State}
    (hs : Reachable C text s) (m t tag : Nat) :
    (should_output m t = true ↔ m ≤ t) ∧
    ∃ s' lvl, level_for_tag C text s tag = some (s', lvl) ∧
      serial_log_write C text s m tag = some (s', should_output m lvl) := by
  refine ⟨by simp [should_output], ?_⟩
  obtain ⟨s', lvl, h, _⟩ := level_for_tag_frame hC text (Reach_WF hC hs) tag
  refine ⟨s', lvl, h, ?_⟩
  simp only [serial_log_write, h, Option.bind_eq_bind, Option.some_bind]
  cases should_output m lvl <;> rfl

theorem C3_ordering_law_witness :
    31 % 2 = 1 ∧ Reachable 31 (const_text "net") (init 31) ∧
    (should_output 3 5 = true ↔ 3 ≤ 5) ∧
    ∃ s' lvl, level_for_tag 31 (const_text "net") (init 31) 1 = some (s', lvl) ∧
      serial_log_write 31 (const_text "net") (init 31) 3 1 = some (s', should_output 3 lvl) :=
  ⟨by decide, Reach.init, C3_ordering_law (by decide) (const_text "net") Reach.init 3 5 1⟩

/-- C4 (default fallback): in every reachable state the lookup of a tag whose
text has no override returns the current default level; the default level is
`VERBOSE` initially and `L` after `serial_log_level_set("*", L)`; so a tag that
was never overridden resolves to `VERBOSE` initially and to `ERROR` after
`serial_log_level_set("*", ERROR)`. -/
theorem C4_default_fallback {C : Nat} (hC : C % 2 = 1) (text : Nat → String) :
    (∀ s, Reachable C text s → ∀ tag,
      get_uncached_log_level s.set_log_tags (text tag) = none →
      ∃ s', level_for_tag C text s tag = some (s', s.set_log_default_level)) ∧
    (init C).set_log_default_level = SERIAL_LOG_VERBOSE ∧
    (∀ s level malloc_ok, ∃ s', serial_log_level_set text s "*" level malloc_ok = some s' ∧
      s'.set_log_default_level = level) ∧
    (∀ x, ∃ s1 s2 s3, level_for_tag C text (init C) x = some (s1, SERIAL_LOG_VERBOSE) ∧
      serial_log_level_set text s1 "*" SERIAL_LOG_ERROR true = some s2 ∧
      level_for_tag C text s2 x = some (s3, SERIAL_LOG_ERROR)) := by
  have main : ∀ s, Reachable C text s → ∀ tag,
      get_uncached_log_level s.set_log_tags (text tag) = none →
      ∃ s', level_for_tag C text s tag = some (s', s.set_log_default_level) := by
    intro s hs tag hnone
    have hinv := Reach_LevelInv hC (fun _ _ h => h) hs
    obtain ⟨s', lvl, h, _, _, _, _, hlvl⟩ := level_for_tag_frame hC text hinv.wf tag
    refine ⟨s', ?_⟩
    rcases hlvl with ⟨e, he, het, rfl⟩ | ⟨_, rfl⟩
    · rw [h, hinv.cached_default e he (by rw [het]; exact hnone)]
    · rw [h]
      simp [uncached_level, hnone]
  refine ⟨main, rfl, fun s level m => ⟨_, serial_log_level_set_wildcard text s level m, rfl⟩, ?_⟩
  intro x
  obtain ⟨s1, h1⟩ := main (init C) Reach.init x (by simp [init, get_uncached_log_level])
  have hr1 : Reachable C text s1 :=
    Reach.step (o := Op.write x) Reach.init trivial (by simp [step, h1])
  have hr2 : Reachable C text
      (clear_log_level_list { s1 with set_log_default_level := SERIAL_LOG_ERROR }) :=
    Reach.step (o := Op.level_set "*" SERIAL_LOG_ERROR true) hr1
      (show SERIAL_LOG_ERROR ≤ SERIAL_LOG_VERBOSE by decide)
      (serial_log_level_set_wildcard text s1 SERIAL_LOG_ERROR true)
  obtain ⟨s3, h3⟩ := main _ hr2 x (by simp [clear_log_level_list, get_uncached_log_level])
  exact ⟨s1, _, s3, h1, serial_log_level_set_wildcard text s1 SERIAL_LOG_ERROR true, h3⟩

theorem C4_default_fallback_witness :
    31 % 2 = 1 ∧
    ∃ s1 s2 s3,
      level_for_tag 31 (const_text "x") (init 31) 7 = some (s1, SERIAL_LOG_VERBOSE) ∧
      serial_log_level_set (const_text "x") s1 "*" SERIAL_LOG_ERROR true = some s2 ∧
      level_for_tag 31 (const_text "x") s2 7 = some (s3, SERIAL_LOG_ERROR) :=
  ⟨by decide, (C4_default_fallback (C := 31) (by decide) (const_text "x")).2.2.2 7⟩

/-- C8 (capacity bound): in every reachable state the entry count is at most
the capacity and the cache array has exactly that many entries, and every call
made in such a state returns: no read or write of `add_to_cache`,
`get_cached_log_level`, `heap_bubble_down` or the cache scan of
`serial_log_level_set` falls outside the array. -/
theorem C8_capacity_bound {C : Nat} (hC : C % 2 = 1) (text : Nat → String) {s : State}
    (hs : Reachable C text s) :
    s.set_log_cache_entry_count ≤ C ∧ s.set_log_cache.length = C ∧
    ∀ op, ∃ s', step C text s op = some s' ∧ s'.set_log_cache_entry_count ≤ C ∧
      s'.set_log_cache.length = C := by
  have hwf := Reach_WF hC hs
  refine ⟨hwf.2, hwf.1, ?_⟩
  intro op
  obtain ⟨s', h, hwf'⟩ := step_WF hC text hwf op
  exact ⟨s', h, hwf'.2, hwf'.1⟩

/-! ## No duplicate overrides -/

theorem update_existing_tag_append {pre : List uncached_tag_entry_t}
    (it : uncached_tag_entry_t) (post : List uncached_tag_entry_t) {tag : String} (level : Nat)
    (hpre : ∀ x ∈ pre, x.tag ≠ tag) (hit : it.tag = tag) :
    update_existing_tag (pre ++ it :: post) tag level =
      some (pre ++ { it with level := level % 256 } :: post) := by
  induction pre with
  | nil => simp [update_existing_tag, hit]
  | cons x rest ih =>
    have hx : ¬ x.tag = tag := hpre x (by simp)
    simp [update_existing_tag, hx, ih (fun y hy => hpre y (by simp [hy]))]

theorem update_existing_tag_none {tags : List uncached_tag_entry_t} {tag : String} (level : Nat)
    (h : ∀ x ∈ tags, x.tag ≠ tag) : update_existing_tag tags tag level = none := by
  rcases update_existing_tag_spec tags tag level with ⟨h1, _⟩ | ⟨pre, it, post, h1, h2, _, _⟩
  · exact h1
  · exact absurd h2 (h it (by rw [h1]; simp))

theorem update_cached_level_some (text : Nat → String) {C : Nat} {s : State} (hwf : WF C s)
    (tag : String) (level : Nat) :
    ∃ cache', update_cached_level text tag level s.set_log_cache_entry_count 0
      s.set_log_cache = some cache' := by
  rcases update_cached_level_spec text tag level s.set_log_cache
    s.set_log_cache_entry_count 0 (by rw [hwf.1]; simpa using hwf.2) with
    ⟨h, _⟩ | ⟨_, _, _, _, _, _, _, h⟩
  · exact ⟨_, h⟩
  · exact ⟨_, h⟩

/-- C10 (no duplicate overrides): in every reachable state the override list
has at most one node per text and none for `"*"`.  For a text `T` other than
`"*"` and a level `L` in `NONE..VERBOSE`, `serial_log_level_set(T, L)`
overwrites the level of the node for `T` in place when there is one (same
nodes before and after it, in the same order, and `malloc` is not consulted),
and puts `(T, L)` at the head when there is none and the allocation succeeds;
either way `get_uncached_log_level(T)` then returns `L`.  From the initial
state, setting `"net"` to `WARN` and then to `ERROR` leaves the single node
`("net", ERROR)`. -/
theorem C10_no_duplicate_overrides {C : Nat} (hC : C % 2 = 1) (text : Nat → String) :
    (∀ s, Reachable C text s →
      (s.set_log_tags.map (·.tag)).Nodup ∧ (∀ x ∈ s.set_log_tags, x.tag ≠ "*") ∧
      ∀ (T : String) (L : Nat), T ≠ "*" → L ≤ SERIAL_LOG_VERBOSE →
        (∀ pre it post malloc_ok, s.set_log_tags = pre ++ it :: post → it.tag = T →
          ∃ s', serial_log_level_set text s T L malloc_ok = some s' ∧
            s'.set_log_tags = pre ++ { it with level := L } :: post ∧
            get_uncached_log_level s'.set_log_tags T = some L) ∧
        ((∀ x ∈ s.set_log_tags, x.tag ≠ T) →
          ∃ s', serial_log_level_set text s T L true = some s' ∧
            s'.set_log_tags = { level := L, tag := T } :: s.set_log_tags ∧
            get_uncached_log_level s'.set_log_tags T = some L)) ∧
    (∃ s1 s2, serial_log_level_set text (init C) "net" SERIAL_LOG_WARN true = some s1 ∧
      serial_log_level_set text s1 "net" SERIAL_LOG_ERROR true = some s2 ∧
      s2.set_log_tags = [{ level := SERIAL_LOG_ERROR, tag := "net" }] ∧
      get_uncached_log_level s2.set_log_tags "net" = some SERIAL_LOG_ERROR) := by
  have main : ∀ s, Reachable C text s →
      (s.set_log_tags.map (·.tag)).Nodup ∧ (∀ x ∈ s.set_log_tags, x.tag ≠ "*") ∧
      ∀ (T : String) (L : Nat), T ≠ "*" → L ≤ SERIAL_LOG_VERBOSE →
        (∀ pre it post malloc_ok, s.set_log_tags = pre ++ it :: post → it.tag = T →
          ∃ s', serial_log_level_set text s T L malloc_ok = some s' ∧
            s'.set_log_tags = pre ++ { it with level := L } :: post ∧
            get_uncached_log_level s'.set_log_tags T = some L) ∧
        ((∀ x ∈ s.set_log_tags, x.tag ≠ T) →
          ∃ s', serial_log_level_set text s T L true = some s' ∧
            s'.set_log_tags = { level := L, tag := T } :: s.set_log_tags ∧
            get_uncached_log_level s'.set_log_tags T = some L) := by
    intro s hs
    have hinv := Reach_LevelInv hC (fun _ _ h => h) hs
    refine ⟨hinv.tags_nodup, hinv.no_wildcard, ?_⟩
    intro T L hT hL
    have hmod := (mod_eq_of_le_verbose hL).2
    obtain ⟨cache', hcache⟩ := update_cached_level_some text hinv.wf T L
    constructor
    · intro pre it post malloc_ok hdec hit
      have hnd := hinv.tags_nodup
      rw [hdec, List.map_append, List.map_cons] at hnd
      have hpre : ∀ x ∈ pre, x.tag ≠ T := by
        intro x hx hxT
        have hdisj := (List.nodup_append.mp hnd).2.2
        exact hdisj (a := x.tag) (List.mem_map.mpr ⟨x, hx, rfl⟩)
          (by rw [hxT, ← hit]; simp)
      have hupd := update_existing_tag_append it post L hpre hit
      rw [← hdec, hmod] at hupd
      refine ⟨{ s with set_log_tags := pre ++ { it with level := L } :: post,
                       set_log_cache := cache' }, ?_, rfl, ?_⟩
      · simp [serial_log_level_set, hT, hupd, hcache]
      · simp only
        rw [get_uncached_log_level_append _ hpre]
        simp [get_uncached_log_level, hit]
    · intro hnone
      have hupd := update_existing_tag_none L hnone
      refine ⟨{ s with set_log_tags := { level := L, tag := T } :: s.set_log_tags,
                       set_log_cache := cache' }, ?_, rfl, ?_⟩
      · simp [serial_log_level_set, hT, hupd, hcache, hmod]
      · simp [get_uncached_log_level]
  refine ⟨main, ?_⟩
  obtain ⟨s1, h1, ht1, _⟩ := (main (init C) Reach.init).2.2 "net" SERIAL_LOG_WARN (by decide)
    (by decide) |>.2 (by simp [init])
  have hr1 : Reachable C text s1 :=
    Reach.step (o := Op.level_set "net" SERIAL_LOG_WARN true) Reach.init
      (show SERIAL_LOG_WARN ≤ SERIAL_LOG_VERBOSE by decide) h1
  obtain ⟨s2, h2, ht2, hl2⟩ := (main s1 hr1).2.2 "net" SERIAL_LOG_ERROR (by decide)
    (by decide) |>.1 [] { level := SERIAL_LOG_WARN, tag := "net" } [] true
    (by rw [ht1]; simp [init]) rfl
  exact ⟨s1, s2, h1, h2, by simpa using ht2, hl2⟩

theorem C10_no_duplicate_overrides_witness :
    31 % 2 = 1 ∧
    ∃ s1 s2,
      serial_log_level_set (const_text "net") (init 31) "net" SERIAL_LOG_WARN true = some s1 ∧
      serial_log_level_set (const_text "net") s1 "net" SERIAL_LOG_ERROR true = some s2 ∧
      s2.set_log_tags = [{ level := SERIAL_LOG_ERROR, tag := "net" }] ∧
      get_uncached_log_level s2.set_log_tags "net" = some SERIAL_LOG_ERROR :=
  ⟨by decide, (C10_no_duplicate_overrides (C := 31) (by decide) (const_text "net")).2⟩

/-! ## Lists: writing one position -/

theorem map_set_same {α β : Type} (f : α → β) {l : List α} {k : Nat} {e e1 : α}
    (h : l[k]? = some e) (hf : f e1 = f e) : (l.set k e1).map f = l.map f := by
  apply List.ext_getElem?
  intro j
  rw [List.getElem?_map, List.getElem?_map, List.getElem?_set]
  by_cases hkj : k = j
  · subst hkj
    have hk : k < l.length := (List.getElem?_eq_some.mp h).1
    simp [hk, h, hf]
  · simp [hkj]

theorem mem_set_cases {α : Type} {l : List α} {k : Nat} {a x : α} (h : x ∈ l.set k a) :
    x = a ∨ ∃ j, j ≠ k ∧ l[j]? = some x := by
  obtain ⟨j, hj⟩ := List.mem_iff_getElem?.mp h
  rw [List.getElem?_set] at hj
  by_cases hkj : k = j
  · subst hkj
    by_cases hk : k < l.length
    · simp [hk] at hj
      exact Or.inl hj.symm
    · simp [hk] at hj
  · simp [hkj] at hj
    exact Or.inr ⟨j, fun e => hkj e.symm, hj⟩

theorem nodup_map_index {α β : Type} (f : α → β) {l : List α} (hn : (l.map f).Nodup)
    {j k : Nat} {x y : α} (hj : l[j]? = some x) (hk : l[k]? = some y) (hf : f x = f y) :
    j = k := by
  have hjl : j < (l.map f).length := by
    simpa using (List.getElem?_eq_some.mp hj).1
  exact List.getElem?_inj hjl hn (by simp [List.getElem?_map, hj, hk, hf])

/-! ## Cache coherence for interned tags -/

theorem uncached_level_congr {text : Nat → String} {s s' : State}
    (ht : s'.set_log_tags = s.set_log_tags)
    (hd : s'.set_log_default_level = s.set_log_default_level) (tag : Nat) :
    uncached_level text s' tag = uncached_level text s tag := by
  simp [uncached_level, ht, hd]

theorem InternInv_init (C : Nat) (text : Nat → String) (U : Nat → Prop) :
    InternInv text U (init C) where
  tags_in := by simp [occupied_init]
  tags_nodup := by simp [occupied_init]
  coherent := by simp [occupied_init]

theorem InternInv_level_set {C : Nat} {text : Nat → String} {U : Nat → Prop}
    (hU : Interned text U) {s s' : State} (hlev : LevelInv C text s)
    (hinv : InternInv text U s) {tag : String} {level : Nat} {malloc_ok : Bool}
    (hlevel : level ≤ SERIAL_LOG_VERBOSE)
    (h : serial_log_level_set text s tag level malloc_ok = some s') : InternInv text U s' := by
  by_cases htag : tag = "*"
  · subst htag
    rw [serial_log_level_set_wildcard] at h
    cases h
    exact
      { tags_in := by simp [clear_log_level_list, occupied]
        tags_nodup := by simp [clear_log_level_list, occupied]
        coherent := by simp [clear_log_level_list, occupied] }
  · rcases serial_log_level_set_effect text hlev.wf htag level malloc_ok with
      ⟨_, _, h'⟩ | ⟨tags', cache', hset, _, h', hc⟩
    · rw [h'] at h
      cases h
      exact hinv
    · rw [h'] at h
      cases h
      have hmod := mod_eq_of_le_verbose hlevel
      have hunc_eq : ∀ p, text p = tag →
          uncached_level text { s with set_log_tags := tags', set_log_cache := cache' } p =
            level := by
        intro p hp
        simp [uncached_level, hp, tags_set_lookup hset, hmod.2]
      have hunc_ne : ∀ p, text p ≠ tag →
          uncached_level text { s with set_log_tags := tags', set_log_cache := cache' } p =
            uncached_level text s p := by
        intro p hp
        simp [uncached_level, tags_set_lookup_ne hset hp]
      rcases hc with ⟨rfl, hnomatch⟩ | ⟨k, e, hk, hke, het, _, rfl⟩
      · exact
          { tags_in := hinv.tags_in
            tags_nodup := hinv.tags_nodup
            coherent := fun e' he' => by
              rw [hunc_ne _ (hnomatch e' he')]
              exact hinv.coherent e' he' }
      · have hoe : (occupied s)[k]? = some e := by rw [occupied_getElem? hk]; exact hke
        have hocc : occupied { s with
              set_log_tags := tags'
              set_log_cache := s.set_log_cache.set k { e with level := level % 8 } } =
            (occupied s).set k { e with level := level % 8 } := by
          simp [occupied, List.set_take]
        refine
          { tags_in := ?_
            tags_nodup := ?_
            coherent := ?_ }
        · intro e' he'
          rw [hocc] at he'
          rcases List.mem_or_eq_of_mem_set he' with h1 | h1
          · exact hinv.tags_in e' h1
          · rw [h1]
            exact hinv.tags_in e (List.mem_iff_getElem?.mpr ⟨k, hoe⟩)
        · rw [hocc, map_set_same (fun x : cached_tag_entry_t => x.tag) hoe
            (show ({ e with level := level % 8 } : cached_tag_entry_t).tag = e.tag from rfl)]
          exact hinv.tags_nodup
        · intro e' he'
          rw [hocc] at he'
          rcases mem_set_cases he' with h1 | ⟨j, hjk, hj⟩
          · rw [h1, hunc_eq _ het]
            exact hmod.1
          · have hne : text e'.tag ≠ tag := by
              intro heq
              have hin' := hinv.tags_in e' (List.mem_iff_getElem?.mpr ⟨j, hj⟩)
              have hin := hinv.tags_in e (List.mem_iff_getElem?.mpr ⟨k, hoe⟩)
              have htageq : e'.tag = e.tag := (hU _ _ hin' hin).mpr (by rw [heq, het])
              exact hjk (nodup_map_index (·.tag) hinv.tags_nodup hj hoe htageq)
            rw [hunc_ne _ hne]
            exact hinv.coherent e' (List.mem_iff_getElem?.mpr ⟨j, hj⟩)

theorem InternInv_write {C : Nat} (hC : C % 2 = 1) {text : Nat → String} {U : Nat → Prop}
    {s s' : State} (hlev : LevelInv C text s) (hinv : InternInv text U s) {tag lvl : Nat}
    (htag : U tag) (h : level_for_tag C text s tag = some (s', lvl)) :
    InternInv text U s' := by
  have hwf := hlev.wf
  rcases get_cached_log_level_effect hC hwf tag with
    ⟨hget, hmiss⟩ | ⟨i, e, s'', hi, het, _, hget, _, htags, hdef, _, hcase⟩
  · obtain ⟨s'', hadd, _, htags, hdef, _, hcase⟩ :=
      add_to_cache_effect hC hwf tag (uncached_level text s tag)
    have hs' : s' = s'' := by
      have h2 : level_for_tag C text s tag = some (s'', uncached_level text s tag) := by
        unfold uncached_level at hadd ⊢
        simp only [level_for_tag, hget, Option.bind_eq_bind, Option.some_bind]
        cases hl : get_uncached_log_level s.set_log_tags (text tag) <;>
          simp [hl] at hadd ⊢ <;> simp [hadd]
      rw [h] at h2
      cases h2
      rfl
    subst hs'
    have hnew_level : (new_entry s tag (uncached_level text s tag)).level =
        uncached_level text s tag :=
      (mod_eq_of_le_verbose (uncached_level_le text hlev.default_le
        hlev.tags_le tag)).1
    have hnotin : tag ∉ (occupied s).map (·.tag) := by
      intro hmem
      obtain ⟨x, hx, hxt⟩ := List.mem_map.mp hmem
      exact hmiss x hx hxt
    have hgood : ∀ e' : cached_tag_entry_t,
        e' ∈ occupied s ∨ e' = new_entry s tag (uncached_level text s tag) →
        U e'.tag ∧ e'.level = uncached_level text s' e'.tag := by
      intro e' he'
      rw [uncached_level_congr htags hdef]
      rcases he' with h1 | h1
      · exact ⟨hinv.tags_in e' h1, hinv.coherent e' h1⟩
      · rw [h1]
        exact ⟨htag, hnew_level⟩
    rcases hcase with ⟨_, _, hocc⟩ | ⟨_, _, hperm⟩
    · refine
        { tags_in := fun e' he' => (hgood e' ?_).1
          tags_nodup := ?_
          coherent := fun e' he' => (hgood e' ?_).2 }
      · rw [hocc] at he'
        rcases List.mem_append.mp he' with h1 | h1
        · exact Or.inl h1
        · exact Or.inr (by simpa using h1)
      · rw [hocc, List.map_append]
        refine List.nodup_append.mpr ⟨hinv.tags_nodup, by simp, ?_⟩
        intro a ha hb
        simp [new_entry] at hb
        exact hnotin (hb ▸ ha)
      · rw [hocc] at he'
        rcases List.mem_append.mp he' with h1 | h1
        · exact Or.inl h1
        · exact Or.inr (by simpa using h1)
    · refine
        { tags_in := fun e' he' =>
            (hgood e' (List.mem_or_eq_of_mem_set (hperm.mem_iff.mp he'))).1
          tags_nodup := ?_
          coherent := fun e' he' =>
            (hgood e' (List.mem_or_eq_of_mem_set (hperm.mem_iff.mp he'))).2 }
      rw [(hperm.map _).nodup_iff, List.map_set]
      exact hinv.tags_nodup.set hnotin
  · have hs' : s' = s'' := by
      have h2 : level_for_tag C text s tag = some (s'', e.level) := by
        simp [level_for_tag, hget]
      rw [h] at h2
      cases h2
      rfl
    subst hs'
    rcases hcase with ⟨_, rfl⟩ | ⟨_, _, hperm⟩
    · exact hinv
    · have hmem : e ∈ occupied s := List.mem_iff_getElem?.mpr ⟨i, hi⟩
      have hgood : ∀ e' : cached_tag_entry_t, e' ∈ (occupied s).set i (promoted s e) →
          U e'.tag ∧ e'.level = uncached_level text s' e'.tag := by
        intro e' he'
        rw [uncached_level_congr htags hdef]
        rcases List.mem_or_eq_of_mem_set he' with h1 | h1
        · exact ⟨hinv.tags_in e' h1, hinv.coherent e' h1⟩
        · rw [h1]
          exact ⟨hinv.tags_in e hmem, hinv.coherent e hmem⟩
      refine
        { tags_in := fun e' he' => (hgood e' (hperm.mem_iff.mp he')).1
          tags_nodup := ?_
          coherent := fun e' he' => (hgood e' (hperm.mem_iff.mp he')).2 }
      rw [(hperm.map _).nodup_iff,
        map_set_same (fun x : cached_tag_entry_t => x.tag) hi
          (show (promoted s e).tag = e.tag from rfl)]
      exact hinv.tags_nodup

/-- Both invariants hold in every state reached by API calls on tags of an
interned set. -/
theorem Reach_InternInv {C : Nat} (hC : C % 2 = 1) {text : Nat → String} {U : Nat → Prop}
    (hU : Interned text U) {s : State}
    (h : Reach C text (fun _ op => api_call op ∧ op_tags_in U op) s) :
    LevelInv C text s ∧ InternInv text U s := by
  induction h with
  | init => exact ⟨LevelInv_init C text, InternInv_init C text U⟩
  | @step s s' op _ hg hstep ih =>
    refine ⟨LevelInv_step hC ih.1 hg.1 hstep, ?_⟩
    cases op with
    | level_set tag level malloc_ok => exact InternInv_level_set hU ih.1 ih.2 hg.1 hstep
    | write tag =>
      simp only [step, Option.map_eq_some'] at hstep
      obtain ⟨⟨s'', lvl⟩, h1, h2⟩ := hstep
      cases h2
      exact InternInv_write hC ih.1 ih.2 hg.2 h1
    | add tag level => exact absurd hg.1 (by simp [api_call])
    | get tag => exact absurd hg.1 (by simp [api_call])

/-- C5 (cache coherence): when the tags passed to `serial_log_write` are
interned and the levels passed to `serial_log_level_set` are in
`NONE..VERBOSE`, in every reachable state every occupied cache entry holds the
level the resolver without a cache gives for its tag (the list lookup, else
the default level), and the lookup block of `serial_log_write` returns, for
every such tag, exactly that level. -/
theorem C5_cache_coherence {C : Nat} (hC : C % 2 = 1) (text : Nat → String) (U : Nat → Prop)
    (hU : Interned text U) {s : State}
    (hs : Reach C text (fun _ op => api_call op ∧ op_tags_in U op) s) :
    (∀ i e, i < s.set_log_cache_entry_count → s.set_log_cache[i]? = some e →
      e.level = uncached_level text s e.tag) ∧
    (∀ tag, U tag → ∃ s', level_for_tag C text s tag = some (s', uncached_level text s tag)) := by
  obtain ⟨hlev, hinv⟩ := Reach_InternInv hC hU hs
  constructor
  · intro i e hi he
    exact hinv.coherent e (mem_occupied.mpr ⟨i, hi, he⟩)
  · intro tag htag
    obtain ⟨s', lvl, h, _, _, _, _, hlvl⟩ := level_for_tag_frame hC text hlev.wf tag
    refine ⟨s', ?_⟩
    rcases hlvl with ⟨e, he, het, rfl⟩ | ⟨_, rfl⟩
    · rw [h, hinv.coherent e he, het]
    · exact h

/-! ## Generations and the heap order -/

theorem generation_at_eq {cache : List cached_tag_entry_t} {i : Nat} {e : cached_tag_entry_t}
    (h : cache[i]? = some e) : generation_at cache i = e.generation := by
  simp [generation_at, h]

theorem generation_at_set_ne (cache : List cached_tag_entry_t) {i j : Nat}
    (a : cached_tag_entry_t) (h : j ≠ i) :
    generation_at (cache.set i a) j = generation_at cache j := by
  simp [generation_at, List.getElem?_set_ne (Ne.symm h)]

theorem generation_at_set_self (cache : List cached_tag_entry_t) {i : Nat}
    (a : cached_tag_entry_t) (h : i < cache.length) :
    generation_at (cache.set i a) i = a.generation := by
  simp [generation_at, h]

theorem generation_at_set_same (cache : List cached_tag_entry_t) {i : Nat}
    {e a : cached_tag_entry_t} (he : cache[i]? = some e) (ha : a.generation = e.generation)
    (j : Nat) : generation_at (cache.set i a) j = generation_at cache j := by
  by_cases h : j = i
  · subst h
    rw [generation_at_set_self _ _ (List.getElem?_eq_some.mp he).1, generation_at_eq he, ha]
  · exact generation_at_set_ne _ _ h

/-- Generations after exchanging the entries at `i` and `n`. -/
theorem generation_at_swap {cache : List cached_tag_entry_t} {i n : Nat}
    {x y : cached_tag_entry_t} (hx : cache[i]? = some x) (hy : cache[n]? = some y)
    (hne : i ≠ n) (k : Nat) :
    generation_at ((cache.set i y).set n x) k =
      if k = n then generation_at cache i
      else if k = i then generation_at cache n else generation_at cache k := by
  have hi : i < cache.length := (List.getElem?_eq_some.mp hx).1
  have hn : n < cache.length := (List.getElem?_eq_some.mp hy).1
  by_cases hkn : k = n
  · subst hkn
    rw [if_pos rfl, generation_at_set_self _ _ (by simpa using hn), generation_at_eq hx]
  · rw [if_neg hkn, generation_at_set_ne _ _ hkn]
    by_cases hki : k = i
    · subst hki
      rw [if_pos rfl, generation_at_set_self _ _ hi, generation_at_eq hy]
    · rw [if_neg hki, generation_at_set_ne _ _ hki]

theorem heap_children_of_ordered {cache : List cached_tag_entry_t} {n : Nat}
    (h : heap_ordered cache n) : heap_children cache n := by
  intro i hi
  have h1 := h (2 * i + 1) (by omega) (by omega)
  have h2 := h (2 * i + 2) (by omega) (by omega)
  have e1 : (2 * i + 1 - 1) / 2 = i := by omega
  have e2 : (2 * i + 2 - 1) / 2 = i := by omega
  rw [e1] at h1
  rw [e2] at h2
  exact le_min h1 h2

/-- In a heap-ordered prefix the root has the least generation. -/
theorem heap_ordered_root_le {cache : List cached_tag_entry_t} {n : Nat}
    (h : heap_ordered cache n) : ∀ i, i < n → generation_at cache 0 ≤ generation_at cache i := by
  intro i
  induction i using Nat.strong_induction_on with
  | _ i ih =>
    intro hi
    by_cases h0 : i = 0
    · subst h0
      exact le_refl _
    · exact le_trans (ih ((i - 1) / 2) (by omega) (by omega)) (h i (by omega) hi)

/-! ## Bubble-down restores the heap order -/

theorem sinking_step {C : Nat} (hC : C % 2 = 1) {index n sib : Nat}
    {cache : List cached_tag_entry_t} {x y : cached_tag_entry_t}
    (h : index < C / 2) (hx : cache[index]? = some x) (hy : cache[n]? = some y)
    (hn : (n = index * 2 + 1 ∧ sib = index * 2 + 1 + 1) ∨
          (n = index * 2 + 1 + 1 ∧ sib = index * 2 + 1))
    (hle : generation_at cache n ≤ generation_at cache sib)
    (hinv : sinking C index cache) :
    sinking C n ((cache.set index y).set n x) := by
  obtain ⟨_, hmax, hord, hgrand⟩ := hinv
  have hb := children_lt hC h
  have hne : index ≠ n := by omega
  have hnC : n < C := by omega
  have hg := generation_at_swap hx hy hne
  refine ⟨hnC, ?_, ?_, ?_⟩
  · intro k hk
    rw [hg k, hg n, if_pos rfl]
    by_cases hkn : k = n
    · rw [if_pos hkn]
    · rw [if_neg hkn]
      by_cases hki : k = index
      · rw [if_pos hki]
        exact hmax n hnC
      · rw [if_neg hki]
        exact hmax k hk
  · intro j hj1 hjC hjn hpn
    rw [hg j, hg ((j - 1) / 2), if_neg hjn, if_neg hpn]
    by_cases hji : j = index
    · have hpi : (j - 1) / 2 ≠ index := by omega
      rw [if_pos hji, if_neg hpi]
      subst hji
      exact hgrand n hj1 hnC (by omega) (by omega)
    · rw [if_neg hji]
      by_cases hpi : (j - 1) / 2 = index
      · rw [if_pos hpi]
        have hjs : j = sib := by omega
        rw [hjs]
        exact hle
      · rw [if_neg hpi]
        exact hord j hj1 hjC hji hpi
  · intro j _ hjC hpj hj1
    have hpn : (n - 1) / 2 = index := by omega
    have hjn : j ≠ n := by omega
    have hji : j ≠ index := by omega
    rw [hpn, hg index, hg j, if_neg hne, if_pos rfl, if_neg hjn, if_neg hji]
    have hthis := hord j hj1 hjC hji (by omega)
    rw [hpj] at hthis
    exact hthis

/-- Bubble-down from an index around which the array is heap-ordered, holding
the greatest generation, returns a heap-ordered array. -/
theorem heap_bubble_down_ordered {C : Nat} (hC : C % 2 = 1) {index : Nat}
    {cache cache' : List cached_tag_entry_t} (hlen : cache.length = C)
    (hinv : sinking C index cache) (h : heap_bubble_down C index cache = some cache') :
    heap_ordered cache' C := by
  obtain ⟨k, c, hc, _, hk, hkC, hmax, hord, _⟩ :=
    heap_bubble_down_rule hC (sinking C)
      (fun index c x l r _ hlt hx hl hr hinv =>
        ⟨fun hgen => sinking_step hC hlt hx hl (Or.inl ⟨rfl, rfl⟩)
            (by rw [generation_at_eq hl, generation_at_eq hr]; exact Nat.le_of_lt hgen) hinv,
         fun hgen => sinking_step hC hlt hx hr (Or.inr ⟨rfl, rfl⟩)
            (by rw [generation_at_eq hl, generation_at_eq hr]; exact Nat.le_of_not_lt hgen)
            hinv⟩)
      index cache hlen hinv
  rw [h] at hc
  cases hc
  intro j hj1 hjC
  by_cases hjk : j = k
  · rw [hjk]
    exact hmax _ (by omega)
  · exact hord j hj1 hjC hjk (by omega)

/-! ## The heap invariant -/

theorem HeapInv_init (C : Nat) : HeapInv C (init C) where
  wf := WF_init C
  counter_le := by simp [init]
  gen_lt := by simp [occupied_init]
  gen_nodup := by simp [occupied_init]
  ordered := by intro i h1 h2; simp [init] at h2

theorem HeapInv.generation_at_lt {C : Nat} {s : State} (hinv : HeapInv C s) {i : Nat}
    (hi : i < s.set_log_cache_entry_count) :
    generation_at s.set_log_cache i < s.set_log_cache_max_generation := by
  have hlt : i < s.set_log_cache.length := by rw [hinv.wf.1]; exact lt_of_lt_of_le hi hinv.wf.2
  have he : s.set_log_cache[i]? = some s.set_log_cache[i] := List.getElem?_eq_getElem hlt
  rw [generation_at_eq he]
  exact hinv.gen_lt _ (mem_occupied.mpr ⟨i, hi, he⟩)

theorem counter_not_mem {C : Nat} {s : State} (hinv : HeapInv C s) :
    s.set_log_cache_max_generation ∉ (occupied s).map (·.generation) := by
  intro hmem
  obtain ⟨e, he, heq⟩ := List.mem_map.mp hmem
  have := hinv.gen_lt e he
  omega

/-- Below capacity `add_to_cache` keeps the heap invariant. -/
theorem HeapInv_add_below {C : Nat} {s s' : State} (hinv : HeapInv C s) (hnw : no_wrap s)
    (h : s.set_log_cache_entry_count < C) {tag level : Nat}
    (hadd : add_to_cache C s tag level = some s') : HeapInv C s' := by
  unfold no_wrap at hnw
  rw [add_to_cache_below hinv.wf h] at hadd
  cases hadd
  have hlen : s.set_log_cache_entry_count < s.set_log_cache.length := by
    rw [hinv.wf.1]; exact h
  have hgen : (new_entry s tag level).generation = s.set_log_cache_max_generation := by
    simp only [new_entry]
    exact Nat.mod_eq_of_lt hnw
  have hcnt : (s.set_log_cache_max_generation + 1) % 2 ^ 32 =
      s.set_log_cache_max_generation + 1 := by omega
  have hocc : occupied { bump s (s.set_log_cache.set s.set_log_cache_entry_count
      (new_entry s tag level)) with
      set_log_cache_entry_count := s.set_log_cache_entry_count + 1 } =
      occupied s ++ [new_entry s tag level] := by
    simp only [occupied, bump]
    exact take_set_succ _ _ _ hlen
  refine
    { wf := ⟨by simp [bump, hinv.wf.1], by simp [bump]; omega⟩
      counter_le := by simp only [bump]; omega
      gen_lt := ?_
      gen_nodup := ?_
      ordered := ?_ }
  · intro e he
    rw [hocc] at he
    simp only [bump]
    rw [hcnt]
    rcases List.mem_append.mp he with h1 | h1
    · exact Nat.lt_succ_of_lt (hinv.gen_lt e h1)
    · have : e = new_entry s tag level := by simpa using h1
      rw [this, hgen]
      exact Nat.lt_succ_self _
  · rw [hocc, List.map_append]
    refine List.nodup_append.mpr ⟨hinv.gen_nodup, by simp, ?_⟩
    intro a ha hb
    have : a = s.set_log_cache_max_generation := by simpa [hgen] using hb
    exact counter_not_mem hinv (this ▸ ha)
  · intro j hj1 hj2
    simp only [bump] at hj2 ⊢
    rw [generation_at_set_ne _ _ (show (j - 1) / 2 ≠ s.set_log_cache_entry_count by omega)]
    by_cases hjc : j = s.set_log_cache_entry_count
    · rw [hjc, generation_at_set_self _ _ hlen, hgen]
      exact Nat.le_of_lt (hinv.generation_at_lt (by omega))
    · rw [generation_at_set_ne _ _ hjc]
      exact hinv.ordered j hj1 (by omega)

/-- At capacity, storing at index `i` an entry whose generation is the counter
and bubbling it down keeps the heap invariant. -/
theorem HeapInv_replace {C : Nat} (hC : C % 2 = 1) {s : State} (hinv : HeapInv C s)
    (hnw : no_wrap s) (hfull : s.set_log_cache_entry_count = C) {i : Nat}
    {e e1 : cached_tag_entry_t} (hi : s.set_log_cache[i]? = some e)
    (hgen : e1.generation = s.set_log_cache_max_generation % 2 ^ 29)
    {cache' : List cached_tag_entry_t}
    (hb : heap_bubble_down C i (s.set_log_cache.set i e1) = some cache') :
    HeapInv C (bump s cache') := by
  unfold no_wrap at hnw
  have hwf := hinv.wf
  have hiC : i < C := by rw [← hwf.1]; exact (List.getElem?_eq_some.mp hi).1
  have hilen : i < s.set_log_cache.length := by rw [hwf.1]; exact hiC
  have hgen' : e1.generation = s.set_log_cache_max_generation := by
    rw [hgen]; exact Nat.mod_eq_of_lt hnw
  have hcnt : (s.set_log_cache_max_generation + 1) % 2 ^ 32 =
      s.set_log_cache_max_generation + 1 := by omega
  obtain ⟨hlen', hperm⟩ := heap_bubble_down_perm hC (by simp [hwf.1]) hb
  have hwf' : WF C (bump s cache') := ⟨hlen', by simp [bump, hwf.2]⟩
  have hocc' : occupied (bump s cache') = cache' := occupied_full hwf' hfull
  have hocc : occupied s = s.set_log_cache := occupied_full hwf hfull
  have hsink : sinking C i (s.set_log_cache.set i e1) := by
    have hself : generation_at (s.set_log_cache.set i e1) i = s.set_log_cache_max_generation := by
      rw [generation_at_set_self _ _ hilen, hgen']
    refine ⟨hiC, ?_, ?_, ?_⟩
    · intro k hk
      rw [hself]
      by_cases hki : k = i
      · rw [hki, hself]
      · rw [generation_at_set_ne _ _ hki]
        exact Nat.le_of_lt (hinv.generation_at_lt (by omega))
    · intro j hj1 hjC hji hpi
      rw [generation_at_set_ne _ _ hji, generation_at_set_ne _ _ hpi]
      exact hinv.ordered j hj1 (by omega)
    · intro j hi1 hjC hpj hj1
      have hji : j ≠ i := by omega
      have hpi : (i - 1) / 2 ≠ i := by omega
      rw [generation_at_set_ne _ _ hji, generation_at_set_ne _ _ hpi]
      have h1 := hinv.ordered i hi1 (by omega)
      have h2 := hinv.ordered j hj1 (by omega)
      rw [hpj] at h2
      exact le_trans h1 h2
  refine
    { wf := hwf'
      counter_le := by simp only [bump]; omega
      gen_lt := ?_
      gen_nodup := ?_
      ordered := by
        simp only [bump]
        rw [hfull]
        exact heap_bubble_down_ordered hC (by simp [hwf.1]) hsink hb }
  · intro e' he'
    rw [hocc'] at he'
    simp only [bump]
    rw [hcnt]
    rcases List.mem_or_eq_of_mem_set (hperm.mem_iff.mp he') with h1 | h1
    · exact Nat.lt_succ_of_lt (hinv.gen_lt e' (by rw [hocc]; exact h1))
    · rw [h1, hgen']
      exact Nat.lt_succ_self _
  · rw [hocc', (hperm.map _).nodup_iff, List.map_set, hgen', ← hocc]
    exact hinv.gen_nodup.set (counter_not_mem hinv)

theorem HeapInv_add {C : Nat} (hC : C % 2 = 1) {s s' : State} (hinv : HeapInv C s)
    (hnw : no_wrap s) {tag level : Nat} (hadd : add_to_cache C s tag level = some s') :
    HeapInv C s' := by
  by_cases h : s.set_log_cache_entry_count < C
  · exact HeapInv_add_below hinv hnw h hadd
  · obtain ⟨cache', hb, hadd'⟩ := add_to_cache_full hC hinv.wf h tag level
    rw [hadd] at hadd'
    cases hadd'
    have hfull : s.set_log_cache_entry_count = C :=
      Nat.le_antisymm hinv.wf.2 (Nat.le_of_not_lt h)
    have hpos : 0 < s.set_log_cache.length := by rw [hinv.wf.1]; omega
    exact HeapInv_replace hC hinv hnw hfull (List.getElem?_eq_getElem hpos) rfl hb

theorem HeapInv_get {C : Nat} (hC : C % 2 = 1) {s s' : State} (hinv : HeapInv C s)
    (hnw : no_wrap s) {tag : Nat} {r : Option Nat}
    (hget : get_cached_log_level C s tag = some (s', r)) : HeapInv C s' := by
  rcases get_cached_log_level_spec hC hinv.wf tag with
    ⟨h1, _⟩ | ⟨i, e, _, he, _, _, ⟨_, h1⟩ | ⟨hfull, cache', hb, h1⟩⟩
  · rw [hget] at h1
    cases h1
    exact hinv
  · rw [hget] at h1
    cases h1
    exact hinv
  · rw [hget] at h1
    cases h1
    exact HeapInv_replace hC hinv hnw hfull he rfl hb

theorem HeapInv_write {C : Nat} (hC : C % 2 = 1) {text : Nat → String} {s s' : State}
    (hinv : HeapInv C s) (hnw : no_wrap s) {tag lvl : Nat}
    (h : level_for_tag C text s tag = some (s', lvl)) : HeapInv C s' := by
  rcases level_for_tag_effect hC text hinv.wf tag with
    ⟨_, s'', hadd, h'⟩ | ⟨e, s'', _, _, hget, h'⟩
  · rw [h] at h'
    cases h'
    exact HeapInv_add hC hinv hnw hadd
  · rw [h] at h'
    cases h'
    exact HeapInv_get hC hinv hnw hget

theorem HeapInv_level_set {C : Nat} {text : Nat → String} {s s' : State}
    (hinv : HeapInv C s) {tag : String} {level : Nat} {malloc_ok : Bool}
    (h : serial_log_level_set text s tag level malloc_ok = some s') : HeapInv C s' := by
  by_cases htag : tag = "*"
  · subst htag
    rw [serial_log_level_set_wildcard] at h
    cases h
    exact
      { wf := ⟨by simpa [clear_log_level_list] using hinv.wf.1, by simp [clear_log_level_list]⟩
        counter_le := by simp [clear_log_level_list]
        gen_lt := by simp [clear_log_level_list, occupied]
        gen_nodup := by simp [clear_log_level_list, occupied]
        ordered := by intro i h1 h2; simp [clear_log_level_list] at h2 }
  · rcases serial_log_level_set_effect text hinv.wf htag level malloc_ok with
      ⟨_, _, h'⟩ | ⟨tags', cache', _, _, h', hc⟩
    · rw [h'] at h
      cases h
      exact hinv
    · rw [h'] at h
      cases h
      rcases hc with ⟨rfl, _⟩ | ⟨k, e, hk, hke, _, _, rfl⟩
      · exact
          { wf := hinv.wf
            counter_le := hinv.counter_le
            gen_lt := hinv.gen_lt
            gen_nodup := hinv.gen_nodup
            ordered := hinv.ordered }
      · have hoe : (occupied s)[k]? = some e := by rw [occupied_getElem? hk]; exact hke
        have hocc : occupied { s with
              set_log_tags := tags'
              set_log_cache := s.set_log_cache.set k { e with level := level % 8 } } =
            (occupied s).set k { e with level := level % 8 } := by
          simp [occupied, List.set_take]
        refine
          { wf := ⟨by simpa using hinv.wf.1, hinv.wf.2⟩
            counter_le := hinv.counter_le
            gen_lt := ?_
            gen_nodup := ?_
            ordered := ?_ }
        · intro e' he'
          rw [hocc] at he'
          rcases List.mem_or_eq_of_mem_set he' with h1 | h1
          · exact hinv.gen_lt e' h1
          · rw [h1]
            exact hinv.gen_lt e (List.mem_iff_getElem?.mpr ⟨k, hoe⟩)
        · rw [hocc, map_set_same (fun x : cached_tag_entry_t => x.generation) hoe
            (show ({ e with level := level % 8 } : cached_tag_entry_t).generation =
              e.generation from rfl)]
          exact hinv.gen_nodup
        · intro j hj1 hj2
          simp only at hj2 ⊢
          have hsame := generation_at_set_same s.set_log_cache hke
            (show ({ e with level := level % 8 } : cached_tag_entry_t).generation =
              e.generation from rfl)
          rw [hsame, hsame]
          exact hinv.ordered j hj1 hj2

/-- The heap invariant holds in every state reached by calls made while the
counter is below `2^29`. -/
theorem Reach_HeapInv {C : Nat} (hC : C % 2 = 1) {text : Nat → String}
    {G : State → Op → Prop} (hG : ∀ s op, G s op → no_wrap s) {s : State}
    (h : Reach C text G s) : HeapInv C s := by
  induction h with
  | init => exact HeapInv_init C
  | @step s s' op _ hg hstep ih =>
    have hnw := hG _ _ hg
    cases op with
    | level_set tag level malloc_ok => exact HeapInv_level_set ih hstep
    | write tag =>
      simp only [step, Option.map_eq_some'] at hstep
      obtain ⟨⟨s'', lvl⟩, h1, h2⟩ := hstep
      cases h2
      exact HeapInv_write hC ih hnw h1
    | add tag level => exact HeapInv_add hC ih hnw hstep
    | get tag =>
      simp only [step, Option.map_eq_some'] at hstep
      obtain ⟨⟨s'', r⟩, h1, h2⟩ := hstep
      cases h2
      exact HeapInv_get hC ih hnw h1

/-! ## Reaching a state by running calls -/

theorem is_api_call_sound {op : Op} (h : is_api_call op = true) : api_call op := by
  cases op <;> simp_all [is_api_call, api_call]

theorem is_cache_call_sound {op : Op} (h : is_cache_call op = true) : cache_call op := by
  cases op <;> simp_all [is_cache_call, cache_call]

theorem below_wrap_sound {s : State} (h : below_wrap s = true) : no_wrap s := by
  simpa [below_wrap, no_wrap] using h

theorem Reach_run_guarded {C : Nat} {text : Nat → String} {G : State → Op → Prop}
    {g : State → Op → Bool} (hg : ∀ s op, g s op = true → G s op) :
    ∀ (ops : List Op) {s s' : State}, Reach C text G s →
      run_guarded C text g s ops = some s' → Reach C text G s'
  | [], s, s', hs, h => by
    simp [run_guarded] at h
    exact h ▸ hs
  | op :: ops, s, s', hs, h => by
    by_cases hgs : g s op = true
    · simp only [run_guarded, hgs, if_true] at h
      cases hstep : step C text s op with
      | none => simp [hstep] at h
      | some s1 =>
        simp only [hstep, Option.some_bind] at h
        exact Reach_run_guarded hg ops (Reach.step hs (hg s op hgs) hstep) h
    · simp [run_guarded, hgs] at h

theorem pow_two_sub_one_odd {n : Nat} (hn : 1 ≤ n) : (2 ^ n - 1) % 2 = 1 := by
  obtain ⟨m, rfl⟩ : ∃ m, n = m + 1 := ⟨n - 1, by omega⟩
  have hpos : 0 < 2 ^ m := Nat.two_pow_pos m
  rw [pow_succ]
  omega

/-! ## Claims about the heap -/

/-- C6, amended (heap invariant): after any sequence of `add_to_cache` and
`get_cached_log_level` calls from the initial state, each made while the
generation counter is below `2^29`, every index `i` with `2i+2` below the entry
count satisfies `generation[i] ≤ min(generation[2i+1], generation[2i+2])`;
when the cache is full these are all `i` with `2i+2 < C`. -/
theorem C6_heap_invariant {C : Nat} (hC : C % 2 = 1) (text : Nat → String) {s : State}
    (hs : Reach C text (fun s op => cache_call op ∧ no_wrap s) s) :
    heap_children s.set_log_cache s.set_log_cache_entry_count ∧
    (s.set_log_cache_entry_count = C → heap_children s.set_log_cache C) := by
  have hinv := Reach_HeapInv hC (fun _ _ h => h.2) hs
  have h := heap_children_of_ordered hinv.ordered
  exact ⟨h, fun hfull => hfull ▸ h⟩

theorem C6_heap_invariant_witness :
    3 % 2 = 1 ∧
    Reach 3 text_abcd (fun s op => cache_call op ∧ no_wrap s) ⟨5, [], 4, 3, scenario_A_after⟩ ∧
    heap_children scenario_A_after 3 :=
  have hr : Reach 3 text_abcd (fun s op => cache_call op ∧ no_wrap s)
      ⟨5, [], 4, 3, scenario_A_after⟩ :=
    Reach_run_guarded (g := fun s op => is_cache_call op && below_wrap s)
      (fun s op h => by
        simp only [Bool.and_eq_true] at h
        exact ⟨is_cache_call_sound h.1, below_wrap_sound h.2⟩)
      [.add 1 1, .add 2 2, .add 3 3, .add 4 4] Reach.init (by decide)
  ⟨by decide, hr, (C6_heap_invariant (by decide) text_abcd hr).1⟩

theorem set_zero_eq_cons_tail {α : Type} (l : List α) (a : α) (h : 0 < l.length) :
    l.set 0 a = a :: l.tail := by
  cases l with
  | nil => simp at h
  | cons x xs => rfl

/-- In a state with the heap invariant and a full cache, the entry at index 0
has a generation strictly below that of every other entry. -/
theorem HeapInv.root_lt {C : Nat} {s : State} (hinv : HeapInv C s)
    {old e : cached_tag_entry_t} {i : Nat} (h0 : s.set_log_cache[0]? = some old)
    (hi1 : 1 ≤ i) (hic : i < s.set_log_cache_entry_count) (hi : s.set_log_cache[i]? = some e) :
    old.generation < e.generation := by
  have hle := heap_ordered_root_le hinv.ordered i hic
  rw [generation_at_eq h0, generation_at_eq hi] at hle
  have hne : old.generation ≠ e.generation := by
    intro heq
    have h0' : (occupied s)[0]? = some old := by rw [occupied_getElem? (by omega)]; exact h0
    have hi' : (occupied s)[i]? = some e := by rw [occupied_getElem? hic]; exact hi
    have := nodup_map_index (fun x : cached_tag_entry_t => x.generation) hinv.gen_nodup h0' hi' heq
    omega
  omega

/-! ## Running the counter up to the width of the generation field -/

theorem get_cached_scan_pumped (k : Nat) :
    get_cached_scan 31 (pumped k).set_log_cache 31 0 = some 30 := by
  simp [pumped, filled_entries, get_cached_scan, List.range, List.range.loop]

theorem pumped_get (k : Nat) (hk : 31 + k + 1 < 2 ^ 32) :
    get_cached_log_level 31 (pumped k) 31 = some (pumped (k + 1), some 5) := by
  have hscan := get_cached_scan_pumped k
  have h30 : (pumped k).set_log_cache[30]? = some ⟨31, 5, (30 + k) % 2 ^ 29⟩ := by
    simp [pumped, filled_entries]
  have hcount : (pumped k).set_log_cache_entry_count = 31 := rfl
  have hlen : 30 < (pumped k).set_log_cache.length := by simp [pumped, filled_entries]
  have hbubble : ∀ c : List cached_tag_entry_t, heap_bubble_down 31 30 c = some c := by
    intro c
    simp [heap_bubble_down, heap_bubble_down_loop]
  have hmod : (31 + k + 1) % 4294967296 = 31 + (k + 1) := by omega
  have hgen : (31 + k) % 536870912 = (30 + (k + 1)) % 536870912 := by
    congr 1
    omega
  simp only [get_cached_log_level, hcount, hscan, Option.bind_eq_bind, Option.some_bind, h30,
    cache_write, hlen, hbubble]
  simp [pumped, filled_entries, hmod, hgen]

/-- The states `pumped k` follow one another under log calls for tag 31, as
long as the 32-bit counter does not wrap. -/
theorem pumped_step (text : Nat → String) (k : Nat) (hk : 31 + k + 1 < 2 ^ 32) :
    step 31 text (pumped k) (.write 31) = some (pumped (k + 1)) ∧
    step 31 text (pumped k) (.get 31) = some (pumped (k + 1)) := by
  simp [step, level_for_tag, pumped_get k hk]

theorem fill_ops_run :
    run_guarded 31 (const_text "net") (fun _ op => is_api_call op) (init 31) fill_ops =
      some (pumped 0) := by
  decide

theorem fill_adds_run :
    run_guarded 31 (const_text "net") (fun _ op => is_cache_call op) (init 31) fill_adds =
      some (pumped 0) := by
  decide

/-- Every state `pumped k` with `k ≤ 2^29` is reachable, by log calls and
also by calls of the cache functions alone. -/
theorem pumped_reachable (k : Nat) (hk : k ≤ 2 ^ 29) :
    Reachable 31 (const_text "net") (pumped k) ∧
    Reach 31 (const_text "net") (fun _ op => cache_call op) (pumped k) := by
  induction k with
  | zero =>
    exact ⟨Reach_run_guarded (fun _ _ h => is_api_call_sound h) fill_ops Reach.init
        fill_ops_run,
      Reach_run_guarded (fun _ _ h => is_cache_call_sound h) fill_adds Reach.init
        fill_adds_run⟩
  | succ k ih =>
    obtain ⟨h1, h2⟩ := ih (by omega)
    obtain ⟨hw, hg⟩ := pumped_step (const_text "net") k (by omega)
    exact ⟨Reach.step (o := .write 31) h1 trivial hw, Reach.step (o := .get 31) h2 trivial hg⟩

/-! ## Where the claims as stated fail -/

theorem three_adds_reachable :
    Reach 31 (const_text "net") (fun _ op => cache_call op) three_adds :=
  Reach_run_guarded (g := fun _ op => is_cache_call op) (fun _ _ h => is_cache_call_sound h)
    [.add 1 5, .add 2 5, .add 3 5] Reach.init (by decide)

theorem wrapped_reachable : Reachable 31 (const_text "net") wrapped :=
  Reach.step (o := .write 100) (pumped_reachable (2 ^ 29 - 30) (by omega)).1 trivial
    (by decide)

/-- C6 as stated fails in two ways.  Below capacity the never-written entries
have generation 0: after three insertions index 1 holds generation 1 and its
children, indices 3 and 4, hold 0.  And with a full cache the order breaks
once the counter passes `2^29`: after `2^29 - 30` promotions of the entry at
index 30 its generation has wrapped to 0, below the 14 of its parent. -/
theorem C6_counterexample :
    (¬ ∀ s, Reach TAG_CACHE_SIZE (const_text "net") (fun _ op => cache_call op) s →
        heap_children s.set_log_cache TAG_CACHE_SIZE) ∧
    (¬ ∀ s, Reach TAG_CACHE_SIZE (const_text "net") (fun _ op => cache_call op) s →
        heap_children s.set_log_cache s.set_log_cache_entry_count) := by
  constructor
  · intro h
    have h1 := h three_adds three_adds_reachable 1 (by decide)
    exact absurd h1 (by decide)
  · intro h
    have h1 := h (pumped (2 ^ 29 - 30)) (pumped_reachable (2 ^ 29 - 30) (by omega)).2 14
      (by decide)
    exact absurd h1 (by decide)

/-- C7 as stated fails once the counter has passed `2^29`: in the reachable
full state `wrapped` the entry at index 0 has generation 1 while the entry at
index 30 has generation 0, so `add_to_cache` of a tag that is not cached
replaces an entry that does not have the least generation. -/
theorem C7_counterexample :
    ¬ ∀ s, Reachable TAG_CACHE_SIZE (const_text "net") s →
      s.set_log_cache_entry_count = TAG_CACHE_SIZE →
      ∀ tag level, (∀ e ∈ occupied s, e.tag ≠ tag) → level ≤ SERIAL_LOG_VERBOSE →
      ∃ old s', s.set_log_cache[0]? = some old ∧
        (∀ i e, 1 ≤ i → s.set_log_cache[i]? = some e → old.generation < e.generation) ∧
        add_to_cache TAG_CACHE_SIZE s tag level = some s' ∧
        s'.set_log_cache.Perm
          (⟨tag, level, s.set_log_cache_max_generation⟩ :: s.set_log_cache.tail) ∧
        s'.set_log_cache_entry_count = TAG_CACHE_SIZE := by
  intro h
  obtain ⟨old, s', h0, hmin, _⟩ :=
    h wrapped wrapped_reachable rfl 200 5 (by decide) (by decide)
  have hold : old = ⟨2, 5, 1⟩ := by
    have h0' : wrapped.set_log_cache[0]? = some ⟨2, 5, 1⟩ := by decide
    rw [h0'] at h0
    exact (Option.some.inj h0).symm
  have h30 := hmin 30 ⟨31, 5, 0⟩ (by decide) (by decide)
  rw [hold] at h30
  exact absurd h30 (by decide)

/-- C1 at a failing input: after log calls through two pointers to the text
`"net"` and `serial_log_level_set("net", ERROR)`, which takes effect (the list
lookup of `"net"` gives `ERROR` and the lookup through pointer 1 gives
`ERROR`), the lookup through pointer 2 still returns `VERBOSE`. -/
theorem C1_stale_level :
    ((run 31 (const_text "net") (init 31) stale_ops).map
        (fun s => get_uncached_log_level s.set_log_tags "net")) =
      some (some SERIAL_LOG_ERROR) ∧
    ((run 31 (const_text "net") (init 31) stale_ops).bind
        (fun s => level_for_tag 31 (const_text "net") s 1)).map Prod.snd =
      some SERIAL_LOG_ERROR ∧
    ((run 31 (const_text "net") (init 31) stale_ops).bind
        (fun s => level_for_tag 31 (const_text "net") s 2)).map Prod.snd =
      some SERIAL_LOG_VERBOSE := by
  decide

/-- C9 at a failing input: in the state reached by `stale_ops` the lookup
through pointer 2 returns `VERBOSE`; after the further log calls `evict_ops`,
none of which sets a level, the lookup through the same pointer returns
`ERROR`. -/
theorem C9_not_idempotent :
    ((run 31 (const_text "net") (init 31) stale_ops).bind
        (fun s => level_for_tag 31 (const_text "net") s 2)).map Prod.snd =
      some SERIAL_LOG_VERBOSE ∧
    ((run 31 (const_text "net") (init 31) (stale_ops ++ evict_ops)).bind
        (fun s => level_for_tag 31 (const_text "net") s 2)).map Prod.snd =
      some SERIAL_LOG_ERROR := by
  decide

/-! ## Uniqueness of cached tag pointers -/

theorem tags_unique_init (C : Nat) : tags_unique (init C) := by
  simp [tags_unique, occupied_init]

theorem occupied_set_cache {s : State} (tags' : List uncached_tag_entry_t) (k : Nat)
    (e' : cached_tag_entry_t) :
    occupied { s with set_log_tags := tags', set_log_cache := s.set_log_cache.set k e' } =
      (occupied s).set k e' := by
  simp [occupied, List.set_take]

theorem tags_unique_level_set {C : Nat} {text : Nat → String} {s s' : State} (hwf : WF C s)
    (hinv : tags_unique s) {tag : String} {level : Nat} {malloc_ok : Bool}
    (h : serial_log_level_set text s tag level malloc_ok = some s') : tags_unique s' := by
  by_cases htag : tag = "*"
  · subst htag
    rw [serial_log_level_set_wildcard] at h
    cases h
    simp [tags_unique, clear_log_level_list, occupied]
  · rcases serial_log_level_set_effect text hwf htag level malloc_ok with
      ⟨_, _, h'⟩ | ⟨tags', cache', _, _, h', hc⟩
    · rw [h'] at h
      cases h
      exact hinv
    · rw [h'] at h
      cases h
      rcases hc with ⟨rfl, _⟩ | ⟨k, e, hk, hke, _, _, rfl⟩
      · exact hinv
      · have hoe : (occupied s)[k]? = some e := by rw [occupied_getElem? hk]; exact hke
        unfold tags_unique
        rw [occupied_set_cache, map_set_same (fun x : cached_tag_entry_t => x.tag) hoe
          (show ({ e with level := level % 8 } : cached_tag_entry_t).tag = e.tag from rfl)]
        exact hinv

theorem tags_unique_get {C : Nat} (hC : C % 2 = 1) {s s' : State} (hwf : WF C s)
    (hinv : tags_unique s) {tag : Nat} {r : Option Nat}
    (h : get_cached_log_level C s tag = some (s', r)) : tags_unique s' := by
  rcases get_cached_log_level_effect hC hwf tag with
    ⟨hget, _⟩ | ⟨i, e, s'', hi, _, _, hget, _, _, _, _, hcase⟩
  · rw [hget] at h
    cases h
    exact hinv
  · rw [hget] at h
    cases h
    rcases hcase with ⟨_, rfl⟩ | ⟨_, _, hperm⟩
    · exact hinv
    · unfold tags_unique
      rw [(hperm.map _).nodup_iff,
        map_set_same (fun x : cached_tag_entry_t => x.tag) hi
          (show (promoted s e).tag = e.tag from rfl)]
      exact hinv

theorem tags_unique_add {C : Nat} (hC : C % 2 = 1) {s s' : State} (hwf : WF C s)
    (hinv : tags_unique s) {tag level : Nat} (hmiss : ∀ e ∈ occupied s, e.tag ≠ tag)
    (h : add_to_cache C s tag level = some s') : tags_unique s' := by
  obtain ⟨s'', hadd, _, _, _, _, hcase⟩ := add_to_cache_effect hC hwf tag level
  rw [hadd] at h
  cases h
  have hnotin : tag ∉ (occupied s).map (fun x : cached_tag_entry_t => x.tag) := by
    intro hmem
    obtain ⟨x, hx, hxt⟩ := List.mem_map.mp hmem
    exact hmiss x hx hxt
  unfold tags_unique
  rcases hcase with ⟨_, _, hocc⟩ | ⟨_, _, hperm⟩
  · rw [hocc, List.map_append]
    refine List.nodup_append.mpr ⟨hinv, by simp, ?_⟩
    intro a ha hb
    simp [new_entry] at hb
    exact hnotin (hb ▸ ha)
  · rw [(hperm.map _).nodup_iff, List.map_set]
    exact hinv.set hnotin

theorem tags_unique_write {C : Nat} (hC : C % 2 = 1) {text : Nat → String} {s s' : State}
    (hwf : WF C s) (hinv : tags_unique s) {tag lvl : Nat}
    (h : level_for_tag C text s tag = some (s', lvl)) : tags_unique s' := by
  rcases level_for_tag_effect hC text hwf tag with
    ⟨hmiss, s'', hadd, hl⟩ | ⟨e, s'', _, _, hget, hl⟩
  · rw [hl] at h
    cases h
    exact tags_unique_add hC hwf hinv hmiss hadd
  · rw [hl] at h
    cases h
    exact tags_unique_get hC hwf hinv hget

/-- Pointer uniqueness holds in every state reached by calls of
`serial_log_level_set` and `serial_log_write`. -/
theorem Reach_tags_unique {C : Nat} (hC : C % 2 = 1) {text : Nat → String} {s : State}
    (h : Reachable C text s) : tags_unique s := by
  induction h with
  | init => exact tags_unique_init C
  | @step s s' op hs hg hstep ih =>
    have hwf := Reach_WF hC hs
    cases op with
    | level_set tag level malloc_ok => exact tags_unique_level_set hwf ih hstep
    | write tag =>
      simp only [step, Option.map_eq_some'] at hstep
      obtain ⟨⟨s'', lvl⟩, h1, h2⟩ := hstep
      cases h2
      exact tags_unique_write hC hwf ih h1
    | add tag level => exact absurd hg (by simp [api_call])
    | get tag => exact absurd hg (by simp [api_call])

/-- C20 (cached tag references are unique): in every state reached from the
initial state by `serial_log_level_set` and `serial_log_write` calls, two
occupied cache indices that hold the same tag pointer are the same index. -/
theorem C20_cached_tags_unique {C : Nat} (hC : C % 2 = 1) (text : Nat → String) {s : State}
    (hs : Reachable C text s) (i j : Nat) (e1 e2 : cached_tag_entry_t)
    (hi : i < s.set_log_cache_entry_count) (hj : j < s.set_log_cache_entry_count)
    (h1 : s.set_log_cache[i]? = some e1) (h2 : s.set_log_cache[j]? = some e2)
    (ht : e1.tag = e2.tag) : i = j := by
  have hinv := Reach_tags_unique hC hs
  rw [← occupied_getElem? hi] at h1
  rw [← occupied_getElem? hj] at h2
  exact nodup_map_index (fun x : cached_tag_entry_t => x.tag) hinv h1 h2 ht

theorem scenario_A_reachable : Reachable 3 text_abcd scenario_A_state :=
  Reach_run_guarded (g := fun _ op => is_api_call op)
    (fun _ _ h => is_api_call_sound h) scenario_A_ops Reach.init (by decide)

theorem C20_cached_tags_unique_witness :
    3 % 2 = 1 ∧ Reachable 3 text_abcd scenario_A_state ∧
    (1 : Nat) < scenario_A_state.set_log_cache_entry_count ∧
    scenario_A_state.set_log_cache[1]? = some ⟨2, 2, 1⟩ ∧
    (⟨2, 2, 1⟩ : cached_tag_entry_t).tag = (⟨2, 2, 1⟩ : cached_tag_entry_t).tag ∧ 1 = 1 :=
  ⟨by decide, scenario_A_reachable, by decide, by decide, rfl,
    C20_cached_tags_unique (by decide) text_abcd scenario_A_reachable 1 1 ⟨2, 2, 1⟩ ⟨2, 2, 1⟩
      (by decide) (by decide) (by decide) (by decide) rfl⟩

/-! ## Allocation failure, and the frame of a cache read -/

/-- When a node with the text exists, `malloc` is not called: the result does
not depend on `malloc_ok`. -/
theorem serial_log_level_set_no_malloc (text : Nat → String) (s : State) {tag : String}
    (level : Nat) (h : ∃ x ∈ s.set_log_tags, x.tag = tag) (malloc_ok : Bool) :
    serial_log_level_set text s tag level malloc_ok =
      serial_log_level_set text s tag level true := by
  rcases update_existing_tag_spec s.set_log_tags tag level with
    ⟨_, h2⟩ | ⟨pre, it, post, _, _, _, h4⟩
  · obtain ⟨x, hx, hxt⟩ := h
    exact absurd hxt (h2 x hx)
  · simp [serial_log_level_set, h4]

/-- C11 (allocation failure is a silent no-op): in a reachable state, a set
for a text other than `"*"` that has no list node returns the state unchanged
when `malloc` fails; and when the text has a list node the call does not
depend on `malloc`: whatever `malloc` would return, it takes effect, and the
list lookup of the text gives the new level afterwards. -/
theorem C11_allocation_failure {C : Nat} (hC : C % 2 = 1) (text : Nat → String) {s : State}
    (hs : Reachable C text s) (T : String) (hT : T ≠ "*") (L : Nat) :
    ((∀ x ∈ s.set_log_tags, x.tag ≠ T) → serial_log_level_set text s T L false = some s) ∧
    ((∃ x ∈ s.set_log_tags, x.tag = T) → ∀ malloc_ok,
      serial_log_level_set text s T L malloc_ok = serial_log_level_set text s T L true ∧
      ∃ s', serial_log_level_set text s T L malloc_ok = some s' ∧
        get_uncached_log_level s'.set_log_tags T = some (L % 256)) := by
  have hwf := Reach_WF hC hs
  constructor
  · intro hno
    rcases serial_log_level_set_effect text hwf hT L false with
      ⟨_, _, h'⟩ | ⟨_, _, _, hex, _, _⟩
    · exact h'
    · rcases hex with ⟨x, hx, hxt⟩ | hm
      · exact absurd hxt (hno x hx)
      · cases hm
  · intro hex malloc_ok
    refine ⟨serial_log_level_set_no_malloc text s L hex malloc_ok, ?_⟩
    rcases serial_log_level_set_effect text hwf hT L malloc_ok with
      ⟨hno, _, _⟩ | ⟨tags', cache', hset, _, h', _⟩
    · obtain ⟨x, hx, hxt⟩ := hex
      exact absurd hxt (hno x hx)
    · exact ⟨_, h', tags_set_lookup hset⟩

theorem C11_allocation_failure_witness :
    3 % 2 = 1 ∧ Reachable 3 text_abcd scenario_A_state ∧ "d" ≠ "*" ∧
    ((∀ x ∈ scenario_A_state.set_log_tags, x.tag ≠ "d") →
      serial_log_level_set text_abcd scenario_A_state "d" 4 false = some scenario_A_state) ∧
    ((∃ x ∈ scenario_A_state.set_log_tags, x.tag = "d") → ∀ malloc_ok,
      serial_log_level_set text_abcd scenario_A_state "d" 4 malloc_ok =
        serial_log_level_set text_abcd scenario_A_state "d" 4 true ∧
      ∃ s', serial_log_level_set text_abcd scenario_A_state "d" 4 malloc_ok = some s' ∧
        get_uncached_log_level s'.set_log_tags "d" = some (4 % 256)) :=
  ⟨by decide, scenario_A_reachable, by decide,
    C11_allocation_failure (by decide) text_abcd scenario_A_reachable "d" (by decide) 4⟩

/-- C13 (frame of a cache read): in a state whose cache array has `C` entries
and whose entry count is at most `C`, `get_cached_log_level` returns the state
it was given when no occupied entry holds the pointer, and also when an
occupied entry holds it and the entry count is below `C`; with the entry count
equal to `C`, a hit returns a state with another counter. -/
theorem C13_cache_read_frame {C : Nat} (hC : C % 2 = 1) {s : State} (hwf : WF C s)
    (tag : Nat) :
    ((∀ e ∈ occupied s, e.tag ≠ tag) → get_cached_log_level C s tag = some (s, none)) ∧
    ((∃ e ∈ occupied s, e.tag = tag) → s.set_log_cache_entry_count < C →
      ∃ level, get_cached_log_level C s tag = some (s, some level)) ∧
    ((∃ e ∈ occupied s, e.tag = tag) → s.set_log_cache_entry_count = C →
      ∃ s' level, get_cached_log_level C s tag = some (s', some level) ∧
        s'.set_log_cache_max_generation ≠ s.set_log_cache_max_generation) := by
  rcases get_cached_log_level_effect hC hwf tag with
    ⟨hget, hmiss⟩ | ⟨i, e, s'', hi, het, _, hget, _, _, _, _, hcase⟩
  · refine ⟨fun _ => hget, ?_, ?_⟩
    · rintro ⟨e, he, het⟩ _
      exact absurd het (hmiss e he)
    · rintro ⟨e, he, het⟩ _
      exact absurd het (hmiss e he)
  · have hmem : e ∈ occupied s := List.mem_iff_getElem?.mpr ⟨i, hi⟩
    refine ⟨fun hno => absurd het (hno e hmem), ?_, ?_⟩
    · intro _ hlt
      rcases hcase with ⟨_, rfl⟩ | ⟨hfull, _⟩
      · exact ⟨_, hget⟩
      · omega
    · intro _ hfull
      rcases hcase with ⟨hne, _⟩ | ⟨_, hgen, _⟩
      · exact absurd hfull hne
      · refine ⟨s'', _, hget, ?_⟩
        rw [hgen]
        have := Nat.mod_lt (s.set_log_cache_max_generation + 1) (show 0 < 2 ^ 32 by decide)
        omega

theorem C13_cache_read_frame_witness :
    31 % 2 = 1 ∧ WF 31 three_adds ∧
    ((∀ e ∈ occupied three_adds, e.tag ≠ 2) →
      get_cached_log_level 31 three_adds 2 = some (three_adds, none)) ∧
    ((∃ e ∈ occupied three_adds, e.tag = 2) → three_adds.set_log_cache_entry_count < 31 →
      ∃ level, get_cached_log_level 31 three_adds 2 = some (three_adds, some level)) ∧
    ((∃ e ∈ occupied three_adds, e.tag = 2) → three_adds.set_log_cache_entry_count = 31 →
      ∃ s' level, get_cached_log_level 31 three_adds 2 = some (s', some level) ∧
        s'.set_log_cache_max_generation ≠ three_adds.set_log_cache_max_generation) :=
  ⟨by decide, ⟨by decide, by decide⟩,
    C13_cache_read_frame (by decide) ⟨by decide, by decide⟩ 2⟩

/-! ## The path of a bubble-down -/

theorem smaller_child_gt (cache : List cached_tag_entry_t) (index : Nat) :
    index * 2 + 1 ≤ smaller_child cache index ∧ smaller_child cache index ≤ index * 2 + 2 := by
  unfold smaller_child
  split <;> omega

theorem smaller_child_congr {c1 c2 : List cached_tag_entry_t} {k : Nat}
    (h : ∀ j, k < j → generation_at c1 j = generation_at c2 j) :
    smaller_child c1 k = smaller_child c2 k := by
  unfold smaller_child
  rw [h (k * 2 + 1) (by omega), h (k * 2 + 1 + 1) (by omega)]

/-- The path from `k` only looks at generations at indices above `k`. -/
theorem sink_path_congr (C : Nat) {c1 c2 : List cached_tag_entry_t} :
    ∀ (fuel k : Nat), (∀ j, k < j → generation_at c1 j = generation_at c2 j) →
      sink_path C c1 fuel k = sink_path C c2 fuel k
  | 0, _, _ => rfl
  | fuel + 1, k, h => by
    have hch := smaller_child_congr h
    have hgt := smaller_child_gt c2 k
    simp only [sink_path, hch]
    rw [sink_path_congr C fuel (smaller_child c2 k) (fun j hj => h j (by omega))]

theorem sink_path_head (C : Nat) (cache : List cached_tag_entry_t) (fuel k : Nat) :
    (sink_path C cache fuel k)[0]? = some k := by
  cases fuel with
  | zero => rfl
  | succ fuel =>
    simp only [sink_path]
    split <;> simp

theorem sink_path_ge (C : Nat) (cache : List cached_tag_entry_t) :
    ∀ (fuel k p : Nat), p ∈ sink_path C cache fuel k → k ≤ p
  | 0, k, p, h => by
    simp [sink_path] at h
    omega
  | fuel + 1, k, p, h => by
    simp only [sink_path] at h
    split at h
    · rcases List.mem_cons.mp h with h1 | h1
      · omega
      · have := sink_path_ge C cache fuel _ p h1
        have := smaller_child_gt cache k
        omega
    · simp at h
      omega

theorem sink_path_tail_gt (C : Nat) (cache : List cached_tag_entry_t) (fuel k m q : Nat)
    (h : (sink_path C cache fuel k)[m + 1]? = some q) : k < q := by
  cases fuel with
  | zero => simp [sink_path] at h
  | succ fuel =>
    simp only [sink_path] at h
    split at h
    · rw [List.getElem?_cons_succ] at h
      have := sink_path_ge C cache fuel _ q (List.mem_iff_getElem?.mpr ⟨m, h⟩)
      have := smaller_child_gt cache k
      omega
    · simp at h

/-- The loop of `heap_bubble_down` rotates the entries along the path: with
fuel for the levels below `index`, it returns, the entry that was at `index`
ends at the last index of the path, which is `C / 2` or more, every other
entry of the path moves to the index before it on the path, and the entries
off the path stay. -/
theorem heap_bubble_down_loop_path {C : Nat} (hC : C % 2 = 1) :
    ∀ (fuel index : Nat) (cache : List cached_tag_entry_t),
      cache.length = C → C / 2 < (index + 1) * 2 ^ fuel →
      ∃ cache', heap_bubble_down_loop C fuel index cache = some cache' ∧
        cache'.length = C ∧
        (∃ last, (sink_path C cache fuel index).getLast? = some last ∧ C / 2 ≤ last ∧
          cache'[last]? = cache[index]?) ∧
        (∀ m p q, (sink_path C cache fuel index)[m]? = some p →
          (sink_path C cache fuel index)[m + 1]? = some q → cache'[p]? = cache[q]?) ∧
        (∀ j, j ∉ sink_path C cache fuel index → cache'[j]? = cache[j]?)
  | 0, index, cache, hlen, hfuel => by
    have h : ¬ index < C / 2 := by simp at hfuel; omega
    refine ⟨cache, by simp [heap_bubble_down_loop, h], hlen, ⟨index, rfl, by omega, rfl⟩, ?_,
      fun _ _ => rfl⟩
    intro m p q _ hq
    simp [sink_path] at hq
  | fuel + 1, index, cache, hlen, hfuel => by
    by_cases h : index < C / 2
    · have hb := children_lt hC h
      have hx : cache[index]? = some cache[index] := List.getElem?_eq_getElem (by omega)
      have hl : cache[index * 2 + 1]? = some cache[index * 2 + 1] :=
        List.getElem?_eq_getElem (by omega)
      have hr : cache[index * 2 + 1 + 1]? = some cache[index * 2 + 1 + 1] :=
        List.getElem?_eq_getElem (by omega)
      have hgt := smaller_child_gt cache index
      have hnlt : smaller_child cache index < cache.length := by omega
      have hn : cache[smaller_child cache index]? = some cache[smaller_child cache index] :=
        List.getElem?_eq_getElem hnlt
      -- the array after the exchange
      have hloop : heap_bubble_down_loop C (fuel + 1) index cache =
          heap_bubble_down_loop C fuel (smaller_child cache index)
            ((cache.set index cache[smaller_child cache index]).set
              (smaller_child cache index) cache[index]) := by
        rw [heap_bubble_down_loop_succ h hx hl hr]
        by_cases hlt : cache[index * 2 + 1].generation < cache[index * 2 + 1 + 1].generation
        · have hsc : smaller_child cache index = index * 2 + 1 := by
            simp [smaller_child, generation_at_eq hl, generation_at_eq hr, hlt]
          simp [hlt, hsc]
        · have hsc : smaller_child cache index = index * 2 + 1 + 1 := by
            simp [smaller_child, generation_at_eq hl, generation_at_eq hr, hlt]
          simp [hlt, hsc]
      have hfuel' : C / 2 < (smaller_child cache index + 1) * 2 ^ fuel := by
        have h1 : (index + 1) * 2 ^ (fuel + 1) = (2 * (index + 1)) * 2 ^ fuel := by
          rw [pow_succ]; ring
        have h2 : (2 * (index + 1)) * 2 ^ fuel ≤ (smaller_child cache index + 1) * 2 ^ fuel :=
          Nat.mul_le_mul_right _ (by omega)
        omega
      obtain ⟨cache', hres, hlen', ⟨last, hlast, hleaf, hsunk⟩, hpairs, hoff⟩ :=
        heap_bubble_down_loop_path hC fuel (smaller_child cache index)
          ((cache.set index cache[smaller_child cache index]).set
            (smaller_child cache index) cache[index]) (by simp [hlen]) hfuel'
      have hpath : sink_path C
          ((cache.set index cache[smaller_child cache index]).set
            (smaller_child cache index) cache[index]) fuel (smaller_child cache index) =
          sink_path C cache fuel (smaller_child cache index) := by
        apply sink_path_congr
        intro j hj
        rw [generation_at_set_ne _ _ (by omega), generation_at_set_ne _ _ (by omega)]
      rw [hpath] at hlast hpairs hoff
      have hfull : sink_path C cache (fuel + 1) index =
          index :: sink_path C cache fuel (smaller_child cache index) := by
        simp [sink_path, h]
      have hhead := sink_path_head C cache fuel (smaller_child cache index)
      have hnotin : index ∉ sink_path C cache fuel (smaller_child cache index) := by
        intro hmem
        have := sink_path_ge C cache fuel _ _ hmem
        omega
      refine ⟨cache', by rw [hloop]; exact hres, hlen', ⟨last, ?_, hleaf, ?_⟩, ?_, ?_⟩
      · rw [hfull]
        cases hpl : sink_path C cache fuel (smaller_child cache index) with
        | nil => rw [hpl] at hhead; simp at hhead
        | cons b l =>
          rw [hpl] at hlast
          rw [List.getLast?_cons_cons]
          exact hlast
      · rw [hsunk, hx]
        simp [hnlt]
      · intro m p q hp hq
        rw [hfull] at hp hq
        cases m with
        | zero =>
          simp at hp
          rw [List.getElem?_cons_succ, hhead] at hq
          cases hq
          subst hp
          rw [hoff _ hnotin, hn, List.getElem?_set_ne (by omega)]
          simp [show index < cache.length by omega]
        | succ m =>
          rw [List.getElem?_cons_succ] at hp hq
          rw [hpairs m p q hp hq]
          have := sink_path_tail_gt C cache fuel _ m q hq
          rw [List.getElem?_set_ne (by omega), List.getElem?_set_ne (by omega)]
      · intro j hj
        rw [hfull] at hj
        have hj1 : j ≠ index := fun e => hj (e ▸ List.mem_cons_self _ _)
        have hj2 : j ∉ sink_path C cache fuel (smaller_child cache index) :=
          fun e => hj (List.mem_cons_of_mem _ e)
        have hj3 : j ≠ smaller_child cache index := by
          intro e
          apply hj2
          rw [e]
          exact List.mem_iff_getElem?.mpr ⟨0, hhead⟩
        rw [hoff j hj2, List.getElem?_set_ne (Ne.symm hj3), List.getElem?_set_ne (Ne.symm hj1)]
    · have hp : sink_path C cache (fuel + 1) index = [index] := by simp [sink_path, h]
      refine ⟨cache, by simp [heap_bubble_down_loop, h], hlen, ⟨index, ?_, by omega, rfl⟩, ?_,
        fun _ _ => rfl⟩
      · rw [hp]; rfl
      · intro m p q _ hq
        rw [hp] at hq
        simp at hq

theorem sink_path_chain (C : Nat) (cache : List cached_tag_entry_t) :
    ∀ (fuel k m p q : Nat), (sink_path C cache fuel k)[m]? = some p →
      (sink_path C cache fuel k)[m + 1]? = some q → p < C / 2 ∧ q = smaller_child cache p
  | 0, k, m, p, q, _, hq => by simp [sink_path] at hq
  | fuel + 1, k, m, p, q, hp, hq => by
    simp only [sink_path] at hp hq
    split at hp
    · rename_i h
      rw [if_pos h] at hq
      cases m with
      | zero =>
        simp at hp
        rw [List.getElem?_cons_succ, sink_path_head] at hq
        cases hq
        subst hp
        exact ⟨h, rfl⟩
      | succ m =>
        rw [List.getElem?_cons_succ] at hp hq
        exact sink_path_chain C cache fuel _ m p q hp hq
    · rename_i h
      rw [if_neg h] at hq
      simp at hq

/-- More fuel does not change what the loop returns. -/
theorem heap_bubble_down_loop_fuel (C : Nat) :
    ∀ (fuel index : Nat) (cache cache' : List cached_tag_entry_t),
      heap_bubble_down_loop C fuel index cache = some cache' →
      ∀ extra, heap_bubble_down_loop C (fuel + extra) index cache = some cache'
  | 0, index, cache, cache', h, extra => by
    have hi : ¬ index < C / 2 := by
      intro hi
      simp [heap_bubble_down_loop, hi] at h
    simp only [heap_bubble_down_loop, hi, if_false] at h
    cases extra with
    | zero => simp [heap_bubble_down_loop, hi, h]
    | succ e =>
      rw [Nat.zero_add]
      simp [heap_bubble_down_loop, hi, h]
  | fuel + 1, index, cache, cache', h, extra => by
    rw [show fuel + 1 + extra = (fuel + extra) + 1 by omega]
    by_cases hi : index < C / 2
    · simp only [heap_bubble_down_loop, hi, if_true, Option.bind_eq_bind,
        Option.bind_eq_some] at h ⊢
      obtain ⟨l, hl, r, hr, c, hc, hrest⟩ := h
      exact ⟨l, hl, r, hr, c, hc, heap_bubble_down_loop_fuel C fuel _ c cache' hrest extra⟩
    · simp only [heap_bubble_down_loop, hi, if_false] at h ⊢
      exact h

theorem half_lt_pow (index fuel : Nat) {C : Nat} (h : C / 2 < 2 ^ fuel) :
    C / 2 < (index + 1) * 2 ^ fuel :=
  calc C / 2 < 2 ^ fuel := h
    _ = 1 * 2 ^ fuel := (Nat.one_mul _).symm
    _ ≤ (index + 1) * 2 ^ fuel := Nat.mul_le_mul_right _ (by omega)

/-- The path description for `heap_bubble_down` itself. -/
theorem heap_bubble_down_path {C : Nat} (hC : C % 2 = 1) (index : Nat)
    (cache : List cached_tag_entry_t) (hlen : cache.length = C) :
    ∃ cache', heap_bubble_down C index cache = some cache' ∧
      cache'.length = C ∧
      (∃ last, (sink_path C cache C index).getLast? = some last ∧ C / 2 ≤ last ∧
        cache'[last]? = cache[index]?) ∧
      (∀ m p q, (sink_path C cache C index)[m]? = some p →
        (sink_path C cache C index)[m + 1]? = some q → cache'[p]? = cache[q]?) ∧
      (∀ j, j ∉ sink_path C cache C index → cache'[j]? = cache[j]?) :=
  heap_bubble_down_loop_path hC C index cache hlen
    (half_lt_pow index C (Nat.lt_of_le_of_lt (Nat.div_le_self C 2) (Nat.lt_two_pow C)))

/-- The entry at `index` ends at an index that is `C / 2` or more. -/
theorem heap_bubble_down_sunk {C : Nat} (hC : C % 2 = 1) {index : Nat}
    {cache cache' : List cached_tag_entry_t} (hlen : cache.length = C)
    (h : heap_bubble_down C index cache = some cache') :
    ∃ last, C / 2 ≤ last ∧ cache'[last]? = cache[index]? := by
  obtain ⟨c, hc, _, ⟨last, _, hleaf, hsunk⟩, _⟩ := heap_bubble_down_path hC index cache hlen
  rw [h] at hc
  cases hc
  exact ⟨last, hleaf, hsunk⟩

/-! ## Claims about `heap_bubble_down` -/

/-- C19 (bubble-down is a path rotation): for a cache array of odd size `C`
and an index `i < C`, `heap_bubble_down(i)` returns an array `cache'` such
that, for the path that starts at `i` and goes from every index below `C / 2`
to its child of smaller generation (the left child only when its generation is
strictly smaller than the right child's): the entry that was at `i` is at the
last index of the path, which is `C / 2` or more; the entry of every other
index of the path is at the index before it on the path; every index off the
path holds the entry it held; and `cache'` is a permutation of the array. -/
theorem C19_path_rotation {C : Nat} (hC : C % 2 = 1) (cache : List cached_tag_entry_t)
    (hlen : cache.length = C) (i : Nat) (hi : i < C) :
    ∃ cache', heap_bubble_down C i cache = some cache' ∧
      (sink_path C cache C i)[0]? = some i ∧
      (∀ m p q, (sink_path C cache C i)[m]? = some p →
        (sink_path C cache C i)[m + 1]? = some q →
        p < C / 2 ∧ q = smaller_child cache p ∧ cache'[p]? = cache[q]?) ∧
      (∃ last, (sink_path C cache C i).getLast? = some last ∧ C / 2 ≤ last ∧ last < C ∧
        cache'[last]? = cache[i]?) ∧
      (∀ j, j ∉ sink_path C cache C i → cache'[j]? = cache[j]?) ∧
      cache'.Perm cache := by
  obtain ⟨cache', h, hlen', ⟨last, hlast, hleaf, hsunk⟩, hpairs, hoff⟩ :=
    heap_bubble_down_path hC i cache hlen
  refine ⟨cache', h, sink_path_head C cache C i, ?_, ⟨last, hlast, hleaf, ?_, hsunk⟩, hoff,
    (heap_bubble_down_perm hC hlen h).2⟩
  · intro m p q hp hq
    obtain ⟨h1, h2⟩ := sink_path_chain C cache C i m p q hp hq
    exact ⟨h1, h2, hpairs m p q hp hq⟩
  · have hi' : i < cache.length := by omega
    rw [List.getElem?_eq_getElem hi'] at hsunk
    have := (List.getElem?_eq_some.mp hsunk).1
    omega

theorem C19_path_rotation_witness :
    3 % 2 = 1 ∧
    ([⟨4, 4, 3⟩, ⟨2, 2, 1⟩, ⟨3, 3, 2⟩] : List cached_tag_entry_t).length = 3 ∧ 0 < 3 ∧
    sink_path 3 [⟨4, 4, 3⟩, ⟨2, 2, 1⟩, ⟨3, 3, 2⟩] 3 0 = [0, 1] ∧
    heap_bubble_down 3 0 [⟨4, 4, 3⟩, ⟨2, 2, 1⟩, ⟨3, 3, 2⟩] =
      some [⟨2, 2, 1⟩, ⟨4, 4, 3⟩, ⟨3, 3, 2⟩] ∧
    ∃ cache', heap_bubble_down 3 0 [⟨4, 4, 3⟩, ⟨2, 2, 1⟩, ⟨3, 3, 2⟩] = some cache' ∧
      (sink_path 3 [⟨4, 4, 3⟩, ⟨2, 2, 1⟩, ⟨3, 3, 2⟩] 3 0)[0]? = some 0 ∧
      (∀ m p q, (sink_path 3 [⟨4, 4, 3⟩, ⟨2, 2, 1⟩, ⟨3, 3, 2⟩] 3 0)[m]? = some p →
        (sink_path 3 [⟨4, 4, 3⟩, ⟨2, 2, 1⟩, ⟨3, 3, 2⟩] 3 0)[m + 1]? = some q →
        p < 3 / 2 ∧ q = smaller_child [⟨4, 4, 3⟩, ⟨2, 2, 1⟩, ⟨3, 3, 2⟩] p ∧
          cache'[p]? = ([⟨4, 4, 3⟩, ⟨2, 2, 1⟩, ⟨3, 3, 2⟩] : List cached_tag_entry_t)[q]?) ∧
      (∃ last, (sink_path 3 [⟨4, 4, 3⟩, ⟨2, 2, 1⟩, ⟨3, 3, 2⟩] 3 0).getLast? = some last ∧
        3 / 2 ≤ last ∧ last < 3 ∧
        cache'[last]? = ([⟨4, 4, 3⟩, ⟨2, 2, 1⟩, ⟨3, 3, 2⟩] : List cached_tag_entry_t)[0]?) ∧
      (∀ j, j ∉ sink_path 3 [⟨4, 4, 3⟩, ⟨2, 2, 1⟩, ⟨3, 3, 2⟩] 3 0 →
        cache'[j]? = ([⟨4, 4, 3⟩, ⟨2, 2, 1⟩, ⟨3, 3, 2⟩] : List cached_tag_entry_t)[j]?) ∧
      cache'.Perm [⟨4, 4, 3⟩, ⟨2, 2, 1⟩, ⟨3, 3, 2⟩] :=
  ⟨by decide, by decide, by decide, by decide, by decide,
    C19_path_rotation (by decide) [⟨4, 4, 3⟩, ⟨2, 2, 1⟩, ⟨3, 3, 2⟩] (by decide) 0 (by decide)⟩

/-- C18 (bubble-down stays in bounds and terminates): for `C = 2^n - 1` with
`n ≥ 2`, an array of `C` entries and any start index, the loop of
`heap_bubble_down` returns within `n - 1` iterations without an access outside
the array, and `heap_bubble_down` returns the same array; every index below
`C / 2`, the only guard of the loop, has both children below `C`; and from an
index that is `C / 2` or more the loop makes no iteration and returns the
array as it is. -/
theorem C18_bubble_down_bounds {C : Nat} (n : Nat) (hn : 2 ≤ n) (hCn : C = 2 ^ n - 1)
    (cache : List cached_tag_entry_t) (hlen : cache.length = C) (index : Nat) :
    (∃ cache', heap_bubble_down_loop C (n - 1) index cache = some cache' ∧
      heap_bubble_down C index cache = some cache' ∧ cache'.length = C) ∧
    (∀ k, k < C / 2 → k < C ∧ k * 2 + 1 < C ∧ k * 2 + 1 + 1 < C) ∧
    (C / 2 ≤ index → heap_bubble_down_loop C 0 index cache = some cache ∧
      heap_bubble_down C index cache = some cache) := by
  have hC : C % 2 = 1 := hCn ▸ pow_two_sub_one_odd (by omega)
  have hpos : 0 < 2 ^ (n - 1) := Nat.two_pow_pos _
  have hpow : 2 ^ n = 2 * 2 ^ (n - 1) := by
    rw [show n = (n - 1) + 1 by omega, pow_succ]
    simp
    ring
  have hhalf : C / 2 < 2 ^ (n - 1) := by omega
  have hfuel : n - 1 ≤ C := by
    have := Nat.lt_two_pow n
    omega
  refine ⟨?_, ?_, ?_⟩
  · obtain ⟨cache', h, hlen', _⟩ :=
      heap_bubble_down_loop_path hC (n - 1) index cache hlen (half_lt_pow index (n - 1) hhalf)
    refine ⟨cache', h, ?_, hlen'⟩
    have := heap_bubble_down_loop_fuel C (n - 1) index cache cache' h (C - (n - 1))
    rw [show n - 1 + (C - (n - 1)) = C by omega] at this
    exact this
  · intro k hk
    have := children_lt hC hk
    omega
  · intro hge
    have h0 : heap_bubble_down_loop C 0 index cache = some cache := by
      simp [heap_bubble_down_loop]
      omega
    refine ⟨h0, ?_⟩
    have := heap_bubble_down_loop_fuel C 0 index cache cache h0 C
    rw [Nat.zero_add] at this
    exact this

theorem C18_bubble_down_bounds_witness :
    2 ≤ 2 ∧ 3 = 2 ^ 2 - 1 ∧
    ([⟨4, 4, 3⟩, ⟨2, 2, 1⟩, ⟨3, 3, 2⟩] : List cached_tag_entry_t).length = 3 ∧
    (∃ cache', heap_bubble_down_loop 3 (2 - 1) 0 [⟨4, 4, 3⟩, ⟨2, 2, 1⟩, ⟨3, 3, 2⟩] =
        some cache' ∧
      heap_bubble_down 3 0 [⟨4, 4, 3⟩, ⟨2, 2, 1⟩, ⟨3, 3, 2⟩] = some cache' ∧
      cache'.length = 3) ∧
    (∀ k, k < 3 / 2 → k < 3 ∧ k * 2 + 1 < 3 ∧ k * 2 + 1 + 1 < 3) ∧
    (3 / 2 ≤ 0 → heap_bubble_down_loop 3 0 0 [⟨4, 4, 3⟩, ⟨2, 2, 1⟩, ⟨3, 3, 2⟩] =
        some [⟨4, 4, 3⟩, ⟨2, 2, 1⟩, ⟨3, 3, 2⟩] ∧
      heap_bubble_down 3 0 [⟨4, 4, 3⟩, ⟨2, 2, 1⟩, ⟨3, 3, 2⟩] =
        some [⟨4, 4, 3⟩, ⟨2, 2, 1⟩, ⟨3, 3, 2⟩]) :=
  ⟨by decide, by decide, by decide,
    C18_bubble_down_bounds 2 (by decide) (by decide) [⟨4, 4, 3⟩, ⟨2, 2, 1⟩, ⟨3, 3, 2⟩]
      (by decide) 0⟩

/-! ## Generations while the cache fills -/

theorem filling_init (C : Nat) : filling C (init C) := by
  intro _
  exact ⟨rfl, fun k hk => absurd hk (by simp [init])⟩

theorem filling_level_set {C : Nat} {text : Nat → String} {s s' : State} (hwf : WF C s)
    (hinv : filling C s) {tag : String} {level : Nat} {malloc_ok : Bool}
    (h : serial_log_level_set text s tag level malloc_ok = some s') : filling C s' := by
  by_cases htag : tag = "*"
  · subst htag
    rw [serial_log_level_set_wildcard] at h
    cases h
    intro _
    exact ⟨rfl, fun k hk => absurd hk (by simp [clear_log_level_list])⟩
  · rcases serial_log_level_set_effect text hwf htag level malloc_ok with
      ⟨_, _, h'⟩ | ⟨tags', cache', _, _, h', hc⟩
    · rw [h'] at h
      cases h
      exact hinv
    · rw [h'] at h
      cases h
      rcases hc with ⟨rfl, _⟩ | ⟨k, e, _, hke, _, _, rfl⟩
      · exact hinv
      · intro hlt
        obtain ⟨h1, h2⟩ := hinv hlt
        refine ⟨h1, fun j hj => ?_⟩
        have := h2 j hj
        simp only
        rw [generation_at_set_same _ hke (show ({ e with level := level % 8 } :
          cached_tag_entry_t).generation = e.generation from rfl)]
        exact this

theorem filling_get {C : Nat} (hC : C % 2 = 1) {s s' : State} (hwf : WF C s)
    (hinv : filling C s) {tag : Nat} {r : Option Nat}
    (h : get_cached_log_level C s tag = some (s', r)) : filling C s' := by
  rcases get_cached_log_level_spec hC hwf tag with
    ⟨hget, _⟩ | ⟨i, e, _, _, _, _, ⟨_, hget⟩ | ⟨hfull, cache', _, hget⟩⟩
  · rw [hget] at h
    cases h
    exact hinv
  · rw [hget] at h
    cases h
    exact hinv
  · rw [hget] at h
    cases h
    intro hlt
    simp [bump] at hlt
    omega

theorem filling_add {C : Nat} (hC : C % 2 = 1) {s s' : State} (hwf : WF C s)
    (hinv : filling C s) (hnw : no_wrap s) {tag level : Nat}
    (h : add_to_cache C s tag level = some s') : filling C s' := by
  unfold no_wrap at hnw
  by_cases hlt : s.set_log_cache_entry_count < C
  · rw [add_to_cache_below hwf hlt] at h
    cases h
    obtain ⟨h1, h2⟩ := hinv hlt
    have hlen : s.set_log_cache_entry_count < s.set_log_cache.length := by
      rw [hwf.1]; exact hlt
    intro _
    constructor
    · simp only [bump]
      rw [h1] at hnw ⊢
      omega
    · intro k hk
      simp only [bump] at hk ⊢
      by_cases hkc : k = s.set_log_cache_entry_count
      · subst hkc
        rw [generation_at_set_self _ _ hlen]
        simp only [new_entry]
        rw [h1] at hnw ⊢
        omega
      · rw [generation_at_set_ne _ _ hkc]
        exact h2 k (by omega)
  · obtain ⟨cache', _, hadd⟩ := add_to_cache_full hC hwf hlt tag level
    rw [hadd] at h
    cases h
    intro hlt'
    simp [bump] at hlt'
    omega

theorem filling_write {C : Nat} (hC : C % 2 = 1) {text : Nat → String} {s s' : State}
    (hwf : WF C s) (hinv : filling C s) (hnw : no_wrap s) {tag lvl : Nat}
    (h : level_for_tag C text s tag = some (s', lvl)) : filling C s' := by
  rcases level_for_tag_effect hC text hwf tag with
    ⟨_, s'', hadd, hl⟩ | ⟨e, s'', _, _, hget, hl⟩
  · rw [hl] at h
    cases h
    exact filling_add hC hwf hinv hnw hadd
  · rw [hl] at h
    cases h
    exact filling_get hC hwf hinv hget

theorem Reach_filling {C : Nat} (hC : C % 2 = 1) {text : Nat → String}
    {G : State → Op → Prop} (hG : ∀ s op, G s op → no_wrap s) {s : State}
    (h : Reach C text G s) : filling C s := by
  induction h with
  | init => exact filling_init C
  | @step s s' op hs hg hstep ih =>
    have hwf := Reach_WF hC hs
    have hnw := hG s op hg
    cases op with
    | level_set tag level malloc_ok => exact filling_level_set hwf ih hstep
    | write tag =>
      simp only [step, Option.map_eq_some'] at hstep
      obtain ⟨⟨s'', lvl⟩, h1, h2⟩ := hstep
      cases h2
      exact filling_write hC hwf ih hnw h1
    | add tag level => exact filling_add hC hwf ih hnw hstep
    | get tag =>
      simp only [step, Option.map_eq_some'] at hstep
      obtain ⟨⟨s'', r⟩, h1, h2⟩ := hstep
      cases h2
      exact filling_get hC hwf ih h1

/-! ## Promotion of a cached entry -/

/-- A hit in a full cache, in a state where cached pointers are unique: the
entry with the pointer is stored back with the counter reduced to 29 bits as
its generation and the array is reordered by `heap_bubble_down`. -/
theorem get_cached_log_level_full_hit {C : Nat} (hC : C % 2 = 1) {s : State} (hwf : WF C s)
    (huniq : tags_unique s) (hfull : s.set_log_cache_entry_count = C) {i : Nat}
    {e : cached_tag_entry_t} (hie : s.set_log_cache[i]? = some e) :
    ∃ cache', heap_bubble_down C i (s.set_log_cache.set i (promoted s e)) = some cache' ∧
      get_cached_log_level C s e.tag = some (bump s cache', some e.level) := by
  have hi : i < s.set_log_cache_entry_count := by
    have := (List.getElem?_eq_some.mp hie).1
    rw [hwf.1] at this
    omega
  rcases get_cached_log_level_spec hC hwf e.tag with
    ⟨_, h2⟩ | ⟨i0, e0, hi0, hie0, het0, _, ⟨hne, _⟩ | ⟨_, cache', hb, hget⟩⟩
  · exact absurd rfl (h2 i e hi hie)
  · exact absurd hfull hne
  · have h1 : (occupied s)[i0]? = some e0 := by rw [occupied_getElem? hi0]; exact hie0
    have h2 : (occupied s)[i]? = some e := by rw [occupied_getElem? hi]; exact hie
    have hii : i0 = i :=
      nodup_map_index (fun x : cached_tag_entry_t => x.tag) huniq h1 h2 het0
    subst hii
    rw [hie] at hie0
    cases hie0
    exact ⟨cache', hb, hget⟩

/-- C17 as stated fails once the counter has reached `2^29`: in the reachable
full state `pumped (2^29 - 31)` the counter is `2^29` and tag 31 is cached at
index 30; the hit stores the counter reduced to 29 bits, which is 0, so no
entry of the array afterwards has tag 31 and generation `2^29`. -/
theorem C17_counterexample :
    ¬ ∀ s, Reachable TAG_CACHE_SIZE (const_text "net") s →
      s.set_log_cache_entry_count = TAG_CACHE_SIZE →
      ∀ (i : Nat) (e : cached_tag_entry_t), s.set_log_cache[i]? = some e →
      ∃ (cache' : List cached_tag_entry_t) (last : Nat),
        get_cached_log_level TAG_CACHE_SIZE s e.tag =
          some ({ s with set_log_cache_max_generation := s.set_log_cache_max_generation + 1
                         set_log_cache := cache' }, some e.level) ∧
        cache'[last]? = some { e with generation := s.set_log_cache_max_generation } := by
  intro h
  obtain ⟨cache', last, hget, hlast⟩ :=
    h (pumped (2 ^ 29 - 31)) (pumped_reachable (2 ^ 29 - 31) (by omega)).1 rfl 30
      ⟨31, 5, 2 ^ 29 - 1⟩ (by decide)
  have hpg := pumped_get (2 ^ 29 - 31) (by omega)
  have htag : (⟨31, 5, 2 ^ 29 - 1⟩ : cached_tag_entry_t).tag = 31 := rfl
  rw [htag, show TAG_CACHE_SIZE = 31 from rfl, hpg] at hget
  have hc : cache' = (pumped (2 ^ 29 - 31 + 1)).set_log_cache := by
    have := congrArg (fun r : Option (State × Option Nat) =>
      r.map (fun x => x.1.set_log_cache)) hget
    simp at this
    exact this.symm
  rw [hc] at hlast
  have hmem := List.mem_iff_getElem?.mpr ⟨last, hlast⟩
  exact absurd hmem (by decide)

/-! ## Hits are by pointer -/

/-- After the lookup block ran for pointer `p`, an occupied entry holds `p`,
at an index other than 0 when the cache is full, and every cached pointer is
`p` or was cached before. -/
theorem level_for_tag_cached {C : Nat} (hC : C % 2 = 1) (h3 : 3 ≤ C) (text : Nat → String)
    {s : State} (hwf : WF C s) (p : Nat) :
    ∃ s1 l1, level_for_tag C text s p = some (s1, l1) ∧ WF C s1 ∧
      (∀ e' ∈ occupied s1, e'.tag = p ∨ ∃ e ∈ occupied s, e.tag = e'.tag) ∧
      (∃ i e, (occupied s1)[i]? = some e ∧ e.tag = p ∧
        (s1.set_log_cache_entry_count = C → 1 ≤ i)) := by
  rcases level_for_tag_effect hC text hwf p with
    ⟨_, s1, hadd, hl⟩ | ⟨e, s1, hmem, het, hget, hl⟩
  · refine ⟨s1, _, hl, ?_⟩
    by_cases hlt : s.set_log_cache_entry_count < C
    · obtain ⟨s', hadd', hwf', _, _, _, hcase⟩ :=
        add_to_cache_effect hC hwf p (uncached_level text s p)
      rw [hadd] at hadd'
      cases hadd'
      rcases hcase with ⟨_, hcount, hocc⟩ | ⟨hfull, _⟩
      · refine ⟨hwf', ?_, s.set_log_cache_entry_count,
          new_entry s p (uncached_level text s p), ?_, rfl, ?_⟩
        · intro e' he'
          rw [hocc] at he'
          rcases List.mem_append.mp he' with h1 | h1
          · exact Or.inr ⟨e', h1, rfl⟩
          · left
            simp at h1
            rw [h1]
            rfl
        · rw [hocc, List.getElem?_append_right (by rw [occupied_length hwf])]
          simp [occupied_length hwf]
        · intro hc
          omega
      · omega
    · obtain ⟨cache', hb, hadd'⟩ := add_to_cache_full hC hwf hlt p (uncached_level text s p)
      rw [hadd] at hadd'
      cases hadd'
      have hfull : s.set_log_cache_entry_count = C :=
        Nat.le_antisymm hwf.2 (Nat.le_of_not_lt hlt)
      have hpos : 0 < s.set_log_cache.length := by rw [hwf.1]; omega
      obtain ⟨hlen', hperm⟩ := heap_bubble_down_perm hC (by simp [hwf.1]) hb
      obtain ⟨last, hleaf, hsunk⟩ := heap_bubble_down_sunk hC (by simp [hwf.1]) hb
      rw [List.getElem?_set_eq_of_lt _ hpos] at hsunk
      have hwf' : WF C (bump s cache') := ⟨hlen', by simp [bump, hwf.2]⟩
      have hfull' : (bump s cache').set_log_cache_entry_count = C := hfull
      refine ⟨hwf', ?_, last, new_entry s p (uncached_level text s p), ?_, rfl,
        fun _ => by omega⟩
      · intro e' he'
        rw [occupied_full hwf' hfull'] at he'
        rcases List.mem_or_eq_of_mem_set (hperm.mem_iff.mp he') with h1 | h1
        · right
          rw [← occupied_full hwf hfull] at h1
          exact ⟨e', h1, rfl⟩
        · left
          rw [h1]
          rfl
      · rw [occupied_full hwf' hfull']
        exact hsunk
  · refine ⟨s1, _, hl, ?_⟩
    obtain ⟨i, hi⟩ := List.mem_iff_getElem?.mp hmem
    rcases get_cached_log_level_spec hC hwf p with
      ⟨hmiss, _⟩ | ⟨i0, e0, hi0, hie0, het0, _, ⟨hne, hget'⟩ | ⟨hfull, cache', hb, hget'⟩⟩
    · rw [hmiss] at hget
      cases hget
    · rw [hget'] at hget
      simp only [Option.some.injEq, Prod.mk.injEq] at hget
      obtain ⟨hs1, _⟩ := hget
      subst hs1
      exact ⟨hwf, fun e' he' => Or.inr ⟨e', he', rfl⟩, i, e, hi, het,
        fun hc => absurd hc hne⟩
    · rw [hget'] at hget
      simp only [Option.some.injEq, Prod.mk.injEq] at hget
      obtain ⟨hs1, _⟩ := hget
      subst hs1
      have hlt0 : i0 < s.set_log_cache.length := (List.getElem?_eq_some.mp hie0).1
      obtain ⟨hlen', hperm⟩ := heap_bubble_down_perm hC (by simp [hwf.1]) hb
      obtain ⟨last, hleaf, hsunk⟩ := heap_bubble_down_sunk hC (by simp [hwf.1]) hb
      rw [List.getElem?_set_eq_of_lt _ hlt0] at hsunk
      have hwf' : WF C (bump s cache') := ⟨hlen', by simp [bump, hwf.2]⟩
      have hfull' : (bump s cache').set_log_cache_entry_count = C := hfull
      refine ⟨hwf', ?_, last, promoted s e0, ?_, het0, fun _ => by omega⟩
      · intro e' he'
        rw [occupied_full hwf' hfull'] at he'
        rcases List.mem_or_eq_of_mem_set (hperm.mem_iff.mp he') with h1 | h1
        · right
          rw [← occupied_full hwf hfull] at h1
          exact ⟨e', h1, rfl⟩
        · left
          rw [h1]
          exact het0
      · rw [occupied_full hwf' hfull']
        exact hsunk

/-- The lookup block for a pointer that is not cached keeps every occupied
entry that is not at index 0 of a full cache, and caches the pointer. -/
theorem level_for_tag_miss_keeps {C : Nat} (hC : C % 2 = 1) (text : Nat → String)
    {s : State} (hwf : WF C s) (q : Nat) (hmiss : ∀ e ∈ occupied s, e.tag ≠ q) :
    ∃ s2 l2, level_for_tag C text s q = some (s2, l2) ∧
      (∃ e2 ∈ occupied s2, e2.tag = q) ∧
      (∀ i e, (occupied s)[i]? = some e → (s.set_log_cache_entry_count = C → 1 ≤ i) →
        e ∈ occupied s2) := by
  rcases level_for_tag_effect hC text hwf q with
    ⟨_, s2, hadd, hl⟩ | ⟨e, _, hmem, het, _, _⟩
  · refine ⟨s2, _, hl, ?_⟩
    obtain ⟨s', hadd', hwf', _, _, _, hcase⟩ :=
      add_to_cache_effect hC hwf q (uncached_level text s q)
    rw [hadd] at hadd'
    cases hadd'
    rcases hcase with ⟨_, _, hocc⟩ | ⟨hfull, _, hperm⟩
    · refine ⟨⟨new_entry s q (uncached_level text s q), by rw [hocc]; simp, rfl⟩, ?_⟩
      intro i e hi _
      rw [hocc]
      exact List.mem_append_left _ (List.mem_iff_getElem?.mpr ⟨i, hi⟩)
    · have hpos : 0 < (occupied s).length := by rw [occupied_length hwf]; omega
      refine ⟨⟨new_entry s q (uncached_level text s q), ?_, rfl⟩, ?_⟩
      · refine hperm.mem_iff.mpr (List.mem_iff_getElem?.mpr ⟨0, ?_⟩)
        rw [List.getElem?_set_eq_of_lt _ hpos]
      · intro i e hi h1
        have := h1 hfull
        refine hperm.mem_iff.mpr (List.mem_iff_getElem?.mpr ⟨i, ?_⟩)
        rw [List.getElem?_set_ne (by omega)]
        exact hi
  · exact absurd het (hmiss e hmem)

/-- C12 (cache hits are by identity): in a reachable state,
`get_cached_log_level(p)` hits exactly when an occupied entry holds the
pointer `p`, and then returns the level of that entry; for a pointer `q` that
no occupied entry holds it misses and leaves the state as it is, whatever text
`q` points to; and a log call for `p` followed by one for such a `q ≠ p`
leaves two occupied entries, one holding `p` and one holding `q`, which hold
the same text when `p` and `q` point to equal texts. -/
theorem C12_hits_by_identity {C : Nat} (hC : C % 2 = 1) (h3 : 3 ≤ C) (text : Nat → String)
    {s : State} (hs : Reachable C text s) (p : Nat) :
    ((∃ s' level, get_cached_log_level C s p = some (s', some level)) ↔
      ∃ e ∈ occupied s, e.tag = p) ∧
    (∀ e ∈ occupied s, e.tag = p →
      ∃ s', get_cached_log_level C s p = some (s', some e.level)) ∧
    (∀ q, (∀ e ∈ occupied s, e.tag ≠ q) → get_cached_log_level C s q = some (s, none)) ∧
    (∀ q, q ≠ p → (∀ e ∈ occupied s, e.tag ≠ q) →
      ∃ s1 l1 s2 l2, level_for_tag C text s p = some (s1, l1) ∧
        level_for_tag C text s1 q = some (s2, l2) ∧
        ∃ e1 ∈ occupied s2, ∃ e2 ∈ occupied s2, e1.tag = p ∧ e2.tag = q ∧
          (text p = text q → text e1.tag = text e2.tag ∧ e1 ≠ e2)) := by
  have hwf := Reach_WF hC hs
  have huniq := Reach_tags_unique hC hs
  have hhit : ∀ e ∈ occupied s, e.tag = p →
      ∃ s', get_cached_log_level C s p = some (s', some e.level) := by
    intro e he hep
    rcases get_cached_log_level_effect hC hwf p with
      ⟨_, hmiss⟩ | ⟨i0, e0, s', hi0, het0, _, hget, _⟩
    · exact absurd hep (hmiss e he)
    · obtain ⟨i, hi⟩ := List.mem_iff_getElem?.mp he
      have hii : i0 = i :=
        nodup_map_index (fun x : cached_tag_entry_t => x.tag) huniq hi0 hi
          (show e0.tag = e.tag by rw [het0, hep])
      subst hii
      rw [hi] at hi0
      cases hi0
      exact ⟨s', hget⟩
  have hmiss : ∀ q, (∀ e ∈ occupied s, e.tag ≠ q) →
      get_cached_log_level C s q = some (s, none) := by
    intro q hq
    rcases get_cached_log_level_effect hC hwf q with
      ⟨hget, _⟩ | ⟨i0, e0, _, hi0, het0, _⟩
    · exact hget
    · exact absurd het0 (hq e0 (List.mem_iff_getElem?.mpr ⟨i0, hi0⟩))
  refine ⟨⟨?_, ?_⟩, hhit, hmiss, ?_⟩
  · rintro ⟨s', level, hget⟩
    by_contra hno
    have := hmiss p (fun e he hep => hno ⟨e, he, hep⟩)
    rw [this] at hget
    cases hget
  · rintro ⟨e, he, hep⟩
    obtain ⟨s', hget⟩ := hhit e he hep
    exact ⟨s', _, hget⟩
  · intro q hqp hq
    obtain ⟨s1, l1, hl1, hwf1, hsub, i, e1, hi1, he1, hidx⟩ :=
      level_for_tag_cached hC h3 text hwf p
    have hq1 : ∀ e ∈ occupied s1, e.tag ≠ q := by
      intro e' he' heq
      rcases hsub e' he' with h1 | ⟨e, he, h1⟩
      · exact hqp (by rw [← heq, h1])
      · exact hq e he (by rw [h1, heq])
    obtain ⟨s2, l2, hl2, ⟨e2, he2, he2q⟩, hkeep⟩ :=
      level_for_tag_miss_keeps hC text hwf1 q hq1
    refine ⟨s1, l1, s2, l2, hl1, hl2, e1, hkeep i e1 hi1 hidx, e2, he2, he1, he2q, ?_⟩
    intro ht
    refine ⟨by rw [he1, he2q, ht], ?_⟩
    intro heq
    exact hqp (by rw [← he2q, ← heq, he1])

theorem C12_hits_by_identity_witness :
    31 % 2 = 1 ∧ 3 ≤ 31 ∧ Reachable 31 (const_text "net") (init 31) ∧
    (∀ q, q ≠ 1 → (∀ e ∈ occupied (init 31), e.tag ≠ q) →
      ∃ s1 l1 s2 l2, level_for_tag 31 (const_text "net") (init 31) 1 = some (s1, l1) ∧
        level_for_tag 31 (const_text "net") s1 q = some (s2, l2) ∧
        ∃ e1 ∈ occupied s2, ∃ e2 ∈ occupied s2, e1.tag = 1 ∧ e2.tag = q ∧
          (const_text "net" 1 = const_text "net" q →
            const_text "net" e1.tag = const_text "net" e2.tag ∧ e1 ≠ e2)) :=
  ⟨by decide, by decide, Reach.init,
    (C12_hits_by_identity (by decide) (by decide) (const_text "net") Reach.init 1).2.2.2⟩

/-! ## Runs: appending calls -/

theorem run_append (C : Nat) (text : Nat → String) :
    ∀ (ops1 ops2 : List Op) (s s1 : State), run C text s ops1 = some s1 →
      run C text s (ops1 ++ ops2) = run C text s1 ops2
  | [], _, s, s1, h => by
    simp only [run, Option.some.injEq] at h
    subst h
    rfl
  | op :: ops1, ops2, s, s1, h => by
    simp only [run, List.cons_append] at h ⊢
    cases hstep : step C text s op with
    | none => simp [hstep] at h
    | some s2 =>
      simp only [hstep, Option.some_bind] at h ⊢
      exact run_append C text ops1 ops2 s2 s1 h

theorem stored_generations_append (C : Nat) (text : Nat → String) :
    ∀ (ops1 ops2 : List Op) (s s1 : State), run C text s ops1 = some s1 →
      stored_generations C text s (ops1 ++ ops2) =
        stored_generations C text s ops1 ++ stored_generations C text s1 ops2
  | [], _, s, s1, h => by
    simp only [run, Option.some.injEq] at h
    subst h
    rfl
  | op :: ops1, ops2, s, s1, h => by
    simp only [run] at h
    cases hstep : step C text s op with
    | none => simp [hstep] at h
    | some s2 =>
      simp only [hstep, Option.some_bind] at h
      have ih := stored_generations_append C text ops1 ops2 s2 s1 h
      rw [List.cons_append]
      simp only [stored_generations, hstep]
      rw [ih, List.append_assoc]

theorem run_pumped (text : Nat → String) :
    ∀ (m k : Nat), 31 + k + m < 2 ^ 32 →
      run 31 text (pumped k) (List.replicate m (Op.write 31)) = some (pumped (k + m))
  | 0, _, _ => rfl
  | m + 1, k, h => by
    simp only [List.replicate, run, (pumped_step text k (by omega)).1, Option.some_bind]
    rw [run_pumped text m (k + 1) (by omega)]
    congr 2
    omega

theorem fill_ops_run_plain : run 31 (const_text "net") (init 31) fill_ops = some (pumped 0) := by
  decide

/-! ## The hex dump -/

theorem sprintf_hex_length {hex_buffer hex_buffer' : List Char} {pos byte : Nat}
    (h : sprintf_hex hex_buffer pos byte = some hex_buffer') :
    hex_buffer'.length = hex_buffer.length := by
  unfold sprintf_hex at h
  split at h
  · cases h
    simp
  · cases h

/-- The `sprintf` loop writes outside `hex_buffer` when it is to render more
than `BYTES_PER_LINE` bytes. -/
theorem sprintf_loop_overrun (buffer : List Nat) :
    ∀ (n i : Nat) (hex_buffer : List Char), hex_buffer.length = 3 * BYTES_PER_LINE + 1 →
      i ≤ BYTES_PER_LINE → BYTES_PER_LINE < i + n → sprintf_loop buffer n i hex_buffer = none
  | 0, i, hex_buffer, _, hi, h => by omega
  | n + 1, i, hex_buffer, hlen, hi, h => by
    simp only [sprintf_loop, Option.bind_eq_bind]
    cases hb : buffer[i]? with
    | none => rfl
    | some byte =>
      simp only [Option.some_bind]
      cases hs : sprintf_hex hex_buffer (i * 3) byte with
      | none => rfl
      | some hex_buffer' =>
        simp only [Option.some_bind]
        have hlen' := sprintf_hex_length hs
        have hlt : i < BYTES_PER_LINE := by
          by_contra hge
          have hpos : ¬ i * 3 + 3 < hex_buffer.length := by
            rw [hlen]
            simp only [BYTES_PER_LINE] at hge ⊢
            omega
          simp [sprintf_hex, hpos] at hs
        exact sprintf_loop_overrun buffer n (i + 1) hex_buffer' (by rw [hlen', hlen])
          (by omega) (by omega)

/-- With more than `BYTES_PER_LINE` bytes to dump, the first iteration of
`serial_log_buffer_hex_internal` writes outside `hex_buffer` before anything
is logged. -/
theorem serial_log_buffer_hex_internal_overrun (hex_buffer : List Char) (buffer : List Nat)
    (buff_len : Nat) (hlen : hex_buffer.length = 3 * BYTES_PER_LINE + 1)
    (h : BYTES_PER_LINE < buff_len) :
    serial_log_buffer_hex_internal hex_buffer buffer buff_len = none := by
  have h0 : buff_len ≠ 0 := by omega
  obtain ⟨fuel, hf⟩ : ∃ fuel, buff_len = fuel + 1 := ⟨buff_len - 1, by omega⟩
  have hover := sprintf_loop_overrun buffer buff_len 0 hex_buffer hlen (Nat.zero_le _)
    (by omega)
  simp only [serial_log_buffer_hex_internal, h0, if_false]
  rw [hf] at hover ⊢
  simp only [serial_log_buffer_hex_loop, Option.bind_eq_bind]
  cases hm : memcpy (List.replicate (BYTES_PER_LINE + 3) 0) buffer
      (((if fuel + 1 > BYTES_PER_LINE then BYTES_PER_LINE else fuel + 1) + 3) / 4 * 4) with
  | none => rfl
  | some temp_buffer => simp only [Option.some_bind, hover, Option.none_bind]

/-- C15 at a failing input: a dump of 17 bytes.  The claim has two log writes,
of 16 bytes and of 1 byte.  The first iteration runs the `sprintf` loop over
all 17 remaining bytes, and the 17th `sprintf` writes at `hex_buffer[48..51]`,
outside the array of 49 characters, before anything is logged.  A dump of the
first 16 of these bytes logs one line, and a dump of no byte logs nothing. -/
theorem C15_hex_dump_overrun :
    serial_log_buffer_hex_internal (List.replicate (3 * BYTES_PER_LINE + 1) NUL)
      seventeen_bytes 17 = none ∧
    sprintf_loop seventeen_bytes 16 0 (List.replicate (3 * BYTES_PER_LINE + 1) NUL) ≠ none ∧
    sprintf_loop seventeen_bytes 17 0 (List.replicate (3 * BYTES_PER_LINE + 1) NUL) = none ∧
    serial_log_buffer_hex_internal (List.replicate (3 * BYTES_PER_LINE + 1) NUL)
      seventeen_bytes 16 =
        some ["00 01 02 03 04 05 06 07 08 09 0a 0b 0c 0d 0e 0f ".toList] ∧
    serial_log_buffer_hex_internal (List.replicate (3 * BYTES_PER_LINE + 1) NUL)
      seventeen_bytes 0 = some [] := by
  refine ⟨?_, ?_, ?_, ?_, ?_⟩
  · exact serial_log_buffer_hex_internal_overrun _ _ 17 (by decide) (by decide)
  · decide
  · exact sprintf_loop_overrun _ 17 0 _ (by decide) (by decide) (by decide)
  · decide
  · decide

/-! ## Since the last wildcard set -/

theorem HeapInv_clear {C : Nat} {s : State} (hwf : WF C s) (level : Nat) :
    HeapInv C (clear_log_level_list { s with set_log_default_level := level }) where
  wf := ⟨by simpa [clear_log_level_list] using hwf.1, by simp [clear_log_level_list]⟩
  counter_le := by simp [clear_log_level_list]
  gen_lt := by simp [clear_log_level_list, occupied]
  gen_nodup := by simp [clear_log_level_list, occupied]
  ordered := by
    intro i h1 h2
    simp [clear_log_level_list] at h2

theorem filling_clear (C : Nat) (s : State) (level : Nat) :
    filling C (clear_log_level_list { s with set_log_default_level := level }) := by
  intro _
  exact ⟨rfl, fun k hk => absurd hk (by simp [clear_log_level_list])⟩

theorem Unwrapped_of_Reach {C : Nat} {text : Nat → String} {s : State}
    (h : Reach C text (fun s op => api_call op ∧ no_wrap s) s) : Unwrapped C text s := by
  induction h with
  | init => exact Unwrapped.init
  | step _ hg hstep ih => exact Unwrapped.step ih hg.1 hg.2 hstep

theorem Unwrapped_inv {C : Nat} (hC : C % 2 = 1) {text : Nat → String} {s : State}
    (h : Unwrapped C text s) : HeapInv C s ∧ filling C s := by
  induction h with
  | init => exact ⟨HeapInv_init C, filling_init C⟩
  | @clear s s' l m hs _ hset =>
    rw [serial_log_level_set_wildcard] at hset
    cases hset
    exact ⟨HeapInv_clear (Reach_WF hC hs) l, filling_clear C s l⟩
  | @step s s' op _ hg hnw hstep ih =>
    obtain ⟨hheap, hfill⟩ := ih
    have hwf := hheap.wf
    cases op with
    | level_set tag level malloc_ok =>
      exact ⟨HeapInv_level_set hheap hstep, filling_level_set hwf hfill hstep⟩
    | write tag =>
      simp only [step, Option.map_eq_some'] at hstep
      obtain ⟨⟨s'', lvl⟩, h1, h2⟩ := hstep
      cases h2
      exact ⟨HeapInv_write hC hheap hnw h1, filling_write hC hwf hfill hnw h1⟩
    | add tag level => exact absurd hg (by simp [api_call])
    | get tag => exact absurd hg (by simp [api_call])

/-- C16 (heap order of the occupied entries): in every state reached by
`serial_log_level_set` and `serial_log_write` calls in which the counter has
not passed `2^29` since the start or the last wildcard set: while the entry
count is below `C` the counter equals the entry count and the entry at index
`k` has generation `k`; and in every such state each occupied index `i ≥ 1`
has a generation at least that of index `(i-1)/2`, two occupied indices with
the same generation are the same, every occupied generation is below the
counter, and no occupied generation is below that of index 0. -/
theorem C16_heap_order {C : Nat} (hC : C % 2 = 1) (text : Nat → String) {s : State}
    (hs : Unwrapped C text s) :
    (s.set_log_cache_entry_count < C →
      s.set_log_cache_max_generation = s.set_log_cache_entry_count ∧
      ∀ k, k < s.set_log_cache_entry_count → generation_at s.set_log_cache k = k) ∧
    (∀ i, 1 ≤ i → i < s.set_log_cache_entry_count →
      generation_at s.set_log_cache ((i - 1) / 2) ≤ generation_at s.set_log_cache i) ∧
    (∀ i j, i < s.set_log_cache_entry_count → j < s.set_log_cache_entry_count →
      generation_at s.set_log_cache i = generation_at s.set_log_cache j → i = j) ∧
    (∀ i, i < s.set_log_cache_entry_count →
      generation_at s.set_log_cache i < s.set_log_cache_max_generation) ∧
    (∀ i, i < s.set_log_cache_entry_count →
      generation_at s.set_log_cache 0 ≤ generation_at s.set_log_cache i) := by
  obtain ⟨hinv, hfill⟩ := Unwrapped_inv hC hs
  have hwf := hinv.wf
  have hget : ∀ i, i < s.set_log_cache_entry_count →
      ∃ e, (occupied s)[i]? = some e ∧ generation_at s.set_log_cache i = e.generation := by
    intro i hi
    have hlt : i < s.set_log_cache.length := by rw [hwf.1]; exact Nat.lt_of_lt_of_le hi hwf.2
    refine ⟨s.set_log_cache[i], ?_, generation_at_eq (List.getElem?_eq_getElem hlt)⟩
    rw [occupied_getElem? hi]
    exact List.getElem?_eq_getElem hlt
  refine ⟨hfill, hinv.ordered, ?_, ?_, ?_⟩
  · intro i j hi hj hij
    obtain ⟨e1, h1, g1⟩ := hget i hi
    obtain ⟨e2, h2, g2⟩ := hget j hj
    exact nodup_map_index (fun x : cached_tag_entry_t => x.generation) hinv.gen_nodup h1 h2
      (show e1.generation = e2.generation by rw [← g1, ← g2]; exact hij)
  · intro i hi
    obtain ⟨e, h1, g1⟩ := hget i hi
    rw [g1]
    exact hinv.gen_lt e (List.mem_iff_getElem?.mpr ⟨i, h1⟩)
  · intro i hi
    exact heap_ordered_root_le hinv.ordered i hi

theorem scenario_A_unwrapped : Unwrapped 3 text_abcd scenario_A_state :=
  Unwrapped_of_Reach
    (Reach_run_guarded (g := fun s op => is_api_call op && below_wrap s)
      (fun s op h => by
        simp only [Bool.and_eq_true] at h
        exact ⟨is_api_call_sound h.1, below_wrap_sound h.2⟩)
      scenario_A_ops Reach.init (by decide))

theorem C16_heap_order_witness :
    3 % 2 = 1 ∧ Unwrapped 3 text_abcd scenario_A_state ∧
    (∀ i, 1 ≤ i → i < scenario_A_state.set_log_cache_entry_count →
      generation_at scenario_A_state.set_log_cache ((i - 1) / 2) ≤
        generation_at scenario_A_state.set_log_cache i) ∧
    (∀ i, i < scenario_A_state.set_log_cache_entry_count →
      generation_at scenario_A_state.set_log_cache 0 ≤
        generation_at scenario_A_state.set_log_cache i) :=
  have h := C16_heap_order (by decide) text_abcd scenario_A_unwrapped
  ⟨by decide, scenario_A_unwrapped, h.2.1, h.2.2.2.2⟩

/-! ## Frame of a set for one tag -/

/-- A set for `tag` keeps the list nodes of every other text, in their order. -/
theorem tags_set_filter {tags tags' : List uncached_tag_entry_t} {tag : String} {level : Nat}
    (h : tags_set tags tags' tag level) :
    tags'.filter (fun x => decide (x.tag ≠ tag)) = tags.filter (fun x => decide (x.tag ≠ tag)) := by
  rcases h with ⟨pre, it, post, rfl, h2, _, rfl⟩ | ⟨_, rfl⟩
  · simp [List.filter_append, List.filter_cons, h2]
  · simp [List.filter_cons]

/-- C21 (a non-wildcard set touches only its own tag): in every reachable
state, `serial_log_level_set(T, L)` with `T` other than `"*"` returns a state
with the same default level, entry count and counter, in which every cache
index holds the tag and generation it held, every cache entry whose text is
not `T` is unchanged, at most one cache index holds another entry than
before, and the list nodes with a text other than `T` are the same, in the
same order, so that the list lookup of every other text gives what it gave.
The lookup block of `serial_log_write`, and `serial_log_write` itself, return
a state with the same default level and the same list. -/
theorem C21_set_frame {C : Nat} (hC : C % 2 = 1) (text : Nat → String) {s : State}
    (hs : Reachable C text s) (T : String) (hT : T ≠ "*") (L : Nat) (malloc_ok : Bool) :
    (∃ s', serial_log_level_set text s T L malloc_ok = some s' ∧
      s'.set_log_default_level = s.set_log_default_level ∧
      s'.set_log_cache_entry_count = s.set_log_cache_entry_count ∧
      s'.set_log_cache_max_generation = s.set_log_cache_max_generation ∧
      s'.set_log_cache.map (fun e => (e.tag, e.generation)) =
        s.set_log_cache.map (fun e => (e.tag, e.generation)) ∧
      (∀ (i : Nat) (e : cached_tag_entry_t), s.set_log_cache[i]? = some e → text e.tag ≠ T →
        s'.set_log_cache[i]? = some e) ∧
      (∃ k : Nat, ∀ i : Nat, i ≠ k → s'.set_log_cache[i]? = s.set_log_cache[i]?) ∧
      s'.set_log_tags.filter (fun x => decide (x.tag ≠ T)) =
        s.set_log_tags.filter (fun x => decide (x.tag ≠ T)) ∧
      (∀ t, t ≠ T →
        get_uncached_log_level s'.set_log_tags t = get_uncached_log_level s.set_log_tags t)) ∧
    (∀ tag, ∃ s1 lvl, level_for_tag C text s tag = some (s1, lvl) ∧
      s1.set_log_default_level = s.set_log_default_level ∧
      s1.set_log_tags = s.set_log_tags ∧
      ∀ level, ∃ out, serial_log_write C text s level tag = some (s1, out)) := by
  have hwf := Reach_WF hC hs
  constructor
  · rcases serial_log_level_set_effect text hwf hT L malloc_ok with
      ⟨_, _, h'⟩ | ⟨tags', cache', hset, _, h', hc⟩
    · exact ⟨s, h', rfl, rfl, rfl, rfl, fun _ _ h _ => h, ⟨0, fun _ _ => rfl⟩, rfl,
        fun _ _ => rfl⟩
    · refine ⟨_, h', rfl, rfl, rfl, ?_, ?_, ?_, tags_set_filter hset,
        fun t ht => tags_set_lookup_ne hset ht⟩
      · rcases hc with ⟨rfl, _⟩ | ⟨k, e, _, hke, _, _, rfl⟩
        · rfl
        · exact map_set_same (fun x : cached_tag_entry_t => (x.tag, x.generation)) hke rfl
      · intro i e hie hne
        rcases hc with ⟨rfl, _⟩ | ⟨k, e0, _, hke, het, _, rfl⟩
        · exact hie
        · have hik : k ≠ i := by
            intro hki
            subst hki
            rw [hke] at hie
            cases hie
            exact hne het
          simp only
          rw [List.getElem?_set_ne hik]
          exact hie
      · rcases hc with ⟨rfl, _⟩ | ⟨k, e0, _, _, _, _, rfl⟩
        · exact ⟨0, fun _ _ => rfl⟩
        · refine ⟨k, fun i hik => ?_⟩
          simp only
          rw [List.getElem?_set_ne (Ne.symm hik)]
  · intro tag
    obtain ⟨s1, lvl, h, _, htags, hdef, _⟩ := level_for_tag_frame hC text hwf tag
    refine ⟨s1, lvl, h, hdef, htags, fun level => ?_⟩
    by_cases hout : should_output level lvl = true
    · exact ⟨true, by simp [serial_log_write, h, hout]⟩
    · exact ⟨false, by simp [serial_log_write, h, hout]⟩

theorem C21_set_frame_witness :
    3 % 2 = 1 ∧ Reachable 3 text_abcd scenario_A_state ∧ "b" ≠ "*" ∧
    serial_log_level_set text_abcd scenario_A_state "b" 4 true =
      some { scenario_A_state with
               set_log_tags := [⟨3, "c"⟩, ⟨4, "b"⟩, ⟨1, "a"⟩]
               set_log_cache := [⟨1, 1, 0⟩, ⟨2, 4, 1⟩, ⟨3, 3, 2⟩] } ∧
    (∃ s', serial_log_level_set text_abcd scenario_A_state "b" 4 true = some s' ∧
      s'.set_log_default_level = scenario_A_state.set_log_default_level ∧
      s'.set_log_cache_entry_count = scenario_A_state.set_log_cache_entry_count ∧
      s'.set_log_cache_max_generation = scenario_A_state.set_log_cache_max_generation ∧
      s'.set_log_cache.map (fun e => (e.tag, e.generation)) =
        scenario_A_state.set_log_cache.map (fun e => (e.tag, e.generation)) ∧
      (∀ (i : Nat) (e : cached_tag_entry_t), scenario_A_state.set_log_cache[i]? = some e →
        text_abcd e.tag ≠ "b" →
        s'.set_log_cache[i]? = some e) ∧
      (∃ k : Nat, ∀ i : Nat, i ≠ k →
        s'.set_log_cache[i]? = scenario_A_state.set_log_cache[i]?) ∧
      s'.set_log_tags.filter (fun x => decide (x.tag ≠ "b")) =
        scenario_A_state.set_log_tags.filter (fun x => decide (x.tag ≠ "b")) ∧
      (∀ t, t ≠ "b" →
        get_uncached_log_level s'.set_log_tags t =
          get_uncached_log_level scenario_A_state.set_log_tags t)) ∧
    (∀ tag, ∃ s1 lvl, level_for_tag 3 text_abcd scenario_A_state tag = some (s1, lvl) ∧
      s1.set_log_default_level = scenario_A_state.set_log_default_level ∧
      s1.set_log_tags = scenario_A_state.set_log_tags ∧
      ∀ level, ∃ out, serial_log_write 3 text_abcd scenario_A_state level tag =
        some (s1, out)) :=
  ⟨by decide, scenario_A_reachable, by decide, by decide,
    C21_set_frame (by decide) text_abcd scenario_A_reachable "b" (by decide) 4 true⟩

/-! ## The generations stored by a run -/

theorem cached_generation_of_mem {s : State} (huniq : tags_unique s) {e : cached_tag_entry_t}
    (he : e ∈ occupied s) : cached_generation s e.tag = some e.generation := by
  unfold cached_generation
  cases hf : (occupied s).find? (fun x => decide (x.tag = e.tag)) with
  | none =>
    have := List.find?_eq_none.mp hf e he
    simp at this
  | some e0 =>
    have h0 : e0.tag = e.tag := by simpa using List.find?_some hf
    have hm : e0 ∈ occupied s := List.mem_of_find?_eq_some hf
    have : e0 = e := List.inj_on_of_nodup_map huniq hm he h0
    rw [this]
    rfl

theorem cached_generation_none {s : State} {tag : Nat} (h : ∀ e ∈ occupied s, e.tag ≠ tag) :
    cached_generation s tag = none := by
  unfold cached_generation
  rw [List.find?_eq_none.mpr (fun e he => by simpa using h e he)]
  rfl

/-- A call of the API other than the wildcard set, made in a well-formed state
with unique cached pointers, returns such a state; it either stores the
counter reduced to 29 bits in the entry of its tag and adds 1 to the counter
modulo `2^32`, or stores no generation and leaves the counter. -/
theorem stored_generation_api {C : Nat} (hC : C % 2 = 1) (text : Nat → String) {s : State}
    (hwf : WF C s) (huniq : tags_unique s) {op : Op} (hapi : api_call op)
    (hop : not_wildcard op) :
    ∃ s', step C text s op = some s' ∧ WF C s' ∧ tags_unique s' ∧
      ((stored_generation C text s op = some (s.set_log_cache_max_generation % 2 ^ 29) ∧
          s'.set_log_cache_max_generation = (s.set_log_cache_max_generation + 1) % 2 ^ 32) ∨
       (stored_generation C text s op = none ∧
          s'.set_log_cache_max_generation = s.set_log_cache_max_generation)) := by
  cases op with
  | add tag level => exact absurd hapi (by simp [api_call])
  | get tag => exact absurd hapi (by simp [api_call])
  | level_set tag level malloc_ok =>
    simp only [not_wildcard] at hop
    obtain ⟨s', hstep, hwf'⟩ := step_WF hC text hwf (.level_set tag level malloc_ok)
    refine ⟨s', hstep, hwf', tags_unique_level_set hwf huniq hstep, Or.inr ⟨rfl, ?_⟩⟩
    simp only [step] at hstep
    rcases serial_log_level_set_effect text hwf hop level malloc_ok with
      ⟨_, _, h'⟩ | ⟨tags', cache', _, _, h', _⟩
    · rw [h'] at hstep
      cases hstep
      rfl
    · rw [h'] at hstep
      cases hstep
      rfl
  | write tag =>
    rcases level_for_tag_effect hC text hwf tag with
      ⟨hmiss, s', hadd, hl⟩ | ⟨e, s', hmem, het, hget, hl⟩
    · have hstep : step C text s (.write tag) = some s' := by simp [step, hl]
      obtain ⟨s2, hadd2, hwf', _, _, hgen, hcase⟩ :=
        add_to_cache_effect hC hwf tag (uncached_level text s tag)
      rw [hadd] at hadd2
      cases hadd2
      have huniq' := tags_unique_add hC hwf huniq hmiss hadd
      have hnew : new_entry s tag (uncached_level text s tag) ∈ occupied s' := by
        rcases hcase with ⟨_, _, hocc⟩ | ⟨hfull, _, hperm⟩
        · rw [hocc]; simp
        · have hpos : 0 < (occupied s).length := by
            rw [occupied_length hwf]
            omega
          refine hperm.mem_iff.mpr (List.mem_iff_getElem?.mpr ⟨0, ?_⟩)
          rw [List.getElem?_set_eq_of_lt _ hpos]
      refine ⟨s', hstep, hwf', huniq', Or.inl ⟨?_, hgen⟩⟩
      have hcg := cached_generation_of_mem huniq' hnew
      simp only [stored_generation, cached_generation_none hmiss, hstep]
      exact hcg
    · have hstep : step C text s (.write tag) = some s' := by simp [step, hl]
      have hsome : (cached_generation s tag).isSome = true := by
        rw [← het, cached_generation_of_mem huniq hmem]
        rfl
      rcases get_cached_log_level_effect hC hwf tag with
        ⟨hget2, _⟩ | ⟨i, e0, s2, hi, het0, _, hget2, hwf', _, _, _, hcase⟩
      · rw [hget] at hget2
        cases hget2
      · rw [hget] at hget2
        simp only [Option.some.injEq, Prod.mk.injEq] at hget2
        obtain ⟨hs2, _⟩ := hget2
        subst hs2
        have huniq' := tags_unique_get hC hwf huniq hget
        refine ⟨s', hstep, hwf', huniq', ?_⟩
        rcases hcase with ⟨hne, hs⟩ | ⟨hfull, hgen, hperm⟩
        · right
          subst hs
          exact ⟨by simp [stored_generation, hsome, hne], rfl⟩
        · left
          refine ⟨?_, hgen⟩
          have hlt : i < (occupied s).length := (List.getElem?_eq_some.mp hi).1
          have hprom : promoted s e0 ∈ occupied s' := by
            refine hperm.mem_iff.mpr (List.mem_iff_getElem?.mpr ⟨i, ?_⟩)
            rw [List.getElem?_set_eq_of_lt _ hlt]
          have hcg := cached_generation_of_mem huniq' hprom
          have htag : (promoted s e0).tag = tag := het0
          rw [htag] at hcg
          simp only [stored_generation, hfull, ne_eq, not_true_eq_false, and_false, if_false,
            hstep, Option.some_bind]
          exact hcg

theorem map_mod_range_congr :
    ∀ (n a b : Nat), a % 2 ^ 29 = b % 2 ^ 29 →
      (List.range' a n).map (fun c => c % 2 ^ 29) = (List.range' b n).map (fun c => c % 2 ^ 29)
  | 0, _, _, _ => rfl
  | n + 1, a, b, h => by
    rw [List.range'_succ, List.range'_succ, List.map_cons, List.map_cons, h,
      map_mod_range_congr n (a + 1) (b + 1) (by omega)]

theorem map_mod_range_below :
    ∀ (n a : Nat), a % 2 ^ 29 + n ≤ 2 ^ 29 →
      (List.range' a n).map (fun c => c % 2 ^ 29) = List.range' (a % 2 ^ 29) n
  | 0, _, _ => rfl
  | n + 1, a, h => by
    rw [List.range'_succ, List.range'_succ, List.map_cons]
    cases n with
    | zero => rfl
    | succ n =>
      rw [map_mod_range_below (n + 1) (a + 1) (by omega)]
      congr 2
      omega

/-- The generations a run of API calls without a wildcard set stores, from a
well-formed state with unique cached pointers whose counter is `c`: the run
returns, and the `k`-th stored value is `(c + k) mod 2^29`. -/
theorem stored_generations_formula {C : Nat} (hC : C % 2 = 1) (text : Nat → String) :
    ∀ (ops : List Op) (s : State), WF C s → tags_unique s →
      (∀ op ∈ ops, api_call op ∧ not_wildcard op) →
      ∃ s', run C text s ops = some s' ∧
        s'.set_log_cache_max_generation % 2 ^ 32 =
          (s.set_log_cache_max_generation + (stored_generations C text s ops).length) % 2 ^ 32 ∧
        stored_generations C text s ops =
          (List.range' s.set_log_cache_max_generation
            (stored_generations C text s ops).length).map (fun c => c % 2 ^ 29)
  | [], s, _, _, _ => ⟨s, rfl, rfl, rfl⟩
  | op :: ops, s, hwf, huniq, hops => by
    obtain ⟨hapi, hop⟩ := hops op (List.mem_cons_self _ _)
    obtain ⟨s1, hstep, hwf1, huniq1, hcase⟩ := stored_generation_api hC text hwf huniq hapi hop
    obtain ⟨s', hr, hcount, htr⟩ := stored_generations_formula hC text ops s1 hwf1 huniq1
      (fun o ho => hops o (List.mem_cons_of_mem _ ho))
    have htrace : stored_generations C text s (op :: ops) =
        (stored_generation C text s op).toList ++ stored_generations C text s1 ops := by
      simp [stored_generations, hstep]
    have hrun : run C text s (op :: ops) = run C text s1 ops := by
      simp [run, hstep]
    rw [htrace, hrun]
    refine ⟨s', hr, ?_, ?_⟩
    · rcases hcase with ⟨hg, hc⟩ | ⟨hg, hc⟩
      · rw [hg]
        simp only [Option.toList, List.singleton_append, List.length_cons]
        rw [hc] at hcount
        omega
      · rw [hg]
        simp only [Option.toList, List.nil_append]
        rw [hc] at hcount
        exact hcount
    · rcases hcase with ⟨hg, hc⟩ | ⟨hg, hc⟩
      · rw [hg]
        simp only [Option.toList, List.singleton_append, List.length_cons]
        rw [List.range'_succ, List.map_cons]
        congr 1
        rw [htr]
        simp only [List.length_map, List.length_range']
        exact map_mod_range_congr _ _ _ (by rw [hc]; omega)
      · rw [hg]
        simp only [Option.toList, List.nil_append]
        rw [← hc]
        exact htr

/-- C14, amended (generations never reset except by the wildcard clear): for
every list of `serial_log_level_set` and `serial_log_write` calls without a
wildcard set, run from any reachable state with counter `c`: the run returns;
the value the `k`-th store leaves in the `generation` field of the entry it
writes is `(c + k) mod 2^29`, and the counter ends at `c` plus the number of
stores, modulo `2^32`; so the stored generations are strictly increasing in
the order they are stored whenever `c mod 2^29` plus the number of stores is
at most `2^29`, and they are `c, c + 1, ...` whenever `c` plus the number of
stores is at most `2^29`. -/
theorem C14_generations_increasing {C : Nat} (hC : C % 2 = 1) (text : Nat → String)
    {s : State} (hs : Reachable C text s) (ops : List Op)
    (hops : ∀ op ∈ ops, api_call op ∧ not_wildcard op) :
    ∃ s', run C text s ops = some s' ∧
      s'.set_log_cache_max_generation % 2 ^ 32 =
        (s.set_log_cache_max_generation + (stored_generations C text s ops).length) % 2 ^ 32 ∧
      stored_generations C text s ops =
        (List.range' s.set_log_cache_max_generation
          (stored_generations C text s ops).length).map (fun c => c % 2 ^ 29) ∧
      (s.set_log_cache_max_generation % 2 ^ 29 + (stored_generations C text s ops).length ≤
          2 ^ 29 →
        List.Pairwise (fun a b => a < b) (stored_generations C text s ops)) ∧
      (s.set_log_cache_max_generation + (stored_generations C text s ops).length ≤ 2 ^ 29 →
        stored_generations C text s ops =
          List.range' s.set_log_cache_max_generation
            (stored_generations C text s ops).length) := by
  obtain ⟨s', hr, hcount, htr⟩ := stored_generations_formula hC text ops s (Reach_WF hC hs)
    (Reach_tags_unique hC hs) hops
  refine ⟨s', hr, hcount, htr, ?_, ?_⟩
  · intro hle
    rw [htr, map_mod_range_below _ _ hle]
    exact List.pairwise_lt_range' _ _
  · intro hle
    by_cases hn : (stored_generations C text s ops).length = 0
    · rw [List.length_eq_zero.mp hn]
      rfl
    · have h1 := map_mod_range_below (stored_generations C text s ops).length
        s.set_log_cache_max_generation (by omega)
      rw [Nat.mod_eq_of_lt (show s.set_log_cache_max_generation < 2 ^ 29 by omega)] at h1
      rw [← h1]
      exact htr

theorem scenario_A_more_api : ∀ op ∈ scenario_A_more, api_call op ∧ not_wildcard op := by
  intro op hop
  simp only [scenario_A_more, List.mem_cons, List.mem_singleton, List.not_mem_nil,
    or_false] at hop
  rcases hop with h | h | h <;> subst h <;>
    simp [api_call, not_wildcard, SERIAL_LOG_VERBOSE]

theorem C14_generations_increasing_witness :
    3 % 2 = 1 ∧ Reachable 3 text_abcd scenario_A_state ∧
    (∀ op ∈ scenario_A_more, api_call op ∧ not_wildcard op) ∧
    scenario_A_state.set_log_cache_max_generation = 3 ∧
    stored_generations 3 text_abcd scenario_A_state scenario_A_more = [3, 4] ∧
    ∃ s', run 3 text_abcd scenario_A_state scenario_A_more = some s' ∧
      s'.set_log_cache_max_generation % 2 ^ 32 =
        (scenario_A_state.set_log_cache_max_generation +
          (stored_generations 3 text_abcd scenario_A_state scenario_A_more).length) % 2 ^ 32 ∧
      stored_generations 3 text_abcd scenario_A_state scenario_A_more =
        (List.range' scenario_A_state.set_log_cache_max_generation
          (stored_generations 3 text_abcd scenario_A_state scenario_A_more).length).map
            (fun c => c % 2 ^ 29) ∧
      (scenario_A_state.set_log_cache_max_generation % 2 ^ 29 +
          (stored_generations 3 text_abcd scenario_A_state scenario_A_more).length ≤ 2 ^ 29 →
        List.Pairwise (fun a b => a < b)
          (stored_generations 3 text_abcd scenario_A_state scenario_A_more)) ∧
      (scenario_A_state.set_log_cache_max_generation +
          (stored_generations 3 text_abcd scenario_A_state scenario_A_more).length ≤ 2 ^ 29 →
        stored_generations 3 text_abcd scenario_A_state scenario_A_more =
          List.range' scenario_A_state.set_log_cache_max_generation
            (stored_generations 3 text_abcd scenario_A_state scenario_A_more).length) :=
  ⟨by decide, scenario_A_reachable, scenario_A_more_api, rfl, by decide,
    C14_generations_increasing (by decide) text_abcd scenario_A_reachable scenario_A_more
      scenario_A_more_api⟩

/-! ## Past the width of the generation field -/

/-- The last two generations stored by `wrap_ops` are `2^29 - 1` and `0`. -/
theorem stored_generations_wrap_ops :
    ∃ l, stored_generations 31 (const_text "net") (init 31) wrap_ops = l ++ [2 ^ 29 - 1, 0] := by
  have h1 : run 31 (const_text "net") (init 31)
      (fill_ops ++ List.replicate (2 ^ 29 - 32) (Op.write 31)) = some (pumped (2 ^ 29 - 32)) := by
    rw [run_append _ _ _ _ _ _ fill_ops_run_plain, run_pumped _ _ _ (by omega)]
    congr 2
  refine ⟨stored_generations 31 (const_text "net") (init 31)
    (fill_ops ++ List.replicate (2 ^ 29 - 32) (Op.write 31)), ?_⟩
  unfold wrap_ops
  rw [stored_generations_append _ _ _ _ _ _ h1]
  congr 1

/-- C14 as stated fails for a sequence that stores more than `2^29`
generations: after one log call per tag for 31 tags and `2^29 - 30` log calls
for the tag cached last, the last two stored generations are `2^29 - 1` and
then `0`. -/
theorem C14_counterexample :
    (∀ op ∈ wrap_ops, api_call op ∧ not_wildcard op) ∧
    ¬ List.Pairwise (fun a b => a < b)
      (stored_generations TAG_CACHE_SIZE (const_text "net") (init TAG_CACHE_SIZE) wrap_ops) := by
  constructor
  · intro op hop
    simp only [wrap_ops, fill_ops, List.mem_append, List.mem_map, List.mem_replicate,
      List.mem_cons, List.mem_singleton, List.not_mem_nil, or_false] at hop
    rcases hop with (⟨j, _, h⟩ | ⟨_, h⟩) | h | h <;> subst h <;>
      simp [api_call, not_wildcard]
  · intro h
    obtain ⟨l, hl⟩ := stored_generations_wrap_ops
    rw [show TAG_CACHE_SIZE = 31 from rfl, hl] at h
    have h2 := (List.pairwise_append.mp h).2.1
    exact absurd (List.rel_of_pairwise_cons h2 (List.mem_singleton_self _)) (by decide)

/-! ## Promotion and eviction in a full cache -/

/-- C17, amended (hit promotion keeps the cache contents): in a reachable
state with a full cache, `get_cached_log_level` of a cached pointer returns
the level of its entry, adds 1 to the counter modulo `2^32` and leaves an
array that is a permutation of the old one with that entry given the old
counter modulo `2^29` as its generation: no other entry changes, the (tag,
level) pairs are the same collection, and the promoted entry is at an index
that is `C / 2` or more.  While the counter is below `2^29` the generation
stored is the old counter itself and the counter goes up by exactly 1. -/
theorem C17_hit_promotion {C : Nat} (hC : C % 2 = 1) (text : Nat → String) {s : State}
    (hs : Reachable C text s) (hfull : s.set_log_cache_entry_count = C)
    (i : Nat) (e : cached_tag_entry_t) (hie : s.set_log_cache[i]? = some e) :
    ∃ cache' last,
      get_cached_log_level C s e.tag =
        some ({ s with
                  set_log_cache_max_generation := (s.set_log_cache_max_generation + 1) % 2 ^ 32
                  set_log_cache := cache' }, some e.level) ∧
      cache'.Perm
        (s.set_log_cache.set i
          { e with generation := s.set_log_cache_max_generation % 2 ^ 29 }) ∧
      (cache'.map (fun x => (x.tag, x.level))).Perm
        (s.set_log_cache.map (fun x => (x.tag, x.level))) ∧
      C / 2 ≤ last ∧ last < C ∧
      cache'[last]? = some { e with generation := s.set_log_cache_max_generation % 2 ^ 29 } ∧
      (no_wrap s →
        get_cached_log_level C s e.tag =
          some ({ s with
                    set_log_cache_max_generation := s.set_log_cache_max_generation + 1
                    set_log_cache := cache' }, some e.level) ∧
        cache'.Perm
          (s.set_log_cache.set i { e with generation := s.set_log_cache_max_generation }) ∧
        cache'[last]? = some { e with generation := s.set_log_cache_max_generation }) := by
  have hwf := Reach_WF hC hs
  have hilt : i < s.set_log_cache.length := (List.getElem?_eq_some.mp hie).1
  obtain ⟨cache', hb, hget⟩ :=
    get_cached_log_level_full_hit hC hwf (Reach_tags_unique hC hs) hfull hie
  have hprom : promoted s e =
      { e with generation := s.set_log_cache_max_generation % 2 ^ 29 } := rfl
  have hbump : bump s cache' =
      { s with set_log_cache_max_generation := (s.set_log_cache_max_generation + 1) % 2 ^ 32
               set_log_cache := cache' } := rfl
  rw [hprom] at hb
  rw [hbump] at hget
  obtain ⟨hlen', hperm⟩ := heap_bubble_down_perm hC (by simp [hwf.1]) hb
  obtain ⟨last, hleaf, hsunk⟩ := heap_bubble_down_sunk hC (by simp [hwf.1]) hb
  rw [List.getElem?_set_eq_of_lt _ hilt] at hsunk
  refine ⟨cache', last, hget, hperm, ?_, hleaf, ?_, hsunk, ?_⟩
  · refine (hperm.map _).trans (List.Perm.of_eq ?_)
    exact map_set_same (fun x : cached_tag_entry_t => (x.tag, x.level)) hie rfl
  · have := (List.getElem?_eq_some.mp hsunk).1
    omega
  · intro hnw
    unfold no_wrap at hnw
    have h29 : s.set_log_cache_max_generation % 2 ^ 29 = s.set_log_cache_max_generation :=
      Nat.mod_eq_of_lt hnw
    have h32 : (s.set_log_cache_max_generation + 1) % 2 ^ 32 =
        s.set_log_cache_max_generation + 1 := Nat.mod_eq_of_lt (by omega)
    rw [h29] at hperm hsunk
    rw [h32] at hget
    exact ⟨hget, hperm, hsunk⟩

theorem C17_hit_promotion_witness :
    3 % 2 = 1 ∧ Reachable 3 text_abcd scenario_A_state ∧
    scenario_A_state.set_log_cache_entry_count = 3 ∧ no_wrap scenario_A_state ∧
    scenario_A_state.set_log_cache[0]? = some ⟨1, 1, 0⟩ ∧
    get_cached_log_level 3 scenario_A_state 1 =
      some ({ scenario_A_state with
                set_log_cache_max_generation := 4
                set_log_cache := [⟨2, 2, 1⟩, ⟨1, 1, 3⟩, ⟨3, 3, 2⟩] }, some 1) ∧
    ∃ cache' last,
      get_cached_log_level 3 scenario_A_state (⟨1, 1, 0⟩ : cached_tag_entry_t).tag =
        some ({ scenario_A_state with
                  set_log_cache_max_generation :=
                    (scenario_A_state.set_log_cache_max_generation + 1) % 2 ^ 32
                  set_log_cache := cache' }, some (⟨1, 1, 0⟩ : cached_tag_entry_t).level) ∧
      cache'.Perm
        (scenario_A_state.set_log_cache.set 0
          { (⟨1, 1, 0⟩ : cached_tag_entry_t) with
            generation := scenario_A_state.set_log_cache_max_generation % 2 ^ 29 }) ∧
      (cache'.map (fun x => (x.tag, x.level))).Perm
        (scenario_A_state.set_log_cache.map (fun x => (x.tag, x.level))) ∧
      3 / 2 ≤ last ∧ last < 3 ∧
      cache'[last]? = some { (⟨1, 1, 0⟩ : cached_tag_entry_t) with
        generation := scenario_A_state.set_log_cache_max_generation % 2 ^ 29 } ∧
      (no_wrap scenario_A_state →
        get_cached_log_level 3 scenario_A_state (⟨1, 1, 0⟩ : cached_tag_entry_t).tag =
          some ({ scenario_A_state with
                    set_log_cache_max_generation :=
                      scenario_A_state.set_log_cache_max_generation + 1
                    set_log_cache := cache' }, some (⟨1, 1, 0⟩ : cached_tag_entry_t).level) ∧
        cache'.Perm
          (scenario_A_state.set_log_cache.set 0
            { (⟨1, 1, 0⟩ : cached_tag_entry_t) with
              generation := scenario_A_state.set_log_cache_max_generation }) ∧
        cache'[last]? = some { (⟨1, 1, 0⟩ : cached_tag_entry_t) with
          generation := scenario_A_state.set_log_cache_max_generation }) :=
  ⟨by decide, scenario_A_reachable, rfl, below_wrap_sound (by decide), by decide, by decide,
    C17_hit_promotion (by decide) text_abcd scenario_A_reachable rfl 0 ⟨1, 1, 0⟩ (by decide)⟩

/-- C7, amended (eviction of the oldest entry): for a capacity `C = 2^n - 1`
with `n ≥ 2`, in every reachable state with a full cache,
`add_to_cache(tag, level)` with a level in `NONE..VERBOSE` returns a state
whose array is a reordering of the new entry, stored with the counter modulo
`2^29` as its generation, together with the entries at indices 1 to C-1
unchanged: the entry at index 0 is the one removed; the entry count is still
`C` and the counter has gone up by 1 modulo `2^32`.  If moreover the counter
has not passed `2^29` since the start or the last wildcard set, the entry at
index 0 has a generation strictly below that of all other entries; and if the
counter is also below `2^29`, the new entry is stored with the counter itself,
the counter goes up by exactly 1 and the array is heap-ordered again. -/
theorem C7_eviction {C : Nat} (n : Nat) (hn : 2 ≤ n) (hCn : C = 2 ^ n - 1)
    (text : Nat → String) {s : State} (hs : Reachable C text s)
    (hfull : s.set_log_cache_entry_count = C) (tag level : Nat)
    (hlevel : level ≤ SERIAL_LOG_VERBOSE) :
    ∃ old s', s.set_log_cache[0]? = some old ∧
      add_to_cache C s tag level = some s' ∧
      s'.set_log_cache.Perm
        (⟨tag, level, s.set_log_cache_max_generation % 2 ^ 29⟩ :: s.set_log_cache.tail) ∧
      s'.set_log_cache_entry_count = C ∧
      s'.set_log_cache_max_generation = (s.set_log_cache_max_generation + 1) % 2 ^ 32 ∧
      (Unwrapped C text s →
        (∀ i e, 1 ≤ i → s.set_log_cache[i]? = some e → old.generation < e.generation) ∧
        (no_wrap s →
          s'.set_log_cache.Perm
            (⟨tag, level, s.set_log_cache_max_generation⟩ :: s.set_log_cache.tail) ∧
          s'.set_log_cache_max_generation = s.set_log_cache_max_generation + 1 ∧
          heap_ordered s'.set_log_cache C)) := by
  have hC : C % 2 = 1 := hCn ▸ pow_two_sub_one_odd (by omega)
  have hwf := Reach_WF hC hs
  have hpos : 0 < s.set_log_cache.length := by
    rw [hwf.1, hCn]
    have := Nat.two_pow_pos n
    have : 2 ^ 2 ≤ 2 ^ n := Nat.pow_le_pow_right (by decide) hn
    omega
  have h0 : s.set_log_cache[0]? = some s.set_log_cache[0] := List.getElem?_eq_getElem hpos
  obtain ⟨cache', hb, hadd⟩ := add_to_cache_full hC hwf (by omega) tag level
  have hnew : new_entry s tag level =
      ⟨tag, level, s.set_log_cache_max_generation % 2 ^ 29⟩ := by
    simp only [new_entry, (mod_eq_of_le_verbose hlevel).1]
  obtain ⟨_, hperm⟩ := heap_bubble_down_perm hC (by simp [hwf.1]) hb
  have hperm' : cache'.Perm
      (⟨tag, level, s.set_log_cache_max_generation % 2 ^ 29⟩ :: s.set_log_cache.tail) := by
    rw [← hnew, ← set_zero_eq_cons_tail _ _ hpos]
    exact hperm
  refine ⟨s.set_log_cache[0], bump s cache', h0, hadd, hperm', hfull, rfl, ?_⟩
  intro hu
  have hinv := (Unwrapped_inv hC hu).1
  refine ⟨?_, ?_⟩
  · intro i e hi1 hie
    have hic : i < s.set_log_cache_entry_count := by
      rw [hfull, ← hwf.1]
      exact (List.getElem?_eq_some.mp hie).1
    exact hinv.root_lt h0 hi1 hic hie
  · intro hnw
    have hinv' := HeapInv_replace hC hinv hnw hfull h0 rfl hb
    unfold no_wrap at hnw
    refine ⟨?_, ?_, ?_⟩
    · have h29 : s.set_log_cache_max_generation % 2 ^ 29 = s.set_log_cache_max_generation :=
        Nat.mod_eq_of_lt hnw
      rw [h29] at hperm'
      exact hperm'
    · simp only [bump]
      omega
    · have := hinv'.ordered
      simp only [bump] at this ⊢
      rw [hfull] at this
      exact this

theorem C7_eviction_witness :
    2 ≤ 2 ∧ 3 = 2 ^ 2 - 1 ∧ Reachable 3 text_abcd scenario_A_state ∧
    scenario_A_state.set_log_cache_entry_count = 3 ∧ 4 ≤ SERIAL_LOG_VERBOSE ∧
    Unwrapped 3 text_abcd scenario_A_state ∧ no_wrap scenario_A_state ∧
    add_to_cache 3 scenario_A_state 4 4 =
      some { scenario_A_state with
        set_log_cache_max_generation := 4
        set_log_cache := scenario_A_after } ∧
    (∃ old s', scenario_A_state.set_log_cache[0]? = some old ∧
      add_to_cache 3 scenario_A_state 4 4 = some s' ∧
      s'.set_log_cache.Perm
        (⟨4, 4, scenario_A_state.set_log_cache_max_generation % 2 ^ 29⟩ ::
          scenario_A_state.set_log_cache.tail) ∧
      s'.set_log_cache_entry_count = 3 ∧
      s'.set_log_cache_max_generation =
        (scenario_A_state.set_log_cache_max_generation + 1) % 2 ^ 32 ∧
      (Unwrapped 3 text_abcd scenario_A_state →
        (∀ i e, 1 ≤ i → scenario_A_state.set_log_cache[i]? = some e →
          old.generation < e.generation) ∧
        (no_wrap scenario_A_state →
          s'.set_log_cache.Perm
            (⟨4, 4, scenario_A_state.set_log_cache_max_generation⟩ ::
              scenario_A_state.set_log_cache.tail) ∧
          s'.set_log_cache_max_generation =
            scenario_A_state.set_log_cache_max_generation + 1 ∧
          heap_ordered s'.set_log_cache 3))) :=
  ⟨by decide, by decide, scenario_A_reachable, rfl, by decide, scenario_A_unwrapped,
    below_wrap_sound (by decide), by decide,
    C7_eviction 2 (by decide) (by decide) text_abcd scenario_A_reachable rfl 4 4 (by decide)⟩

/-! ## The reset and the coherence of the cache, from states with overrides -/

theorem C2_wildcard_reset_witness :
    3 % 2 = 1 ∧ Reachable 3 text_abcd scenario_A_state ∧ 1 ≤ SERIAL_LOG_VERBOSE ∧
    get_uncached_log_level scenario_A_state.set_log_tags "b" = some 2 ∧
    scenario_A_state.set_log_cache[1]? = some ⟨2, 2, 1⟩ ∧
    (level_for_tag 3 text_abcd scenario_A_state 2).map Prod.snd = some 2 ∧
    serial_log_level_set text_abcd scenario_A_state "*" 1 true =
      some { scenario_A_state with
               set_log_default_level := 1
               set_log_tags := []
               set_log_cache_max_generation := 0
               set_log_cache_entry_count := 0 } ∧
    ∃ s1, serial_log_level_set text_abcd scenario_A_state "*" 1 true = some s1 ∧
      s1.set_log_default_level = 1 ∧ s1.set_log_tags = [] ∧
      s1.set_log_cache_entry_count = 0 ∧ s1.set_log_cache_max_generation = 0 ∧
      ∀ tags : List Nat, ∃ s2, run 3 text_abcd s1 (tags.map Op.write) = some s2 ∧
        ∀ tag, ∃ s3, level_for_tag 3 text_abcd s2 tag = some (s3, 1) :=
  ⟨by decide, scenario_A_reachable, by decide, by decide, by decide, by decide, by decide,
    C2_wildcard_reset (by decide) text_abcd scenario_A_reachable 1 (by decide) true⟩

theorem interned_abc : Interned text_abcd (fun p => p = 1 ∨ p = 2 ∨ p = 3) := by
  intro p q hp hq
  rcases hp with rfl | rfl | rfl <;> rcases hq with rfl | rfl | rfl <;> simp [text_abcd]

theorem patched_reachable :
    Reach 3 text_abcd (fun _ op => api_call op ∧ op_tags_in (fun p => p = 1 ∨ p = 2 ∨ p = 3) op)
      patched_state :=
  Reach_run_guarded (g := fun _ op => is_abc_call op)
    (fun _ op h => by
      cases op <;> simp_all [is_abc_call, api_call, op_tags_in])
    patched_ops Reach.init (by decide)

theorem C5_cache_coherence_witness :
    3 % 2 = 1 ∧ Interned text_abcd (fun p => p = 1 ∨ p = 2 ∨ p = 3) ∧
    Reach 3 text_abcd (fun _ op => api_call op ∧ op_tags_in (fun p => p = 1 ∨ p = 2 ∨ p = 3) op)
      patched_state ∧
    patched_state.set_log_cache[0]? = some ⟨1, 1, 0⟩ ∧
    uncached_level text_abcd patched_state 1 = 1 ∧
    patched_state.set_log_cache[2]? = some ⟨3, 5, 2⟩ ∧
    uncached_level text_abcd patched_state 3 = 5 ∧
    (∀ i e, i < patched_state.set_log_cache_entry_count →
      patched_state.set_log_cache[i]? = some e →
      e.level = uncached_level text_abcd patched_state e.tag) ∧
    (∀ tag, tag = 1 ∨ tag = 2 ∨ tag = 3 →
      ∃ s', level_for_tag 3 text_abcd patched_state tag =
        some (s', uncached_level text_abcd patched_state tag)) :=
  ⟨by decide, interned_abc, patched_reachable, by decide, by decide, by decide, by decide,
    C5_cache_coherence (C := 3) (by decide) text_abcd (fun p => p = 1 ∨ p = 2 ∨ p = 3)
      interned_abc patched_reachable⟩

theorem C8_capacity_bound_witness :
    TAG_CACHE_SIZE % 2 = 1 ∧ Reachable TAG_CACHE_SIZE (const_text "net") (pumped 0) ∧
    (pumped 0).set_log_cache_entry_count = TAG_CACHE_SIZE ∧
    (pumped 0).set_log_cache_entry_count ≤ TAG_CACHE_SIZE ∧
    (pumped 0).set_log_cache.length = TAG_CACHE_SIZE ∧
    ∀ op, ∃ s', step TAG_CACHE_SIZE (const_text "net") (pumped 0) op = some s' ∧
      s'.set_log_cache_entry_count ≤ TAG_CACHE_SIZE ∧
      s'.set_log_cache.length = TAG_CACHE_SIZE :=
  ⟨by decide, (pumped_reachable 0 (Nat.zero_le _)).1, rfl,
    C8_capacity_bound (C := TAG_CACHE_SIZE) (by decide) (const_text "net")
      (pumped_reachable 0 (Nat.zero_le _)).1⟩

end SerialLog
